import Mathlib

/-!
Verification of the wake compiler front end (lexer layout handling, the
"fracture" name-resolution pass, publish/subscribe chaining, the pattern
compiler, type inference on applications) and of the path utilities in
`sources.cpp`, against a shallow embedding of the C++ sources.

Each C++ function referenced by a claim is translated into an executable
Lean definition keeping the source's name where possible.  Stateful code
is embedded by explicit state passing; diagnostics written to `std::cerr`
are modelled as values carried in the result.
-/

namespace Wake

/-! ## Lexer layout handling (`symbol.re`)

`state_t` holds the indentation stack `tabs` (C++ `std::vector<int>`, top
at the back; modelled here with the top at the head), the pending line
indent, and the `eol` flag.  `Lexer::consume` emits exactly one token per
call; for a fresh line of indent `n` the successive calls pop `tabs`
emitting one `DEDENT` per pop while `n < tabs.top`, then emit `EOL`, and
on the following call push and emit `INDENT` if `n > tabs.top`. -/

inductive Token where
  | INDENT | DEDENT | EOL
  deriving DecidableEq, Repr

structure state_t where
  tabs : List Nat
  indent : Nat
  eol : Bool
  deriving Repr

/-- The `state_t` constructor: `tabs.push_back(0)`. -/
def state_t_init : state_t := { tabs := [0], indent := 0, eol := false }

/-- The `state->eol` branch of `Lexer::consume`, iterated over the calls it
takes to clear the `eol` flag: while `indent < tabs.back()` pop and emit
`DEDENT`, then emit `EOL`.  (The stack is modelled top-first.) -/
def handleEol : List Nat → Nat → List Token × List Nat
  | [], _ => ([Token.EOL], [])
  | t :: ts, n =>
    if n < t then
      let r := handleEol ts n
      (Token.DEDENT :: r.1, r.2)
    else ([Token.EOL], t :: ts)

/-- The `state->indent > state->tabs.back()` branch of `Lexer::consume`:
push the indent and emit one `INDENT`. -/
def handleIndent : List Nat → Nat → List Token × List Nat
  | [], _ => ([], [])
  | t :: ts, n =>
    if n > t then ([Token.INDENT], n :: t :: ts) else ([], t :: ts)

/-- All layout tokens `Lexer::consume` emits for one line of indent `n`,
starting from indentation stack `tabs`, together with the stack left for
the next line. -/
def consumeLine (tabs : List Nat) (n : Nat) : List Token × List Nat :=
  let r := handleEol tabs n
  let s := handleIndent r.2 n
  (r.1 ++ s.1, s.2)

theorem handleEol_spec (tabs : List Nat) (n : Nat) :
    handleEol tabs n =
      (List.replicate (tabs.takeWhile (fun t => decide (n < t))).length Token.DEDENT
         ++ [Token.EOL],
       tabs.dropWhile (fun t => decide (n < t))) := by
  induction tabs with
  | nil => simp [handleEol]
  | cons t ts ih =>
    by_cases h : n < t
    · simp [handleEol, h, List.takeWhile_cons, List.dropWhile_cons, ih,
        List.replicate_succ]
    · simp [handleEol, h, List.takeWhile_cons, List.dropWhile_cons]

/-- After the dedent loop the remaining top of the stack is at most `n`:
the lexer can never be left with `indent < tabs.back()` once `EOL` is
emitted, provided `0` is on the stack (as the constructor guarantees). -/
theorem handleEol_top_le (tabs : List Nat) (n : Nat) (h0 : 0 ∈ tabs) :
    ∃ t ts, (handleEol tabs n).2 = t :: ts ∧ t ≤ n := by
  induction tabs with
  | nil => cases h0
  | cons t ts ih =>
    by_cases h : n < t
    · have h0' : 0 ∈ ts := by
        rcases List.mem_cons.mp h0 with h' | h'
        · omega
        · exact h'
      rcases ih h0' with ⟨u, us, hu, hun⟩
      exact ⟨u, us, by simpa [handleEol, h] using hu, hun⟩
    · exact ⟨t, ts, by simp [handleEol, h], by omega⟩

/-- C8: the lexer's indentation stack is initialized to `[0]`; for every
line, if its indent `n` exceeds the stack top one `INDENT` is emitted and
`n` pushed; if `n` is below the top, entries are popped with one `DEDENT`
per pop until `n` is at least the top; and after popping the indent can
never still be below the top (so the error proviso is vacuous). -/
theorem claim_C8_lexer_indent (tabs : List Nat) (n : Nat) (h0 : 0 ∈ tabs) :
    state_t_init.tabs = [0] ∧
    (∀ t ts, tabs = t :: ts → n > t →
      consumeLine tabs n = ([Token.EOL, Token.INDENT], n :: tabs)) ∧
    (∃ t' ts', tabs.dropWhile (fun u => decide (n < u)) = t' :: ts' ∧ t' ≤ n ∧
      consumeLine tabs n =
        (List.replicate (tabs.takeWhile (fun u => decide (n < u))).length Token.DEDENT
           ++ Token.EOL :: (if n > t' then [Token.INDENT] else []),
         if n > t' then n :: t' :: ts' else t' :: ts')) := by
  refine ⟨rfl, ?_, ?_⟩
  · rintro t ts rfl hgt
    have hnlt : ¬ n < t := by omega
    simp [consumeLine, handleEol, handleIndent, hnlt, hgt]
  · rcases handleEol_top_le tabs n h0 with ⟨t', ts', hdrop, hle⟩
    rw [handleEol_spec] at hdrop
    refine ⟨t', ts', hdrop, hle, ?_⟩
    by_cases hgt : n > t'
    · simp [consumeLine, handleEol_spec, hdrop, handleIndent, hgt]
    · simp [consumeLine, handleEol_spec, hdrop, handleIndent, hgt]

theorem claim_C8_lexer_indent_witness :
    (0 : Nat) ∈ [4, 2, 0] ∧
    (state_t_init.tabs = [0] ∧
     (∀ t ts, ([4, 2, 0] : List Nat) = t :: ts → 3 > t →
       consumeLine [4, 2, 0] 3 = ([Token.EOL, Token.INDENT], 3 :: [4, 2, 0])) ∧
     (∃ t' ts',
       ([4, 2, 0] : List Nat).dropWhile (fun u => decide (3 < u)) = t' :: ts' ∧
       t' ≤ 3 ∧
       consumeLine [4, 2, 0] 3 =
        (List.replicate
            (([4, 2, 0] : List Nat).takeWhile (fun u => decide (3 < u))).length
            Token.DEDENT
           ++ Token.EOL :: (if 3 > t' then [Token.INDENT] else []),
         if 3 > t' then 3 :: t' :: ts' else t' :: ts'))) :=
  ⟨by decide, claim_C8_lexer_indent [4, 2, 0] 3 (by decide)⟩

/-! ## Path canonicalization (`sources.cpp`)

`make_canonical` is embedded over `List Char` (the byte sequence of a
`std::string`).  The C++ splitting loop (`find_first_of('/')`) is exactly
`List.splitOn '/'`; the `tokens` vector is kept in reverse order so that
`push_back`/`pop_back` become head operations. -/

/-- One step of the token loop of `make_canonical` (sources.cpp lines
121-136).  State: the count of `"../"` prefixes written to `str` paired
with the `tokens` vector in reverse. -/
def canonStep (abs : Bool) (s : Nat × List (List Char)) (token : List Char) :
    Nat × List (List Char) :=
  if token = ['.', '.'] then
    match s with
    | (u, _ :: rest) => (u, rest)
    | (u, []) => if abs then (u, []) else (u + 1, [])
  else if token ≠ [] ∧ token ≠ ['.'] then (s.1, token :: s.2)
  else s

/-- The final rendering of `make_canonical` (sources.cpp lines 138-155),
given the absolute flag, the number of emitted `"../"` and the (forward
order) tokens. -/
def canonRender (abs : Bool) (ups : Nat) (toks : List (List Char)) : List Char :=
  if toks = [] then
    if abs then ['/']
    else if ups = 0 then ['.']
    else List.intercalate ['/'] (List.replicate ups ['.', '.'])
  else
    if abs then '/' :: List.intercalate ['/'] toks
    else List.intercalate ['/'] (List.replicate ups ['.', '.'] ++ toks)

/-- `make_canonical` from sources.cpp. -/
def make_canonical (x : List Char) : List Char :=
  let abs := decide (x.head? = some '/')
  let s := (x.splitOn '/').foldl (canonStep abs) (0, [])
  canonRender abs s.1 s.2.reverse

/-- A token surviving in the `tokens` vector: nonempty, not `"."`, not
`".."`, and (being the result of splitting on `'/'`) slash-free. -/
def CleanTok (t : List Char) : Prop :=
  t ≠ [] ∧ t ≠ ['.'] ∧ t ≠ ['.', '.'] ∧ '/' ∉ t

/-- The components of a rendered path: segments between slashes, with the
root slash of an absolute path not opening a segment. -/
def pathComponents (s : List Char) : List (List Char) :=
  if s = ['/'] then []
  else if s.head? = some '/' then s.tail.splitOn '/'
  else s.splitOn '/'

theorem mem_splitOn_not_mem {x : Char} {xs : List Char} :
    ∀ t ∈ xs.splitOn x, x ∉ t := by
  induction xs with
  | nil =>
    intro t ht
    simp only [List.splitOn_nil, List.mem_singleton] at ht
    simp [ht]
  | cons a xs ih =>
    intro t ht
    simp only [List.splitOn, List.splitOnP_cons] at ht ih
    by_cases h : a = x
    · simp only [h, beq_self_eq_true, if_pos] at ht
      rcases List.mem_cons.mp ht with rfl | ht
      · simp
      · exact ih t ht
    · rw [if_neg (by simpa using h)] at ht
      rcases hsp : xs.splitOnP (· == x) with _ | ⟨hd, tl⟩
      · exact absurd hsp (List.splitOnP_ne_nil _ xs)
      · rw [hsp] at ht
        simp only [List.modifyHead, List.mem_cons] at ht
        rcases ht with rfl | ht
        · intro hx
          rcases List.mem_cons.mp hx with rfl | hx
          · exact h rfl
          · exact ih hd (by rw [hsp]; exact List.mem_cons_self _ _) hx
        · exact ih t (by rw [hsp]; exact List.mem_cons_of_mem _ ht)

theorem intercalate_slash_cons2 (t u : List Char) (ts : List (List Char)) :
    List.intercalate ['/'] (t :: u :: ts) =
      t ++ '/' :: List.intercalate ['/'] (u :: ts) := by
  simp [List.intercalate, List.intersperse]

theorem intercalate_slash_single (t : List Char) :
    List.intercalate ['/'] [t] = t := by
  simp [List.intercalate]

theorem canonStep_nil (abs : Bool) (s : Nat × List (List Char)) :
    canonStep abs s [] = s := by
  simp [canonStep]

theorem canonStep_dot (abs : Bool) (s : Nat × List (List Char)) :
    canonStep abs s ['.'] = s := by
  simp [canonStep]

theorem canonStep_push (abs : Bool) (s : Nat × List (List Char)) (a : List Char)
    (h2 : a ≠ ['.', '.']) (h0 : a ≠ []) (h1 : a ≠ ['.']) :
    canonStep abs s a = (s.1, a :: s.2) := by
  simp [canonStep, h0, h1, h2]

theorem canonStep_clean (abs : Bool) (s : Nat × List (List Char)) (a : List Char)
    (ha : '/' ∉ a) (hs : ∀ t ∈ s.2, CleanTok t) :
    ∀ t ∈ (canonStep abs s a).2, CleanTok t := by
  by_cases hdd : a = ['.', '.']
  · subst hdd
    rcases s with ⟨u, _ | ⟨b, rest⟩⟩
    · cases abs <;> simp [canonStep]
    · intro t ht
      exact hs t (List.mem_cons_of_mem _ (by simpa [canonStep] using ht))
  · by_cases h0 : a = []
    · subst h0; rw [canonStep_nil]; exact hs
    · by_cases h1 : a = ['.']
      · subst h1; rw [canonStep_dot]; exact hs
      · rw [canonStep_push abs s a hdd h0 h1]
        intro t ht
        rcases List.mem_cons.mp ht with rfl | ht
        · exact ⟨h0, h1, hdd, ha⟩
        · exact hs t ht

theorem canonStep_abs_ups (s : Nat × List (List Char)) (a : List Char) :
    (canonStep true s a).1 = s.1 := by
  by_cases hdd : a = ['.', '.']
  · subst hdd
    rcases s with ⟨u, _ | ⟨b, rest⟩⟩ <;> simp [canonStep]
  · by_cases h0 : a = []
    · subst h0; rw [canonStep_nil]
    · by_cases h1 : a = ['.']
      · subst h1; rw [canonStep_dot]
      · rw [canonStep_push true s a hdd h0 h1]

/-- Pushing a run of clean tokens just stacks them. -/
theorem canonFold_pushes (abs : Bool) (l : List (List Char))
    (hl : ∀ t ∈ l, CleanTok t) :
    ∀ s : Nat × List (List Char), l.foldl (canonStep abs) s = (s.1, l.reverse ++ s.2) := by
  induction l with
  | nil => intro s; simp
  | cons t ts ih =>
    intro s
    obtain ⟨h1, h2, h3, _⟩ := hl t (List.mem_cons_self _ _)
    rw [List.foldl_cons, canonStep_push abs s t h3 h1 h2,
      ih (fun t ht => hl t (List.mem_cons_of_mem _ ht))]
    simp

/-- A run of `".."` tokens on an empty stack of a relative path counts up. -/
theorem canonFold_ups (k : Nat) :
    ∀ u, (List.replicate k ['.', '.']).foldl (canonStep false) (u, []) = (u + k, []) := by
  induction k with
  | zero => intro u; simp
  | succ k ih =>
    intro u
    have hstep : canonStep false (u, []) ['.', '.'] = (u + 1, []) := by
      simp [canonStep]
    rw [List.replicate_succ, List.foldl_cons, hstep, ih]
    have huk : u + 1 + k = u + (k + 1) := by omega
    rw [huk]

/-- The token loop leaves only clean tokens in the vector. -/
theorem canonFold_clean (abs : Bool) (l : List (List Char))
    (hl : ∀ t ∈ l, '/' ∉ t) :
    ∀ s : Nat × List (List Char), (∀ t ∈ s.2, CleanTok t) →
      ∀ t ∈ (l.foldl (canonStep abs) s).2, CleanTok t := by
  induction l with
  | nil => intro s hs; exact hs
  | cons a l ih =>
    intro s hs
    rw [List.foldl_cons]
    exact ih (fun t ht => hl t (List.mem_cons_of_mem _ ht)) _
      (canonStep_clean abs s a (hl a (List.mem_cons_self _ _)) hs)

/-- With the absolute flag the `"../"` counter never moves. -/
theorem canonFold_abs_ups (l : List (List Char)) :
    ∀ s : Nat × List (List Char), (l.foldl (canonStep true) s).1 = s.1 := by
  induction l with
  | nil => intro s; rfl
  | cons a l ih =>
    intro s
    rw [List.foldl_cons, ih, canonStep_abs_ups]

theorem splitOn_cons_slash (l : List Char) :
    ('/' :: l).splitOn '/' = [] :: l.splitOn '/' := by
  simp [List.splitOn, List.splitOnP_cons]

theorem intercalate_slash_ne_nil (t : List Char) (ts : List (List Char))
    (ht : t ≠ []) : List.intercalate ['/'] (t :: ts) ≠ [] := by
  cases ts with
  | nil => rw [intercalate_slash_single]; exact ht
  | cons u us =>
    rw [intercalate_slash_cons2]
    rcases t with _ | ⟨c, cs⟩
    · exact absurd rfl ht
    · simp

theorem intercalate_slash_head (t : List Char) (ts : List (List Char))
    (ht : t ≠ []) :
    (List.intercalate ['/'] (t :: ts)).head? = t.head? := by
  cases ts with
  | nil => rw [intercalate_slash_single]
  | cons u us =>
    rw [intercalate_slash_cons2]
    rcases t with _ | ⟨c, cs⟩
    · exact absurd rfl ht
    · simp

/-- Every path assembled by `make_canonical` is a render of a clean state. -/
theorem make_canonical_shape (x : List Char) :
    ∃ abs ups toks, make_canonical x = canonRender abs ups toks ∧
      (∀ t ∈ toks, CleanTok t) ∧ (abs = true → ups = 0) := by
  refine ⟨decide (x.head? = some '/'),
    ((x.splitOn '/').foldl (canonStep (decide (x.head? = some '/'))) (0, [])).1,
    ((x.splitOn '/').foldl (canonStep (decide (x.head? = some '/'))) (0, [])).2.reverse,
    rfl, ?_, ?_⟩
  · intro t ht
    exact canonFold_clean _ _ (fun u hu => mem_splitOn_not_mem u hu) (0, [])
      (by intro u hu; cases hu) t (List.mem_reverse.mp ht)
  · intro habs
    rw [habs, canonFold_abs_ups]

theorem make_canonical_unfold (x : List Char) :
    make_canonical x =
      canonRender (decide (x.head? = some '/'))
        ((x.splitOn '/').foldl (canonStep (decide (x.head? = some '/'))) (0, [])).1
        ((x.splitOn '/').foldl (canonStep (decide (x.head? = some '/'))) (0, [])).2.reverse :=
  rfl

/-- The renders of clean states are exactly the fixed points of
`make_canonical`. -/
theorem make_canonical_canonRender (abs : Bool) (ups : Nat) (toks : List (List Char))
    (htoks : ∀ t ∈ toks, CleanTok t) (habs : abs = true → ups = 0) :
    make_canonical (canonRender abs ups toks) = canonRender abs ups toks := by
  rcases toks with _ | ⟨t, ts⟩
  · cases abs with
    | true =>
      rw [habs rfl]
      have h : canonRender true 0 [] = ['/'] := rfl
      rw [h]; decide
    | false =>
      rcases ups with _ | k
      · have h : canonRender false 0 [] = ['.'] := rfl
        rw [h]; decide
      · have h : canonRender false (k+1) [] =
            List.intercalate ['/'] (List.replicate (k+1) ['.', '.']) := rfl
        rw [h]
        have hsplit : (List.intercalate ['/']
            (List.replicate (k+1) ['.', '.'])).splitOn '/' =
            List.replicate (k+1) ['.', '.'] := by
          refine List.splitOn_intercalate _ '/' ?_ (by simp)
          intro l hl
          rw [List.eq_of_mem_replicate hl]
          decide
        have hhead : (decide ((List.intercalate ['/']
            (List.replicate (k+1) ['.', '.'])).head? = some '/')) = false := by
          rw [List.replicate_succ, intercalate_slash_head _ _ (by decide)]
          decide
        rw [make_canonical_unfold, hhead, hsplit, canonFold_ups]
        simpa using h
  · have htoksne : (t :: ts : List (List Char)) ≠ [] := by simp
    have hnos : ∀ l ∈ t :: ts, '/' ∉ l := fun l hl => (htoks l hl).2.2.2
    have hsplit : (List.intercalate ['/'] (t :: ts)).splitOn '/' = t :: ts :=
      List.splitOn_intercalate _ '/' hnos htoksne
    cases abs with
    | true =>
      rw [habs rfl]
      have h : canonRender true 0 (t :: ts) =
          '/' :: List.intercalate ['/'] (t :: ts) := rfl
      rw [h]
      have hhead : (decide ((('/' : Char) ::
          List.intercalate ['/'] (t :: ts)).head? = some '/')) = true := by simp
      rw [make_canonical_unfold, hhead, splitOn_cons_slash, hsplit,
        List.foldl_cons, canonStep_nil, canonFold_pushes true _ htoks (0, [])]
      simp [canonRender]
    | false =>
      have h : canonRender false ups (t :: ts) =
          List.intercalate ['/'] (List.replicate ups ['.', '.'] ++ t :: ts) := rfl
      rw [h]
      have hall : ∀ l ∈ List.replicate ups ['.', '.'] ++ t :: ts, '/' ∉ l := by
        intro l hl
        rcases List.mem_append.mp hl with hl | hl
        · rw [List.eq_of_mem_replicate hl]; decide
        · exact hnos l hl
      have hsplit2 : (List.intercalate ['/']
          (List.replicate ups ['.', '.'] ++ t :: ts)).splitOn '/' =
          List.replicate ups ['.', '.'] ++ t :: ts :=
        List.splitOn_intercalate _ '/' hall (by simp)
      have hheadne : (decide ((List.intercalate ['/']
          (List.replicate ups ['.', '.'] ++ t :: ts)).head? = some '/')) = false := by
        rcases ups with _ | k
        · rw [List.replicate_zero, List.nil_append,
            intercalate_slash_head t ts (htoks t (List.mem_cons_self _ _)).1]
          rcases t with _ | ⟨c, cs⟩
          · exact absurd rfl (htoks _ (List.mem_cons_self _ _)).1
          · have hc : c ≠ '/' := by
              intro h
              exact (htoks _ (List.mem_cons_self _ _)).2.2.2 (h ▸ List.mem_cons_self _ _)
            simpa using hc
        · rw [List.replicate_succ, List.cons_append,
            intercalate_slash_head _ _ (by decide)]
          decide
      rw [make_canonical_unfold, hheadne, hsplit2, List.foldl_append, canonFold_ups,
        canonFold_pushes false _ htoks]
      simp [canonRender]

theorem canonRender_rel_head_ne_slash (ups : Nat) (toks : List (List Char))
    (htoks : ∀ t ∈ toks, CleanTok t) :
    (canonRender false ups toks).head? ≠ some '/' := by
  rcases toks with _ | ⟨t, ts⟩
  · rcases ups with _ | k
    · decide
    · have h : canonRender false (k+1) [] =
          List.intercalate ['/'] (List.replicate (k+1) ['.', '.']) := rfl
      rw [h, List.replicate_succ, intercalate_slash_head _ _ (by decide)]
      decide
  · have h : canonRender false ups (t :: ts) =
        List.intercalate ['/'] (List.replicate ups ['.', '.'] ++ t :: ts) := rfl
    rw [h]
    rcases ups with _ | k
    · rw [List.replicate_zero, List.nil_append,
        intercalate_slash_head t ts (htoks t (List.mem_cons_self _ _)).1]
      rcases t with _ | ⟨c, cs⟩
      · exact absurd rfl (htoks _ (List.mem_cons_self _ _)).1
      · have hc : c ≠ '/' := fun h =>
          (htoks _ (List.mem_cons_self _ _)).2.2.2 (h ▸ List.mem_cons_self _ _)
        simpa using hc
    · rw [List.replicate_succ, List.cons_append,
        intercalate_slash_head _ _ (by decide)]
      decide

/-- The components of a rendered clean state: the `".."` run followed by
the tokens, except that the current-directory render `"."` shows the lone
component `"."`. -/
theorem pathComponents_canonRender (abs : Bool) (ups : Nat)
    (toks : List (List Char)) (htoks : ∀ t ∈ toks, CleanTok t)
    (habs : abs = true → ups = 0) :
    pathComponents (canonRender abs ups toks) =
      if abs = false ∧ ups = 0 ∧ toks = [] then [['.']]
      else List.replicate ups ['.', '.'] ++ toks := by
  rcases toks with _ | ⟨t, ts⟩
  · cases abs with
    | true => rw [habs rfl]; decide
    | false =>
      rcases ups with _ | k
      · decide
      · have h : canonRender false (k+1) [] =
            List.intercalate ['/'] (List.replicate (k+1) ['.', '.']) := rfl
        have hhead := canonRender_rel_head_ne_slash (k+1) [] (by intro t ht; cases ht)
        rw [h] at hhead
        have hne : List.intercalate ['/'] (List.replicate (k+1) ['.', '.']) ≠ ['/'] := by
          intro hcontra
          rw [hcontra] at hhead
          exact hhead rfl
        rw [h, pathComponents, if_neg hne, if_neg hhead,
          List.splitOn_intercalate _ '/'
            (by intro l hl; rw [List.eq_of_mem_replicate hl]; decide) (by simp)]
        simp
  · have hnos : ∀ l ∈ t :: ts, '/' ∉ l := fun l hl => (htoks l hl).2.2.2
    cases abs with
    | true =>
      rw [habs rfl]
      have h : canonRender true 0 (t :: ts) =
          '/' :: List.intercalate ['/'] (t :: ts) := rfl
      have hne : ('/' : Char) :: List.intercalate ['/'] (t :: ts) ≠ ['/'] := by
        intro hcontra
        exact intercalate_slash_ne_nil t ts (htoks t (List.mem_cons_self _ _)).1
          (List.cons_eq_cons.mp hcontra).2
      rw [h, pathComponents, if_neg hne,
        if_pos (show (('/' : Char) :: List.intercalate ['/'] (t :: ts)).head? = some '/'
          from rfl)]
      show (List.intercalate ['/'] (t :: ts)).splitOn '/' = _
      rw [List.splitOn_intercalate _ '/' hnos (by simp)]
      simp
    | false =>
      have hhead := canonRender_rel_head_ne_slash ups (t :: ts) htoks
      have h : canonRender false ups (t :: ts) =
          List.intercalate ['/'] (List.replicate ups ['.', '.'] ++ t :: ts) := rfl
      have hne : canonRender false ups (t :: ts) ≠ ['/'] := by
        intro hcontra
        rw [hcontra] at hhead
        exact hhead rfl
      have hall : ∀ l ∈ List.replicate ups ['.', '.'] ++ t :: ts, '/' ∉ l := by
        intro l hl
        rcases List.mem_append.mp hl with hl | hl
        · rw [List.eq_of_mem_replicate hl]; decide
        · exact hnos l hl
      rw [pathComponents, if_neg hne, if_neg (h ▸ hhead), h,
        List.splitOn_intercalate _ '/' hall (by simp)]
      simp

/-- C10 (counterexample): the claim "the output of `make_canonical`
contains no `"."` components" fails at the input `"."`, whose canonical
form is `"."` itself — a path made of the single component `"."`. -/
theorem claim_C10_counterexample :
    make_canonical ['.'] = ['.'] ∧
    ['.'] ∈ pathComponents (make_canonical ['.']) := by
  decide

/-- C10 (amended): `make_canonical` is idempotent; its output has no empty
components; it has no `"."` components except when the output is the
current-directory path `"."` itself; and `".."` components occur only as a
leading run of a result that is not absolute. -/
theorem claim_C10_make_canonical (x : List Char) :
    make_canonical (make_canonical x) = make_canonical x ∧
    [] ∉ pathComponents (make_canonical x) ∧
    (make_canonical x = ['.'] ∨ ['.'] ∉ pathComponents (make_canonical x)) ∧
    (∃ k rest, pathComponents (make_canonical x) = List.replicate k ['.', '.'] ++ rest ∧
      ['.', '.'] ∉ rest ∧ (k = 0 ∨ (make_canonical x).head? ≠ some '/')) := by
  obtain ⟨abs, ups, toks, hx, htoks, habs⟩ := make_canonical_shape x
  have hcomp := pathComponents_canonRender abs ups toks htoks habs
  by_cases hdot : abs = false ∧ ups = 0 ∧ toks = []
  · obtain ⟨habs', hups, htoks'⟩ := hdot
    subst habs' hups htoks'
    have hx' : make_canonical x = ['.'] := hx
    refine ⟨?_, ?_, Or.inl hx', ⟨0, [['.']], ?_, by decide, Or.inl rfl⟩⟩
    · rw [hx, make_canonical_canonRender _ _ _ htoks habs]
    · rw [hx']
      decide
    · rw [hx', show pathComponents ['.'] = [['.']] from by decide]
      simp
  · rw [if_neg hdot] at hcomp
    refine ⟨?_, ?_, ?_, ⟨ups, toks, ?_, ?_, ?_⟩⟩
    · rw [hx, make_canonical_canonRender _ _ _ htoks habs]
    · rw [hx, hcomp]
      intro hmem
      rcases List.mem_append.mp hmem with h | h
      · exact absurd (List.eq_of_mem_replicate h) (by decide)
      · exact (htoks _ h).1 rfl
    · refine Or.inr ?_
      rw [hx, hcomp]
      intro hmem
      rcases List.mem_append.mp hmem with h | h
      · exact absurd (List.eq_of_mem_replicate h) (by decide)
      · exact (htoks _ h).2.1 rfl
    · rw [hx, hcomp]
    · intro hmem
      exact (htoks _ hmem).2.2.1 rfl
    · rcases Nat.eq_zero_or_pos ups with h0 | hpos
      · exact Or.inl h0
      · refine Or.inr ?_
        have habs' : abs = false := by
          cases abs with
          | false => rfl
          | true => exact absurd (habs rfl) (by omega)
        rw [habs'] at hx
        rw [hx]
        exact canonRender_rel_head_ne_slash ups toks htoks

theorem claim_C10_make_canonical_witness :
    make_canonical (make_canonical ['a', '/', '.', '.', '/', '.', '.', '/', 'b'])
        = make_canonical ['a', '/', '.', '.', '/', '.', '.', '/', 'b'] ∧
    [] ∉ pathComponents (make_canonical ['a', '/', '.', '.', '/', '.', '.', '/', 'b']) ∧
    (make_canonical ['a', '/', '.', '.', '/', '.', '.', '/', 'b'] = ['.'] ∨
      ['.'] ∉ pathComponents (make_canonical ['a', '/', '.', '.', '/', '.', '.', '/', 'b'])) ∧
    (∃ k rest,
      pathComponents (make_canonical ['a', '/', '.', '.', '/', '.', '.', '/', 'b']) =
        List.replicate k ['.', '.'] ++ rest ∧
      ['.', '.'] ∉ rest ∧
      (k = 0 ∨ (make_canonical ['a', '/', '.', '.', '/', '.', '.', '/', 'b']).head? ≠ some '/')) :=
  claim_C10_make_canonical ['a', '/', '.', '.', '/', '.', '.', '/', 'b']

/-! ## Source enumeration (`sources.cpp` lines 220-238)

The vector of known sources is a `List (List Char)`; `std::string`
comparison `str_lexical` is the lexicographic order, which is the `<` of
`List Char`.  `std::lower_bound` on a sorted vector returns the first
position whose element is not less than the searched value, i.e. the
length of the maximal strict prefix. -/

/-- `std::lower_bound(all.begin(), all.end(), v, str_lexical)` as an index
into the sorted vector `all`. -/
def lower_bound (all : List (List Char)) (v : List Char) : Nat :=
  (all.takeWhile (fun s => decide (s < v))).length

/-- The static `sources` filter (sources.cpp lines 220-238): a linear scan
for base `"."`, otherwise the window between `lower_bound` of `base + "/"`
and of `base + "0"` (`'/' + 1 = '0'`), matching `exp` against the suffix
after `skip = base.size() + 1` bytes.  `RE2::FullMatch` is abstracted as
the Boolean predicate `exp`. -/
def sources (all : List (List Char)) (base : List Char) (exp : List Char → Bool) :
    List (List Char) :=
  if base = ['.'] then
    all.filter (fun s => exp s)
  else
    let skip := base.length + 1
    let lo := lower_bound all (base ++ ['/'])
    let hi := lower_bound all (base ++ ['0'])
    ((all.drop lo).take (hi - lo)).filter (fun s => exp (s.drop skip))

theorem char_between_slash_zero (c : Char) (h1 : '/' ≤ c) (h2 : c < '0') :
    c = '/' := by
  have hv1 : ('/' : Char).val.toNat ≤ c.val.toNat := h1
  have hv2 : c.val.toNat < ('0' : Char).val.toNat := h2
  have h47 : ('/' : Char).val.toNat = 47 := rfl
  have h48 : ('0' : Char).val.toNat = 48 := rfl
  have hn : c.val.toNat = ('/' : Char).val.toNat := by omega
  exact Char.eq_of_val_eq (UInt32.toNat.inj hn)

theorem cons_le_cons_iff_lex (a : Char) (l₁ l₂ : List Char) :
    (a :: l₁ : List Char) ≤ a :: l₂ ↔ l₁ ≤ l₂ := by
  constructor
  · intro h
    refine not_lt.mp (fun hc => absurd h (not_le.mpr (List.Lex.cons hc)))
  · intro h
    refine not_lt.mp (fun hc => ?_)
    cases hc with
    | cons hc => exact absurd hc (not_lt.mpr h)
    | rel hc => exact absurd hc (lt_irrefl _)

/-- A string has prefix `base ++ "/"` exactly when it lies in the window
`[base ++ "/", base ++ "0")` of the lexicographic order. -/
theorem prefix_iff_window (base : List Char) :
    ∀ s : List Char, base ++ ['/'] <+: s ↔
      (base ++ ['/'] ≤ s ∧ s < base ++ ['0']) := by
  induction base with
  | nil =>
    intro s
    rcases s with _ | ⟨c, cs⟩
    · simp only [List.nil_append]
      constructor
      · intro h
        exact absurd (List.prefix_nil.mp h) (by simp)
      · rintro ⟨h1, _⟩
        exact absurd (List.nil_lt_cons '/' []) (not_lt.mpr h1)
    · simp only [List.nil_append, List.cons_prefix_cons, List.nil_prefix, and_true]
      constructor
      · rintro rfl
        refine ⟨not_lt.mp (fun hc => ?_), List.Lex.rel (by decide)⟩
        cases hc with
        | cons hc => exact absurd hc (List.Lex.not_nil_right _ _)
        | rel hc => exact absurd hc (lt_irrefl _)
      · rintro ⟨h1, h2⟩
        have hcge : ¬ c < '/' := fun hc => absurd h1 (not_le.mpr (List.Lex.rel hc))
        have hclt : c < '0' := by
          cases h2 with
          | cons h => exact absurd h (List.Lex.not_nil_right _ _)
          | rel h => exact h
        exact (char_between_slash_zero c (not_lt.mp hcge) hclt).symm
  | cons b bs ih =>
    intro s
    rcases s with _ | ⟨c, cs⟩
    · rw [List.cons_append]
      constructor
      · intro h
        exact absurd (List.prefix_nil.mp h) (by simp)
      · rintro ⟨h1, _⟩
        exact absurd (List.nil_lt_cons b (bs ++ ['/'])) (not_lt.mpr h1)
    · rw [List.cons_append, List.cons_append, List.cons_prefix_cons]
      rcases lt_trichotomy c b with hcb | rfl | hbc
      · constructor
        · rintro ⟨rfl, _⟩
          exact absurd hcb (lt_irrefl _)
        · rintro ⟨h1, _⟩
          exact absurd h1 (not_le.mpr (List.Lex.rel hcb))
      · constructor
        · rintro ⟨_, hp⟩
          obtain ⟨h1, h2⟩ := (ih cs).mp hp
          exact ⟨(cons_le_cons_iff_lex c _ _).mpr h1, List.Lex.cons h2⟩
        · rintro ⟨h1, h2⟩
          refine ⟨rfl, (ih cs).mpr ⟨(cons_le_cons_iff_lex c _ _).mp h1, ?_⟩⟩
          cases h2 with
          | cons h => exact h
          | rel h => exact absurd h (lt_irrefl _)
      · constructor
        · rintro ⟨rfl, _⟩
          exact absurd hbc (lt_irrefl _)
        · rintro ⟨_, h2⟩
          cases h2 with
          | cons h => exact absurd hbc (lt_irrefl _)
          | rel h => exact absurd (lt_trans h hbc) (lt_irrefl _)

/-- On a strictly sorted vector, the `lower_bound` window `[a, b)` is
exactly the linear filter by membership in that interval. -/
theorem lower_bound_window (all : List (List Char)) (a b : List Char)
    (hab : a ≤ b) (hs : all.Pairwise (· < ·)) :
    (all.drop (lower_bound all a)).take
        (lower_bound all b - lower_bound all a) =
      all.filter (fun s => decide (a ≤ s) && decide (s < b)) := by
  induction all with
  | nil => rfl
  | cons x xs ih =>
    rw [List.pairwise_cons] at hs
    obtain ⟨hx, hxs⟩ := hs
    by_cases hxa : x < a
    · have hxb : x < b := lt_of_lt_of_le hxa hab
      have h1 : lower_bound (x :: xs) a = lower_bound xs a + 1 := by
        simp [lower_bound, List.takeWhile_cons, hxa]
      have h2 : lower_bound (x :: xs) b = lower_bound xs b + 1 := by
        simp [lower_bound, List.takeWhile_cons, hxb]
      rw [h1, h2, Nat.succ_sub_succ, List.drop_succ_cons,
        List.filter_cons_of_neg (by simp [not_le.mpr hxa]), ih hxs]
    · have hax : a ≤ x := not_lt.mp hxa
      have h1 : lower_bound (x :: xs) a = 0 := by
        simp [lower_bound, List.takeWhile_cons, hxa]
      have hxsa : lower_bound xs a = 0 := by
        rcases xs with _ | ⟨y, ys⟩
        · rfl
        · have : ¬ y < a := not_lt.mpr (le_of_lt (lt_of_le_of_lt hax
            (hx y (List.mem_cons_self _ _))))
          simp [lower_bound, List.takeWhile_cons, this]
      by_cases hxb : x < b
      · have h2 : lower_bound (x :: xs) b = lower_bound xs b + 1 := by
          simp [lower_bound, List.takeWhile_cons, hxb]
        rw [h1, h2, Nat.sub_zero, List.drop_zero, List.take_succ_cons,
          List.filter_cons_of_pos (by simp [hax, hxb]), ← ih hxs, hxsa]
        simp
      · have h2 : lower_bound (x :: xs) b = 0 := by
          simp [lower_bound, List.takeWhile_cons, hxb]
        rw [h1, h2, Nat.sub_zero, List.take_zero]
        refine (List.filter_eq_nil_iff.mpr ?_).symm
        intro y hy
        rcases List.mem_cons.mp hy with rfl | hy
        · simp [hxb]
        · have : ¬ y < b := not_lt.mpr (le_of_lt (lt_of_le_of_lt (not_lt.mp hxb)
            (hx y hy)))
          simp [this]

/-- C9: for every sorted, duplicate-free source vector and base other than
`"."`, the binary-searched window branch of `sources` returns exactly the
elements with prefix `base ++ "/"` whose remainder after that prefix
matches `exp` — i.e. the result of a naive linear filter by that
prefix-and-remainder predicate. -/
theorem claim_C9_sources (all : List (List Char)) (base : List Char)
    (exp : List Char → Bool) (hsorted : all.Pairwise (· < ·))
    (hbase : base ≠ ['.']) :
    sources all base exp =
      all.filter (fun s =>
        (base ++ ['/']).isPrefixOf s && exp (s.drop (base.length + 1))) := by
  have hab : (base ++ ['/'] : List Char) ≤ base ++ ['0'] :=
    le_of_lt (List.Lex.append_left _ (List.Lex.rel (by decide : ('/' : Char) < '0')) base)
  simp only [sources, if_neg hbase]
  rw [lower_bound_window all _ _ hab hsorted, List.filter_filter]
  apply List.filter_congr
  intro s _
  by_cases hp : base ++ ['/'] <+: s
  · obtain ⟨h1, h2⟩ := (prefix_iff_window base s).mp hp
    simp [List.isPrefixOf_iff_prefix, hp, h1, h2]
  · have hn := hp
    rw [prefix_iff_window base s] at hn
    by_cases h1 : base ++ ['/'] ≤ s
    · have h2 : ¬ s < base ++ ['0'] := fun h2 => hn ⟨h1, h2⟩
      simp [List.isPrefixOf_iff_prefix, hp, h1, h2]
    · simp [List.isPrefixOf_iff_prefix, hp, h1]

theorem claim_C9_sources_witness :
    ([['a'], ['b', '/', 'x'], ['b', '/', 'y'], ['b', '0']] :
        List (List Char)).Pairwise (· < ·) ∧
    (['b'] : List Char) ≠ ['.'] ∧
    sources [['a'], ['b', '/', 'x'], ['b', '/', 'y'], ['b', '0']] ['b']
        (fun s => s == ['x']) =
      ([['a'], ['b', '/', 'x'], ['b', '/', 'y'], ['b', '0']] :
          List (List Char)).filter (fun s =>
        ((['b'] : List Char) ++ ['/']).isPrefixOf s &&
          ((s.drop ((['b'] : List Char).length + 1)) == ['x'])) :=
  ⟨by decide, by decide,
    claim_C9_sources [['a'], ['b', '/', 'x'], ['b', '/', 'y'], ['b', '0']] ['b']
      (fun s => s == ['x']) (by decide) (by decide)⟩

/-! ## Expressions and resolver definitions (`part_000`)

The expression sum of `expr.h`, restricted to the constructors the claims
exercise.  `Location`s and literal payloads are only used for diagnostics
in the source and are dropped.  `DefMapE` is the surface `DefMap`
(definition map plus body); `DefBindingE` is the resolved form. -/

inductive Expr where
  | VarRef (name : String)
  | Subscribe (name : String)
  | App (fn val : Expr)
  | Lambda (name : String) (body : Expr)
  | Literal (payload : Nat)
  | Construct (sum : String) (cons : Nat)
  | Destruct (sum : String)
  | Prim (name : String)
  | DefMapE (map : List (String × Expr)) (body : Expr)
  | DefBindingE (order : List (String × Nat)) (val : List Expr)
      (funs : List Expr) (scc : List Nat) (body : Expr)
  deriving Repr, Inhabited

/-- `expr->type == &Lambda::type` on a possibly null expression. -/
def isLambdaType : Option Expr → Bool
  | some (Expr.Lambda _ _) => true
  | _ => false

/-- `ResolveDef` (part_000 lines 33-41): a definition's name, its (possibly
null) expression and the indices of the definitions its body uses.  The
Tarjan scratch fields `index/lowlink/onstack` live in the traversal state
instead. -/
structure ResolveDef where
  name : String
  expr : Option Expr
  edges : List Nat
  deriving Repr

instance : Inhabited ResolveDef := ⟨⟨"", none, []⟩⟩

/-! ## `fracture_binding`: Bellman-Ford longest-path phase
(part_000 lines 104-147)

The queue-driven relaxation is embedded with explicit state `(d, p, q)` and
fuel; `bfFuel` is a provable upper bound on the number of loop iterations,
so the fuel is an implementation detail the theorems discharge. -/

structure RelaxedVertex where
  v : Nat
  d : Nat
  deriving Repr, DecidableEq

structure BFState where
  d : List Nat
  p : List (Option Nat)
  q : List RelaxedVertex
  deriving Repr

/-- The weight of the out-edges of definition `v`: `0` for a lambda body,
else `1` (part_000 line 139). -/
def wOf (defs : List ResolveDef) (v : Nat) : Nat :=
  if isLambdaType (defs.getD v default).expr then 0 else 1

/-- The local reference graph: `u ∈ defs[v].edges`. -/
def EdgeTo (defs : List ResolveDef) (v u : Nat) : Prop :=
  u ∈ (defs.getD v default).edges

instance (defs : List ResolveDef) (v u : Nat) : Decidable (EdgeTo defs v u) := by
  unfold EdgeTo; infer_instance

/-- One relaxation `d[i] = max(d[i], drv + w)` with predecessor recording
and re-enqueueing (part_000 lines 140-146). -/
def relaxEdge (src drvw : Nat) (s : BFState) (i : Nat) : BFState :=
  if drvw > s.d.getD i 0 then
    { d := s.d.set i drvw, p := s.p.set i (some src), q := s.q ++ [⟨i, drvw⟩] }
  else s

/-- One step of the predecessor chain `j = p[j]` (identity when `p[j]` is
unset, which the cycle-report path never hits). -/
def pStep (p : List (Option Nat)) (j : Nat) : Nat :=
  (p.getD j none).getD j

/-- `for (i = 0..N-1) j = p[j]` (part_000 lines 125-129). -/
def pWalk (p : List (Option Nat)) : Nat → Nat → Nat
  | 0, j => j
  | k+1, j => pWalk p k (pStep p j)

/-- The do-while loop printing the cycle members (part_000 lines 132-136),
with fuel to keep it total. -/
def cycleNamesGo (defs : List ResolveDef) (p : List (Option Nat)) (j : Nat) :
    Nat → Nat → List String
  | 0, _ => []
  | fuel+1, i =>
    (defs.getD i default).name ::
      (if pStep p i = j then [] else cycleNamesGo defs p j fuel (pStep p i))

def cycleNames (defs : List ResolveDef) (p : List (Option Nat)) (j : Nat) :
    List String :=
  cycleNamesGo defs p j (defs.length + 1) j

inductive BFResult where
  | outOfFuel
  | cycle (names : List String)
  | done (d : List Nat)
  deriving Repr, DecidableEq

/-- The main relaxation loop of `fracture_binding` (part_000 lines
118-147): pop, skip stale entries, report a cycle once some `d` reaches
`N`, else relax all out-edges. -/
def bfRun (defs : List ResolveDef) : Nat → BFState → BFResult
  | 0, _ => BFResult.outOfFuel
  | fuel+1, s =>
    match s.q with
    | [] => BFResult.done s.d
    | rv :: rest =>
      let drv := s.d.getD rv.v 0
      if rv.d < drv then
        bfRun defs fuel { s with q := rest }
      else if defs.length ≤ drv then
        BFResult.cycle (cycleNames defs s.p (pWalk s.p defs.length rv.v))
      else
        bfRun defs fuel
          ((defs.getD rv.v default).edges.foldl
            (relaxEdge rv.v (drv + wOf defs rv.v)) { s with q := rest })

/-- Initial state: all `d` zero, no predecessors, every vertex enqueued at
distance `0` (part_000 lines 110-116). -/
def bfInit (n : Nat) : BFState :=
  { d := List.replicate n 0, p := List.replicate n none,
    q := (List.range n).map (fun i => ⟨i, 0⟩) }

/-- A provable bound on the loop's iteration count. -/
def bfFuel (n : Nat) : Nat := n * n + n + 1

inductive FractureOutcome where
  | fuelExhausted
  | nullExpr
  | cycleReport (names : List String)
  | levels (d : List Nat)
  deriving Repr, DecidableEq

/-- The Bellman-Ford phase of `fracture_binding`: `nullExpr` when some
definition's expression is null (the bare `return nullptr` of line 114),
`cycleReport` when the "Value definition cycle detected" diagnostic is
printed and null returned, `levels d` when the pass proceeds to level
emission. -/
def fracture_binding_bf (defs : List ResolveDef) : FractureOutcome :=
  if defs.all (fun rd => rd.expr.isSome) then
    match bfRun defs (bfFuel defs.length) (bfInit defs.length) with
    | BFResult.outOfFuel => FractureOutcome.fuelExhausted
    | BFResult.cycle names => FractureOutcome.cycleReport names
    | BFResult.done d => FractureOutcome.levels d
  else FractureOutcome.nullExpr

/-- Edges only ever name definitions of the scope, as `reference_map`
guarantees in the source. -/
def ValidEdges (defs : List ResolveDef) : Prop :=
  ∀ rd ∈ defs, ∀ i ∈ rd.edges, i < defs.length

/-- A reference cycle through at least one non-lambda definition: a closed
walk in the local reference graph one of whose members has weight `1`. -/
def HasValueCycle (defs : List ResolveDef) : Prop :=
  ∃ c : List Nat, c ≠ [] ∧ c.Chain' (EdgeTo defs) ∧
    EdgeTo defs (c.getLastD 0) (c.headD 0) ∧ ∃ v ∈ c, wOf defs v = 1

/-! ### Relaxation fold lemmas -/

theorem relaxEdge_dlen (src val : Nat) (s : BFState) (i : Nat) :
    (relaxEdge src val s i).d.length = s.d.length := by
  unfold relaxEdge
  split <;> simp

theorem relaxFold_dlen (src val : Nat) (edges : List Nat) :
    ∀ s : BFState, (edges.foldl (relaxEdge src val) s).d.length = s.d.length := by
  induction edges with
  | nil => intro s; rfl
  | cons e es ih => intro s; rw [List.foldl_cons, ih, relaxEdge_dlen]

theorem getD_set_self (l : List Nat) (i a : Nat) (h : i < l.length) :
    (l.set i a).getD i 0 = a := by
  simp [List.getD, List.getElem?_set_eq_of_lt a h]

theorem getD_set_ne (l : List Nat) (i j a : Nat) (h : i ≠ j) :
    (l.set i a).getD j 0 = l.getD j 0 := by
  simp [List.getD, List.getElem?_set_ne h]

theorem getD_set_oob (l : List Nat) (i a : Nat) (h : l.length ≤ i) :
    l.set i a = l :=
  List.set_eq_of_length_le h

theorem relaxEdge_d_mono (src val : Nat) (s : BFState) (i j : Nat) :
    s.d.getD j 0 ≤ (relaxEdge src val s i).d.getD j 0 := by
  unfold relaxEdge
  split
  · by_cases hlen : i < s.d.length
    · by_cases hj : j = i
      · subst hj
        rw [getD_set_self s.d j val hlen]
        omega
      · rw [getD_set_ne s.d i j val (fun h => hj h.symm)]
    · rw [getD_set_oob s.d i val (by omega)]
  · exact le_refl _

theorem relaxFold_d_mono (src val : Nat) (edges : List Nat) :
    ∀ (s : BFState) (j : Nat),
      s.d.getD j 0 ≤ ((edges.foldl (relaxEdge src val) s).d.getD j 0) := by
  induction edges with
  | nil => intro s j; exact le_refl _
  | cons e es ih =>
    intro s j
    rw [List.foldl_cons]
    exact le_trans (relaxEdge_d_mono src val s e j) (ih _ j)

theorem relaxEdge_q_mono (src val : Nat) (s : BFState) (i : Nat) :
    ∀ e ∈ s.q, e ∈ (relaxEdge src val s i).q := by
  unfold relaxEdge
  split
  · intro e he; exact List.mem_append_left _ he
  · intro e he; exact he

theorem relaxFold_q_mono (src val : Nat) (edges : List Nat) :
    ∀ (s : BFState), ∀ e ∈ s.q, e ∈ (edges.foldl (relaxEdge src val) s).q := by
  induction edges with
  | nil => intro s e he; exact he
  | cons i es ih =>
    intro s e he
    rw [List.foldl_cons]
    exact ih _ e (relaxEdge_q_mono src val s i e he)

theorem relaxEdge_plen (src val : Nat) (s : BFState) (i : Nat) :
    (relaxEdge src val s i).p.length = s.p.length := by
  unfold relaxEdge
  split <;> simp

theorem relaxFold_plen (src val : Nat) (edges : List Nat) :
    ∀ s : BFState, (edges.foldl (relaxEdge src val) s).p.length = s.p.length := by
  induction edges with
  | nil => intro s; rfl
  | cons e es ih => intro s; rw [List.foldl_cons, ih, relaxEdge_plen]

/-- `d` entries stay bounded by `B` when the relaxation value is. -/
theorem relaxEdge_d_le (src val B : Nat) (s : BFState) (i : Nat)
    (hval : val ≤ B) (hs : ∀ j, s.d.getD j 0 ≤ B) :
    ∀ j, (relaxEdge src val s i).d.getD j 0 ≤ B := by
  intro j
  unfold relaxEdge
  split
  · by_cases hlen : i < s.d.length
    · by_cases hj : j = i
      · subst hj
        rw [getD_set_self s.d j val hlen]
        exact hval
      · rw [getD_set_ne s.d i j val (fun h => hj h.symm)]
        exact hs j
    · rw [getD_set_oob s.d i val (by omega)]
      exact hs j
  · exact hs j

theorem relaxFold_d_le (src val B : Nat) (edges : List Nat)
    (hval : val ≤ B) :
    ∀ s : BFState, (∀ j, s.d.getD j 0 ≤ B) →
      ∀ j, ((edges.foldl (relaxEdge src val) s).d.getD j 0 ≤ B) := by
  induction edges with
  | nil => intro s hs; exact hs
  | cons e es ih =>
    intro s hs
    rw [List.foldl_cons]
    exact ih _ (relaxEdge_d_le src val B s e hval hs)

/-- After the fold every in-range edge target satisfies `val ≤ d[i]`. -/
theorem relaxFold_d_ge (src val : Nat) (edges : List Nat) :
    ∀ s : BFState, (∀ i ∈ edges, i < s.d.length) →
      ∀ i ∈ edges, val ≤ (edges.foldl (relaxEdge src val) s).d.getD i 0 := by
  induction edges with
  | nil => intro s _ i hi; cases hi
  | cons e es ih =>
    intro s hrange i hi
    rw [List.foldl_cons]
    rcases List.mem_cons.mp hi with rfl | hi
    · refine le_trans ?_ (relaxFold_d_mono src val es (relaxEdge src val s i) i)
      unfold relaxEdge
      split
      · rw [getD_set_self s.d i val (hrange i (List.mem_cons_self _ _))]
      · omega
    · refine ih (relaxEdge src val s e) ?_ i hi
      intro j hj
      rw [relaxEdge_dlen]
      exact hrange j (List.mem_cons_of_mem _ hj)

/-- Any `d` entry the fold changes was set to `val` and re-enqueued as
`⟨i, val⟩`. -/
theorem relaxFold_d_change (src val : Nat) (edges : List Nat) :
    ∀ (s : BFState) (j : Nat),
      (edges.foldl (relaxEdge src val) s).d.getD j 0 = s.d.getD j 0 ∨
      ((edges.foldl (relaxEdge src val) s).d.getD j 0 = val ∧ j ∈ edges ∧
        (⟨j, val⟩ : RelaxedVertex) ∈ (edges.foldl (relaxEdge src val) s).q) := by
  induction edges with
  | nil => intro s j; exact Or.inl rfl
  | cons e es ih =>
    intro s j
    rw [List.foldl_cons]
    rcases ih (relaxEdge src val s e) j with h | ⟨h1, h2, h3⟩
    · rw [h]
      by_cases hj : j = e
      · subst hj
        unfold relaxEdge
        split
        · by_cases hlen : j < s.d.length
          · refine Or.inr ⟨getD_set_self s.d j val hlen, List.mem_cons_self _ _, ?_⟩
            refine relaxFold_q_mono src val es _ _ ?_
            simp
          · rw [getD_set_oob s.d j val (by omega)]
            exact Or.inl rfl
        · exact Or.inl rfl
      · unfold relaxEdge
        split
        · rw [getD_set_ne s.d e j val (fun h => hj h.symm)]
          exact Or.inl rfl
        · exact Or.inl rfl
    · exact Or.inr ⟨h1, List.mem_cons_of_mem _ h2, h3⟩

/-- New queue entries produced by the fold carry an edge target and the
relaxation value. -/
theorem relaxFold_q_new (src val : Nat) (edges : List Nat) :
    ∀ (s : BFState), ∀ e ∈ (edges.foldl (relaxEdge src val) s).q,
      e ∈ s.q ∨ (e.v ∈ edges ∧ e.d = val) := by
  induction edges with
  | nil => intro s e he; exact Or.inl he
  | cons i es ih =>
    intro s e he
    rw [List.foldl_cons] at he
    rcases ih (relaxEdge src val s i) e he with h | ⟨h1, h2⟩
    · unfold relaxEdge at h
      by_cases himp : val > s.d.getD i 0
      · rw [if_pos himp] at h
        rcases List.mem_append.mp h with h | h
        · exact Or.inl h
        · rcases List.mem_singleton.mp h with rfl
          exact Or.inr ⟨List.mem_cons_self _ _, rfl⟩
      · rw [if_neg himp] at h
        exact Or.inl h
    · exact Or.inr ⟨List.mem_cons_of_mem _ h1, h2⟩

/-! ### The loop potential and termination bound -/

/-- Queue length plus total remaining headroom of `d`: strictly decreases
at every loop iteration. -/
def bfPhi (N : Nat) (s : BFState) : Nat :=
  s.q.length + (s.d.map (fun x => N - x)).sum

theorem sum_map_set (N : Nat) (l : List Nat) :
    ∀ (i a : Nat), i < l.length →
      ((l.set i a).map (fun x => N - x)).sum + (N - l.getD i 0) =
        (l.map (fun x => N - x)).sum + (N - a) := by
  induction l with
  | nil => intro i a h; cases h
  | cons x xs ih =>
    intro i a h
    cases i with
    | zero =>
      simp only [List.set, List.map_cons, List.sum_cons, List.getD_cons_zero]
      omega
    | succ n =>
      simp only [List.set, List.map_cons, List.sum_cons, List.getD_cons_succ]
      have := ih n a (by simpa using Nat.lt_of_succ_lt_succ h)
      omega

theorem relaxEdge_phi (N src val : Nat) (s : BFState) (i : Nat)
    (hval : val ≤ N) (hrange : i < s.d.length) (hd : ∀ j, s.d.getD j 0 ≤ N) :
    bfPhi N (relaxEdge src val s i) ≤ bfPhi N s := by
  unfold relaxEdge
  by_cases himp : val > s.d.getD i 0
  · rw [if_pos himp]
    have hsum := sum_map_set N s.d i val hrange
    have hdi := hd i
    unfold bfPhi
    simp only [List.length_append, List.length_singleton]
    omega
  · rw [if_neg himp]

theorem relaxFold_phi (N src val : Nat) (edges : List Nat) (hval : val ≤ N) :
    ∀ s : BFState, (∀ i ∈ edges, i < s.d.length) → (∀ j, s.d.getD j 0 ≤ N) →
      bfPhi N (edges.foldl (relaxEdge src val) s) ≤ bfPhi N s := by
  induction edges with
  | nil => intro s _ _; exact le_refl _
  | cons i es ih =>
    intro s hrange hd
    rw [List.foldl_cons]
    refine le_trans (ih _ ?_ ?_) (relaxEdge_phi N src val s i hval
      (hrange i (List.mem_cons_self _ _)) hd)
    · intro j hj
      rw [relaxEdge_dlen]
      exact hrange j (List.mem_cons_of_mem _ hj)
    · exact relaxEdge_d_le src val N s i hval hd

/-! ### Basic invariant -/

theorem mem_getD (l : List ResolveDef) (i : Nat) (h : i < l.length) :
    l.getD i default ∈ l := by
  rw [List.getD_eq_getElem l default h]
  exact List.getElem_mem h

theorem wOf_le_one (defs : List ResolveDef) (v : Nat) : wOf defs v ≤ 1 := by
  unfold wOf
  split <;> omega

structure BFInv (defs : List ResolveDef) (s : BFState) : Prop where
  dlen : s.d.length = defs.length
  dle : ∀ j, s.d.getD j 0 ≤ defs.length
  qlt : ∀ e ∈ s.q, e.v < defs.length

theorem bfInv_relax (defs : List ResolveDef) (s : BFState)
    (rv : RelaxedVertex) (rest : List RelaxedVertex) (hq : s.q = rv :: rest)
    (hinv : BFInv defs s) (hval : ValidEdges defs)
    (hdrv : s.d.getD rv.v 0 < defs.length) :
    BFInv defs
      ((defs.getD rv.v default).edges.foldl
        (relaxEdge rv.v (s.d.getD rv.v 0 + wOf defs rv.v)) { s with q := rest }) := by
  have hv : rv.v < defs.length := hinv.qlt rv (hq ▸ List.mem_cons_self _ _)
  have hmem : defs.getD rv.v default ∈ defs := mem_getD defs rv.v hv
  have hedges : ∀ i ∈ (defs.getD rv.v default).edges, i < defs.length :=
    fun i hi => hval _ hmem i hi
  have hvle : s.d.getD rv.v 0 + wOf defs rv.v ≤ defs.length := by
    have := wOf_le_one defs rv.v
    omega
  refine ⟨?_, ?_, ?_⟩
  · rw [relaxFold_dlen]
    exact hinv.dlen
  · refine relaxFold_d_le _ _ _ _ hvle _ ?_
    exact hinv.dle
  · intro e he
    rcases relaxFold_q_new _ _ _ _ e he with h | ⟨h1, _⟩
    · exact hinv.qlt e (hq ▸ List.mem_cons_of_mem _ h)
    · exact hedges e.v h1

/-- With fuel exceeding the potential, the loop always finishes. -/
theorem bfRun_ne_outOfFuel (defs : List ResolveDef) (hval : ValidEdges defs) :
    ∀ (fuel : Nat) (s : BFState), BFInv defs s →
      bfPhi defs.length s < fuel → bfRun defs fuel s ≠ BFResult.outOfFuel := by
  intro fuel
  induction fuel with
  | zero => intro s _ h; omega
  | succ fuel ih =>
    intro s hinv hphi
    rw [bfRun]
    cases hq : s.q with
    | nil => simp
    | cons rv rest =>
      simp only
      by_cases hstale : rv.d < s.d.getD rv.v 0
      · rw [if_pos hstale]
        refine ih _ ⟨hinv.dlen, hinv.dle, ?_⟩ ?_
        · exact fun e he => hinv.qlt e (hq ▸ List.mem_cons_of_mem _ he)
        · have : bfPhi defs.length { s with q := rest } + 1 = bfPhi defs.length s := by
            unfold bfPhi
            rw [hq]
            simp only [List.length_cons]
            omega
          omega
      · rw [if_neg hstale]
        by_cases hbig : defs.length ≤ s.d.getD rv.v 0
        · rw [if_pos hbig]
          simp
        · rw [if_neg hbig]
          have hinv' := bfInv_relax defs s rv rest hq hinv hval (by omega)
          refine ih _ hinv' ?_
          have hv : rv.v < defs.length := hinv.qlt rv (hq ▸ List.mem_cons_self _ _)
          have hmem : defs.getD rv.v default ∈ defs := mem_getD defs rv.v hv
          have hphi2 : bfPhi defs.length
              ((defs.getD rv.v default).edges.foldl
                (relaxEdge rv.v (s.d.getD rv.v 0 + wOf defs rv.v))
                { s with q := rest }) ≤
              bfPhi defs.length { s with q := rest } := by
            refine relaxFold_phi _ _ _ _ ?_ _ ?_ ?_
            · have := wOf_le_one defs rv.v
              omega
            · intro i hi
              show i < s.d.length
              rw [hinv.dlen]
              exact hval _ hmem i hi
            · exact hinv.dle
          have hphi3 : bfPhi defs.length { s with q := rest } + 1 =
              bfPhi defs.length s := by
            unfold bfPhi
            rw [hq]
            simp only [List.length_cons]
            omega
          omega

/-! ### Soundness: a reported cycle really exists

Every `d[v]` is the weight of some walk ending at `v`; a walk of weight at
least `N` over `N` vertices must close a loop through a weight-1
definition. -/

/-- A walk through the reference graph ending at `v` with total weight
`wt` (the weight of a walk counts every vertex except the last). -/
def IsWalkTo (defs : List ResolveDef) (v wt : Nat) (c : List Nat) : Prop :=
  c ≠ [] ∧ c.Chain' (EdgeTo defs) ∧ (∀ x ∈ c, x < defs.length) ∧
    c.getLastD 0 = v ∧ (c.dropLast.map (wOf defs)).sum = wt

/-- The soundness invariant: every `d` entry is realised by a walk. -/
def BFReach (defs : List ResolveDef) (s : BFState) : Prop :=
  ∀ v, v < defs.length → ∃ c, IsWalkTo defs v (s.d.getD v 0) c

theorem IsWalkTo.extend {defs : List ResolveDef} {v wt j : Nat} {c : List Nat}
    (hw : IsWalkTo defs v wt c) (hedge : EdgeTo defs v j) (hj : j < defs.length) :
    IsWalkTo defs j (wt + wOf defs v) (c ++ [j]) := by
  obtain ⟨hne, hch, hmem, hlast, hsum⟩ := hw
  have hlast? : c.getLast? = some (c.getLastD 0) := by
    rw [List.getLastD_eq_getLast?]
    cases h : c.getLast? with
    | none => exact absurd (List.getLast?_eq_none_iff.mp h) hne
    | some a => rfl
  refine ⟨by simp, ?_, ?_, ?_, ?_⟩
  · rw [List.chain'_append]
    refine ⟨hch, List.chain'_singleton _, ?_⟩
    intro x hx y hy
    rw [hlast?, Option.mem_def, Option.some.injEq] at hx
    simp only [List.head?_cons, Option.mem_def, Option.some.injEq] at hy
    subst hx hy
    rw [hlast]
    exact hedge
  · intro x hx
    rcases List.mem_append.mp hx with hx | hx
    · exact hmem x hx
    · rcases List.mem_singleton.mp hx with rfl
      exact hj
  · rw [List.getLastD_eq_getLast?, List.getLast?_append]
    rfl
  · rw [List.dropLast_concat]
    have hsplit : c.dropLast ++ [c.getLastD 0] = c := by
      conv_rhs => rw [← List.dropLast_append_getLast hne]
      rw [List.getLastD_eq_getLast?, List.getLast?_eq_getLast c hne]
      rfl
    calc (c.map (wOf defs)).sum
        = ((c.dropLast ++ [c.getLastD 0]).map (wOf defs)).sum := by rw [hsplit]
      _ = (c.dropLast.map (wOf defs)).sum + wOf defs (c.getLastD 0) := by
          simp
      _ = wt + wOf defs v := by rw [hsum, hlast]

theorem relaxFold_reach (defs : List ResolveDef) (s : BFState)
    (rv : RelaxedVertex) (rest : List RelaxedVertex) (hq : s.q = rv :: rest)
    (hreach : BFReach defs s) (hinv : BFInv defs s) (hval : ValidEdges defs) :
    BFReach defs
      ((defs.getD rv.v default).edges.foldl
        (relaxEdge rv.v (s.d.getD rv.v 0 + wOf defs rv.v)) { s with q := rest }) := by
  have hv : rv.v < defs.length := hinv.qlt rv (hq ▸ List.mem_cons_self _ _)
  have hmem : defs.getD rv.v default ∈ defs := mem_getD defs rv.v hv
  intro j hj
  rcases relaxFold_d_change rv.v (s.d.getD rv.v 0 + wOf defs rv.v)
      (defs.getD rv.v default).edges { s with q := rest } j with heq | ⟨heq, hedge, _⟩
  · rw [heq]
    exact hreach j hj
  · rw [heq]
    obtain ⟨c, hc⟩ := hreach rv.v hv
    exact ⟨c ++ [j], hc.extend hedge hj⟩

theorem sum_map_binary (f : Nat → Nat) (hf : ∀ x, f x ≤ 1) (l : List Nat) :
    (l.map f).sum = (l.filter (fun x => decide (f x = 1))).length := by
  induction l with
  | nil => rfl
  | cons x xs ih =>
    by_cases hx : f x = 1
    · simp [List.filter_cons, hx, ih] <;> omega
    · have h0 : f x = 0 := by have := hf x; omega
      simp [List.filter_cons, hx, h0, ih]

theorem length_le_of_nodup_lt (l : List Nat) (N : Nat) (hnd : l.Nodup)
    (hlt : ∀ x ∈ l, x < N) : l.length ≤ N := by
  have h1 : l.toFinset.card = l.length := List.toFinset_card_of_nodup hnd
  have h2 : l.toFinset ⊆ Finset.range N := by
    intro x hx
    rw [Finset.mem_range]
    exact hlt x (List.mem_toFinset.mp hx)
  calc l.length = l.toFinset.card := h1.symm
    _ ≤ (Finset.range N).card := Finset.card_le_card h2
    _ = N := Finset.card_range N

theorem sublist_pair_split (a : Nat) : ∀ l : List Nat, List.Sublist [a, a] l →
    ∃ l₁ l₂ l₃, l = l₁ ++ a :: l₂ ++ a :: l₃ := by
  intro l h
  induction l with
  | nil => cases h
  | cons x xs ih =>
    cases h with
    | cons _ h' =>
      obtain ⟨l₁, l₂, l₃, rfl⟩ := ih h'
      exact ⟨x :: l₁, l₂, l₃, rfl⟩
    | cons₂ _ h' =>
      have ha : a ∈ xs := List.singleton_sublist.mp h'
      obtain ⟨l₂, l₃, rfl⟩ := List.append_of_mem ha
      exact ⟨[], l₂, l₃, rfl⟩

/-- A duplicated weight-1 vertex on a chained walk closes a value cycle. -/
theorem closed_subwalk (defs : List ResolveDef) (c : List Nat) (u : Nat)
    (hch : c.Chain' (EdgeTo defs)) (hdup : List.Sublist [u, u] c) (hw : wOf defs u = 1) :
    HasValueCycle defs := by
  obtain ⟨l₁, l₂, l₃, rfl⟩ := sublist_pair_split u c hdup
  have hinf : ((u :: l₂) ++ [u]) <:+: (l₁ ++ u :: l₂ ++ u :: l₃) := by
    refine ⟨l₁, l₃, ?_⟩
    simp
  have hch2 : ((u :: l₂) ++ [u]).Chain' (EdgeTo defs) := hch.infix hinf
  rw [List.chain'_append] at hch2
  obtain ⟨hch3, _, hlastedge⟩ := hch2
  have hlast? : (u :: l₂).getLast? = some ((u :: l₂).getLastD 0) := by
    rw [List.getLastD_eq_getLast?, List.getLast?_eq_getLast _ (by simp)]
    rfl
  refine ⟨u :: l₂, by simp, hch3, ?_, ⟨u, List.mem_cons_self _ _, hw⟩⟩
  have hedge := hlastedge ((u :: l₂).getLastD 0) (by rw [hlast?]; rfl) u (by rfl)
  simpa using hedge

/-- A walk whose weight reaches the number of definitions must close a
cycle through a weight-1 (non-lambda) definition. -/
theorem walk_weight_ge_cycle (defs : List ResolveDef) (c : List Nat)
    (hne : c ≠ []) (hch : c.Chain' (EdgeTo defs))
    (hmem : ∀ x ∈ c, x < defs.length)
    (hwt : defs.length ≤ (c.dropLast.map (wOf defs)).sum) :
    HasValueCycle defs := by
  set N := defs.length with hN
  set S := c.dropLast.filter (fun x => decide (wOf defs x = 1)) with hS
  have hcount : (c.dropLast.map (wOf defs)).sum = S.length :=
    sum_map_binary (wOf defs) (wOf_le_one defs) c.dropLast
  have hSlen : N ≤ S.length := by rw [← hcount]; exact hwt
  have hSsub : List.Sublist S c :=
    List.Sublist.trans (List.filter_sublist c.dropLast) (List.dropLast_sublist c)
  have hSw : ∀ x ∈ S, wOf defs x = 1 := by
    intro x hx
    have := List.of_mem_filter hx
    simpa using this
  by_cases hnd : S.Nodup
  · -- no duplicate weight-1 vertex: then S covers all N vertices and the
    -- full walk is too long to be duplicate-free
    have hSlt : ∀ x ∈ S, x < N := fun x hx => hmem x (hSsub.mem hx)
    have hSle : S.length ≤ N := length_le_of_nodup_lt S N hnd hSlt
    have hSeq : S.length = N := le_antisymm hSle hSlen
    have hfin : S.toFinset = Finset.range N := by
      refine Finset.eq_of_subset_of_card_le ?_ ?_
      · intro x hx
        rw [Finset.mem_range]
        exact hSlt x (List.mem_toFinset.mp hx)
      · rw [Finset.card_range, List.toFinset_card_of_nodup hnd, hSeq]
    have hall : ∀ v, v < N → wOf defs v = 1 := by
      intro v hv
      have : v ∈ S := by
        rw [← List.mem_toFinset, hfin, Finset.mem_range]
        exact hv
      exact hSw v this
    have hclen : N + 1 ≤ c.length := by
      have h1 : S.length ≤ c.dropLast.length := List.Sublist.length_le
        (List.filter_sublist c.dropLast)
      have h2 : c.dropLast.length + 1 = c.length := by
        rcases c with _ | ⟨x, xs⟩
        · exact absurd rfl hne
        · simp [List.length_dropLast]
      omega
    have hcnd : ¬ c.Nodup := by
      intro hnd'
      have := length_le_of_nodup_lt c N hnd' hmem
      omega
    obtain ⟨u, hu⟩ := List.exists_duplicate_iff_not_nodup.mpr hcnd
    have hud : List.Sublist [u, u] c := List.duplicate_iff_sublist.mp hu
    exact closed_subwalk defs c u hch hud (hall u (hmem u hu.mem))
  · obtain ⟨u, hu⟩ := List.exists_duplicate_iff_not_nodup.mpr hnd
    have hud : List.Sublist [u, u] c :=
      List.Sublist.trans (List.duplicate_iff_sublist.mp hu) hSsub
    exact closed_subwalk defs c u hch hud (hSw u hu.mem)

/-- If the run reports a cycle, a value cycle exists. -/
theorem bfRun_cycle_sound (defs : List ResolveDef) (hval : ValidEdges defs) :
    ∀ (fuel : Nat) (s : BFState) (names : List String), BFInv defs s →
      BFReach defs s → bfRun defs fuel s = BFResult.cycle names →
      HasValueCycle defs := by
  intro fuel
  induction fuel with
  | zero =>
    intro s names _ _ h
    rw [bfRun] at h
    cases h
  | succ fuel ih =>
    intro s names hinv hreach h
    rw [bfRun] at h
    rcases hq : s.q with _ | ⟨rv, rest⟩
    · rw [hq] at h
      cases h
    · rw [hq] at h
      simp only at h
      by_cases hstale : rv.d < s.d.getD rv.v 0
      · rw [if_pos hstale] at h
        refine ih { s with q := rest } names ⟨hinv.dlen, hinv.dle, ?_⟩ hreach h
        exact fun e he => hinv.qlt e (hq ▸ List.mem_cons_of_mem _ he)
      · rw [if_neg hstale] at h
        by_cases hbig : defs.length ≤ s.d.getD rv.v 0
        · have hv : rv.v < defs.length := hinv.qlt rv (hq ▸ List.mem_cons_self _ _)
          obtain ⟨c, hne, hch, hcm, _, hsum⟩ := hreach rv.v hv
          exact walk_weight_ge_cycle defs c hne hch hcm (by omega)
        · rw [if_neg hbig] at h
          exact ih _ names (bfInv_relax defs s rv rest hq hinv hval (by omega))
            (relaxFold_reach defs s rv rest hq hreach hinv hval) h

/-! ### Completeness: quiescence rules out value cycles -/

/-- An out-edge of `v` not yet relaxed to quiescence. -/
def BFQueueInv (defs : List ResolveDef) (s : BFState) : Prop :=
  ∀ v, v < defs.length →
    (∃ i, EdgeTo defs v i ∧ s.d.getD i 0 < s.d.getD v 0 + wOf defs v) →
    (⟨v, s.d.getD v 0⟩ : RelaxedVertex) ∈ s.q

/-- All edges relaxed: the quiescent state of the loop. -/
def NoTense (defs : List ResolveDef) (d : List Nat) : Prop :=
  ∀ v i, v < defs.length → EdgeTo defs v i →
    d.getD v 0 + wOf defs v ≤ d.getD i 0

theorem edge_source_lt (defs : List ResolveDef) {a b : Nat}
    (h : EdgeTo defs a b) : a < defs.length := by
  by_contra hge
  unfold EdgeTo at h
  rw [List.getD_eq_default defs default (by omega)] at h
  cases h

theorem bfQueueInv_stale (defs : List ResolveDef) (s : BFState)
    (rv : RelaxedVertex) (rest : List RelaxedVertex) (hq : s.q = rv :: rest)
    (hqi : BFQueueInv defs s) (hstale : rv.d < s.d.getD rv.v 0) :
    BFQueueInv defs { s with q := rest } := by
  intro v hv hex
  have h := hqi v hv hex
  rw [hq] at h
  rcases List.mem_cons.mp h with heq | h
  · rw [← heq] at hstale
    simp at hstale
  · exact h

theorem bfQueueInv_relax (defs : List ResolveDef) (s : BFState)
    (rv : RelaxedVertex) (rest : List RelaxedVertex) (hq : s.q = rv :: rest)
    (hinv : BFInv defs s) (hqi : BFQueueInv defs s) (hval : ValidEdges defs) :
    BFQueueInv defs
      ((defs.getD rv.v default).edges.foldl
        (relaxEdge rv.v (s.d.getD rv.v 0 + wOf defs rv.v)) { s with q := rest }) := by
  have hv0 : rv.v < defs.length := hinv.qlt rv (hq ▸ List.mem_cons_self _ _)
  have hmem : defs.getD rv.v default ∈ defs := mem_getD defs rv.v hv0
  have hrange : ∀ i ∈ (defs.getD rv.v default).edges,
      i < ({ s with q := rest } : BFState).d.length := by
    intro i hi
    show i < s.d.length
    rw [hinv.dlen]
    exact hval _ hmem i hi
  intro v hv hex
  obtain ⟨i, hedge, htense⟩ := hex
  rcases relaxFold_d_change rv.v (s.d.getD rv.v 0 + wOf defs rv.v)
      (defs.getD rv.v default).edges { s with q := rest } v with heq | ⟨heq, _, hqmem⟩
  · by_cases hveq : v = rv.v
    · subst hveq
      have hge := relaxFold_d_ge rv.v (s.d.getD rv.v 0 + wOf defs rv.v)
        (defs.getD rv.v default).edges { s with q := rest } hrange i hedge
      have heq' : ((defs.getD rv.v default).edges.foldl
          (relaxEdge rv.v (s.d.getD rv.v 0 + wOf defs rv.v))
          { s with q := rest }).d.getD rv.v 0 = s.d.getD rv.v 0 := heq
      omega
    · have hmono := relaxFold_d_mono rv.v (s.d.getD rv.v 0 + wOf defs rv.v)
        (defs.getD rv.v default).edges { s with q := rest } i
      have hot : s.d.getD i 0 < s.d.getD v 0 + wOf defs v := by
        rw [heq] at htense
        exact lt_of_le_of_lt hmono htense
      have hin := hqi v hv ⟨i, hedge, hot⟩
      rw [hq] at hin
      rcases List.mem_cons.mp hin with heq2 | hin
      · rcases rv with ⟨rvv, rvd⟩
        cases heq2
        exact absurd rfl hveq
      · rw [heq]
        exact relaxFold_q_mono _ _ _ _ _ hin
  · rw [heq]
    exact hqmem

theorem bfRun_done_noTense (defs : List ResolveDef) (hval : ValidEdges defs) :
    ∀ (fuel : Nat) (s : BFState) (d' : List Nat), BFInv defs s →
      BFQueueInv defs s → bfRun defs fuel s = BFResult.done d' →
      NoTense defs d' := by
  intro fuel
  induction fuel with
  | zero =>
    intro s d' _ _ h
    rw [bfRun] at h
    cases h
  | succ fuel ih =>
    intro s d' hinv hqi h
    rw [bfRun] at h
    rcases hq : s.q with _ | ⟨rv, rest⟩
    · rw [hq] at h
      simp only at h
      cases h
      intro v i hv hedge
      by_contra hlt
      have := hqi v hv ⟨i, hedge, by omega⟩
      rw [hq] at this
      cases this
    · rw [hq] at h
      simp only at h
      by_cases hstale : rv.d < s.d.getD rv.v 0
      · rw [if_pos hstale] at h
        refine ih { s with q := rest } d' ⟨hinv.dlen, hinv.dle, ?_⟩
          (bfQueueInv_stale defs s rv rest hq hqi hstale) h
        exact fun e he => hinv.qlt e (hq ▸ List.mem_cons_of_mem _ he)
      · rw [if_neg hstale] at h
        by_cases hbig : defs.length ≤ s.d.getD rv.v 0
        · rw [if_pos hbig] at h
          cases h
        · rw [if_neg hbig] at h
          exact ih _ d' (bfInv_relax defs s rv rest hq hinv hval (by omega))
            (bfQueueInv_relax defs s rv rest hq hinv hqi hval) h

theorem getLastD_cons_cons (x y : Nat) (ys : List Nat) (d : Nat) :
    (x :: y :: ys).getLastD d = (y :: ys).getLastD d := by
  rw [List.getLastD_eq_getLast?, List.getLastD_eq_getLast?,
    List.getLast?_cons_cons]

theorem map_sum_dropLast (f : Nat → Nat) (c : List Nat) (hne : c ≠ []) :
    (c.map f).sum = (c.dropLast.map f).sum + f (c.getLastD 0) := by
  have hlast? : c.getLast? = some (c.getLastD 0) := by
    rw [List.getLastD_eq_getLast?]
    cases h : c.getLast? with
    | none => exact absurd (List.getLast?_eq_none_iff.mp h) hne
    | some a => rfl
  have hsplit : c.dropLast ++ [c.getLastD 0] = c := by
    conv_rhs => rw [← List.dropLast_append_getLast hne]
    rw [List.getLastD_eq_getLast?, List.getLast?_eq_getLast c hne]
    rfl
  conv_lhs => rw [← hsplit]
  simp

/-- Telescoping the quiescence inequalities along a chain. -/
theorem chain_d_le (defs : List ResolveDef) (d : List Nat)
    (hnt : NoTense defs d) :
    ∀ c : List Nat, c.Chain' (EdgeTo defs) →
      d.getD (c.headD 0) 0 + (c.dropLast.map (wOf defs)).sum ≤
        d.getD (c.getLastD 0) 0 := by
  intro c
  induction c with
  | nil => simp
  | cons x xs ih =>
    intro hch
    rcases xs with _ | ⟨y, ys⟩
    · simp
    · rw [List.chain'_cons] at hch
      obtain ⟨hxy, hch'⟩ := hch
      have hx : x < defs.length := edge_source_lt defs hxy
      have h1 : d.getD x 0 + wOf defs x ≤ d.getD y 0 := hnt x y hx hxy
      have h2 := ih hch'
      rw [getLastD_cons_cons]
      simp only [List.headD_cons] at h2 ⊢
      have hdl : (x :: y :: ys).dropLast = x :: (y :: ys).dropLast := rfl
      rw [hdl, List.map_cons, List.sum_cons]
      omega

/-- Quiescence rules out any value cycle. -/
theorem noTense_no_cycle (defs : List ResolveDef) (d : List Nat)
    (hnt : NoTense defs d) : ¬ HasValueCycle defs := by
  rintro ⟨c, hne, hch, hwrap, v, hvmem, hw⟩
  have hlastlt : c.getLastD 0 < defs.length := edge_source_lt defs hwrap
  have h1 := chain_d_le defs d hnt c hch
  have h2 : d.getD (c.getLastD 0) 0 + wOf defs (c.getLastD 0) ≤
      d.getD (c.headD 0) 0 := hnt _ _ hlastlt hwrap
  have h3 : (c.map (wOf defs)).sum =
      (c.dropLast.map (wOf defs)).sum + wOf defs (c.getLastD 0) :=
    map_sum_dropLast (wOf defs) c hne
  have h4 : wOf defs v ≤ (c.map (wOf defs)).sum :=
    List.single_le_sum (fun x _ => Nat.zero_le x) _
      (List.mem_map_of_mem (wOf defs) hvmem)
  omega

/-! ### Initial state facts and the C1 claim -/

theorem bfInv_init (defs : List ResolveDef) : BFInv defs (bfInit defs.length) := by
  refine ⟨by simp [bfInit], ?_, ?_⟩
  · intro j
    show (List.replicate defs.length 0).getD j 0 ≤ defs.length
    by_cases hj : j < defs.length
    · rw [List.getD_eq_getElem _ _ (by simpa using hj)]
      simp
    · rw [List.getD_eq_default _ _ (by simpa using hj)]
      omega
  · intro e he
    simp only [bfInit, List.mem_map, List.mem_range] at he
    obtain ⟨i, hi, rfl⟩ := he
    exact hi

theorem bfReach_init (defs : List ResolveDef) : BFReach defs (bfInit defs.length) := by
  intro v hv
  refine ⟨[v], by simp, List.chain'_singleton _, ?_, by simp, ?_⟩
  · intro x hx
    rcases List.mem_singleton.mp hx with rfl
    exact hv
  · show (List.map (wOf defs) [v].dropLast).sum =
      (List.replicate defs.length 0).getD v 0
    rw [List.getD_eq_getElem _ _ (by simpa using hv)]
    simp

theorem bfQueueInv_init (defs : List ResolveDef) :
    BFQueueInv defs (bfInit defs.length) := by
  intro v hv _
  show (⟨v, (List.replicate defs.length 0).getD v 0⟩ : RelaxedVertex) ∈
    (List.range defs.length).map (fun i => (⟨i, 0⟩ : RelaxedVertex))
  rw [List.getD_eq_getElem _ _ (by simpa using hv)]
  simp only [List.getElem_replicate]
  exact List.mem_map_of_mem _ (List.mem_range.mpr hv)

theorem bfPhi_init (defs : List ResolveDef) :
    bfPhi defs.length (bfInit defs.length) = defs.length + defs.length * defs.length := by
  unfold bfPhi bfInit
  simp [List.sum_replicate, smul_eq_mul]

/-- C1: for every definition scope handed to `fracture_binding` (all
expressions present, all edges naming definitions of the scope), the
Bellman-Ford phase prints the "Value definition cycle" diagnostic and
returns a null result exactly when the scope's local reference graph has a
cycle through at least one non-lambda definition — the condition the code
detects as some `d[v]` reaching `N`; when no such cycle exists the pass
instead proceeds to level emission with the computed `d`. -/
theorem claim_C1_cycle_detection (defs : List ResolveDef)
    (hval : ValidEdges defs) (hexpr : ∀ rd ∈ defs, rd.expr.isSome = true) :
    ((∃ names, fracture_binding_bf defs = FractureOutcome.cycleReport names) ↔
      HasValueCycle defs) ∧
    (¬ HasValueCycle defs →
      ∃ d, fracture_binding_bf defs = FractureOutcome.levels d) := by
  have hall : defs.all (fun rd => rd.expr.isSome) = true := by
    rw [List.all_eq_true]
    exact hexpr
  have hnf := bfRun_ne_outOfFuel defs hval (bfFuel defs.length) (bfInit defs.length)
    (bfInv_init defs) (by rw [bfPhi_init]; unfold bfFuel; omega)
  unfold fracture_binding_bf
  rw [if_pos hall]
  rcases hrun : bfRun defs (bfFuel defs.length) (bfInit defs.length) with _ | names | d
  · exact absurd hrun hnf
  · have hcyc := bfRun_cycle_sound defs hval _ _ names (bfInv_init defs)
      (bfReach_init defs) hrun
    exact ⟨⟨fun _ => hcyc, fun _ => ⟨names, rfl⟩⟩, fun hnc => absurd hcyc hnc⟩
  · have hnt := bfRun_done_noTense defs hval _ _ d (bfInv_init defs)
      (bfQueueInv_init defs) hrun
    have hnc := noTense_no_cycle defs d hnt
    refine ⟨⟨?_, fun hc => absurd hc hnc⟩, fun _ => ⟨d, rfl⟩⟩
    rintro ⟨names, h⟩
    cases h

theorem claim_C1_cycle_detection_witness :
    ValidEdges [⟨"a", some (Expr.VarRef "b"), [1]⟩,
      ⟨"b", some (Expr.VarRef "a"), [0]⟩] ∧
    (∀ rd ∈ [(⟨"a", some (Expr.VarRef "b"), [1]⟩ : ResolveDef),
      ⟨"b", some (Expr.VarRef "a"), [0]⟩], rd.expr.isSome = true) ∧
    (((∃ names, fracture_binding_bf [⟨"a", some (Expr.VarRef "b"), [1]⟩,
        ⟨"b", some (Expr.VarRef "a"), [0]⟩] = FractureOutcome.cycleReport names) ↔
      HasValueCycle [⟨"a", some (Expr.VarRef "b"), [1]⟩,
        ⟨"b", some (Expr.VarRef "a"), [0]⟩]) ∧
     (¬ HasValueCycle [⟨"a", some (Expr.VarRef "b"), [1]⟩,
        ⟨"b", some (Expr.VarRef "a"), [0]⟩] →
      ∃ d, fracture_binding_bf [⟨"a", some (Expr.VarRef "b"), [1]⟩,
        ⟨"b", some (Expr.VarRef "a"), [0]⟩] = FractureOutcome.levels d)) :=
  ⟨by unfold ValidEdges; decide, by decide,
    claim_C1_cycle_detection _ (by unfold ValidEdges; decide) (by decide)⟩

/-! ## Publish/subscribe chaining (part_000 lines 209-241)

`rebind_subscribe` walks the scope chain looking for the synthetic
definition `"publish <depth> <name>"`; `chain_publish` folds the publish
contributions of one `DefMap` into such definitions.  A scope is modelled
by its depth and name index; the edge-recording side effect of
`reference_map` is irrelevant to the built expressions and omitted.
`DefMap::Pubs` is an ordered association list of contribution lists, the
parser appending contributions in source order. -/

def pubName (d : Nat) (n : String) : String :=
  "publish " ++ toString d ++ " " ++ n

def chainName (d K : Nat) (n : String) : String :=
  "publish " ++ toString d ++ " " ++ toString K ++ " " ++ n

structure PubFrame where
  depth : Nat
  index : List (String × Nat)

/-- `rebind_subscribe` (part_000 lines 209-217): find the nearest
enclosing scope publishing `name`, else `Nil`. -/
def rebind_subscribe (frames : List PubFrame) (name : String) : Expr :=
  match frames with
  | [] => Expr.VarRef "Nil"
  | f :: rest =>
    if (f.index.lookup (pubName f.depth name)).isSome then
      Expr.VarRef (pubName f.depth name)
    else rebind_subscribe rest name

/-- The mutable parts of the `ResolveBinding` that `chain_publish`
updates: its depth, name index (newest binding first, as `std::map`
assignment overwrites), definition vector and chain counter. -/
structure ChainState where
  depth : Nat
  index : List (String × Nat)
  defs : List (String × Expr)
  chain : Nat

/-- One iteration of the inner loop of `chain_publish` (part_000 lines
222-239), handling a single contribution `body` to name `n`. -/
def chain_publish_contrib (parents : List PubFrame) (n : String)
    (st : ChainState) (body : Expr) : ChainState :=
  let name := pubName st.depth n
  match st.index.lookup name with
  | none =>
    let tail := rebind_subscribe (⟨st.depth, st.index⟩ :: parents) n
    { st with
      index := (name, st.defs.length) :: st.index,
      defs := st.defs ++
        [(name, Expr.App (Expr.App (Expr.VarRef "binary ++") body) tail)] }
  | some pubIdx =>
    let newName := chainName st.depth (st.chain + 1) n
    let old := st.defs.getD pubIdx ("", Expr.Literal 0)
    { depth := st.depth,
      index := (name, st.defs.length) :: (newName, pubIdx) :: st.index,
      defs := st.defs.set pubIdx (newName, old.2) ++
        [(name, Expr.App (Expr.App (Expr.VarRef "binary ++") body)
          (Expr.VarRef newName))],
      chain := st.chain + 1 }

/-- The contributions of one published name, iterated in reverse
(`rbegin`..`rend`). -/
def chain_publish_name (parents : List PubFrame) (n : String)
    (contribs : List Expr) (st : ChainState) : ChainState :=
  contribs.reverse.foldl (chain_publish_contrib parents n) st

/-- `chain_publish` over the whole publish map of a `DefMap`. -/
def chain_publish (parents : List PubFrame)
    (pubs : List (String × List Expr)) (st : ChainState) : ChainState :=
  pubs.foldl (fun st p => chain_publish_name parents p.1 p.2 st) st

/-- Evaluation of the built publish expressions: `"binary ++"` is list
append, `Nil` the empty list, a `Literal k` contribution the singleton
`[k]`, and a `VarRef` resolves through the scope's definitions. -/
def evalPub (defs : List (String × Expr)) (index : List (String × Nat)) :
    Nat → Expr → Option (List Nat)
  | 0, _ => none
  | fuel+1, e =>
    match e with
    | Expr.Literal k => some [k]
    | Expr.VarRef nm =>
      if nm = "Nil" then some []
      else
        match index.lookup nm with
        | some i => evalPub defs index fuel (defs.getD i ("", Expr.Literal 0)).2
        | none => none
    | Expr.App (Expr.App (Expr.VarRef op) a) b =>
      if op = "binary ++" then
        match evalPub defs index fuel a, evalPub defs index fuel b with
        | some xs, some ys => some (xs ++ ys)
        | _, _ => none
      else none
    | _ => none

/-- C3 (counterexample): publishing `1` then `2` to `ps` at depth 1 in a
fresh scope yields `"publish 1 ps" = 1 ++ (2 ++ Nil)`, i.e. the list
`[1, 2]` — the contributions in source order — not the claimed
`2 ++ 1 ++ Nil = [2, 1]`. -/
theorem claim_C3_counterexample :
    (evalPub (chain_publish [] [("ps", [Expr.Literal 1, Expr.Literal 2])]
        ⟨1, [], [], 0⟩).defs
      (chain_publish [] [("ps", [Expr.Literal 1, Expr.Literal 2])]
        ⟨1, [], [], 0⟩).index
      9 (Expr.VarRef (pubName 1 "ps")) = some [1, 2]) ∧
    (evalPub (chain_publish [] [("ps", [Expr.Literal 1, Expr.Literal 2])]
        ⟨1, [], [], 0⟩).defs
      (chain_publish [] [("ps", [Expr.Literal 1, Expr.Literal 2])]
        ⟨1, [], [], 0⟩).index
      9 (Expr.VarRef (pubName 1 "ps")) ≠ some [2, 1]) := by
  constructor
  · rfl
  · intro h
    rw [show evalPub (chain_publish [] [("ps", [Expr.Literal 1, Expr.Literal 2])]
        ⟨1, [], [], 0⟩).defs
      (chain_publish [] [("ps", [Expr.Literal 1, Expr.Literal 2])]
        ⟨1, [], [], 0⟩).index
      9 (Expr.VarRef (pubName 1 "ps")) = some [1, 2] from rfl] at h
    simp at h

/-- The body of the `i`-th synthetic publish definition (position `i` in
the definition vector): its contribution prepended to the next link of the
chain (`Nil` at the bottom). -/
def chainBody (d : Nat) (n : String) (c : Nat) (i : Nat) : Expr :=
  Expr.App (Expr.App (Expr.VarRef "binary ++") (Expr.Literal c))
    (if i = 0 then Expr.VarRef "Nil" else Expr.VarRef (chainName d i n))

/-- The `i`-th synthetic publish definition for contributions `ks` in
source order: the last one carries the public name. -/
def chainEntry (d : Nat) (n : String) (ks : List Nat) (i : Nat) : String × Expr :=
  (if i + 1 = ks.length then pubName d n else chainName d (i + 1) n,
   chainBody d n (ks.getD (ks.length - 1 - i) 0) i)

/-- The synthetic names generated for one published name are distinct (a
property of decimal rendering the source relies on). -/
def PubNamesOk (d : Nat) (n : String) (k : Nat) : Prop :=
  (pubName d n :: (List.range k).map (fun j => chainName d (j + 1) n)).Nodup

theorem pubNamesOk_anti {d : Nat} {n : String} {k k' : Nat} (hle : k' ≤ k)
    (h : PubNamesOk d n k) : PubNamesOk d n k' := by
  unfold PubNamesOk at h ⊢
  refine List.Nodup.sublist ?_ h
  exact List.Sublist.cons₂ _ (List.Sublist.map _ (List.range_sublist.mpr hle))

theorem pubNamesOk_ne_pub {d : Nat} {n : String} {k : Nat}
    (h : PubNamesOk d n k) : ∀ j, j < k → pubName d n ≠ chainName d (j + 1) n := by
  intro j hj heq
  rw [PubNamesOk, List.nodup_cons] at h
  exact h.1 (heq ▸ List.mem_map_of_mem _ (List.mem_range.mpr hj))

theorem pubNamesOk_chain_inj {d : Nat} {n : String} {k : Nat}
    (h : PubNamesOk d n k) : ∀ i j, i < k → j < k → i ≠ j →
      chainName d (i + 1) n ≠ chainName d (j + 1) n := by
  intro i j hi hj hij heq
  rw [PubNamesOk, List.nodup_cons] at h
  have hmap := h.2
  have hbi : i < ((List.range k).map (fun j => chainName d (j + 1) n)).length := by
    simpa using hi
  have hbj : j < ((List.range k).map (fun j => chainName d (j + 1) n)).length := by
    simpa using hj
  have h1 : ((List.range k).map (fun j => chainName d (j + 1) n))[i] =
      ((List.range k).map (fun j => chainName d (j + 1) n))[j] := by
    simp only [List.getElem_map, List.getElem_range]
    exact heq
  have := (List.Nodup.getElem_inj_iff hmap).mp h1
  exact hij this

theorem lookup_cons_self (a : String) (v : Nat) (rest : List (String × Nat)) :
    ((a, v) :: rest).lookup a = some v := by
  simp [List.lookup]

theorem lookup_cons_ne (a b : String) (v : Nat) (rest : List (String × Nat))
    (h : b ≠ a) : ((b, v) :: rest).lookup a = rest.lookup a := by
  have hb : (a == b) = false := by simp [Ne.symm h]
  simp [List.lookup, hb]

theorem getD_map_range {α : Type} (f : Nat → α) (k i : Nat) (dflt : α)
    (h : i < k) : ((List.range k).map f).getD i dflt = f i := by
  rw [List.getD_eq_getElem _ _ (by simpa using h)]
  simp

/-- The state built by `chain_publish` for one name in a fresh scope: the
definition vector is exactly the chain of `chainEntry`s and the index
resolves the public and chain names to their positions. -/
theorem chain_publish_name_shape (d : Nat) (n : String) :
    ∀ ks : List Nat, ks ≠ [] → PubNamesOk d n ks.length →
      (chain_publish_name [] n (ks.map Expr.Literal) ⟨d, [], [], 0⟩).depth = d ∧
      (chain_publish_name [] n (ks.map Expr.Literal) ⟨d, [], [], 0⟩).chain =
        ks.length - 1 ∧
      (chain_publish_name [] n (ks.map Expr.Literal) ⟨d, [], [], 0⟩).defs =
        (List.range ks.length).map (chainEntry d n ks) ∧
      (chain_publish_name [] n (ks.map Expr.Literal)
          ⟨d, [], [], 0⟩).index.lookup (pubName d n) = some (ks.length - 1) ∧
      (∀ j, 1 ≤ j → j + 1 ≤ ks.length →
        (chain_publish_name [] n (ks.map Expr.Literal)
          ⟨d, [], [], 0⟩).index.lookup (chainName d j n) = some (j - 1)) := by
  intro ks
  induction ks with
  | nil => intro h; exact absurd rfl h
  | cons c ks' ih =>
    intro _ hnames
    by_cases hne' : ks' = []
    · subst hne'
      refine ⟨rfl, rfl, rfl, ?_, ?_⟩
      · show List.lookup (pubName d n) [(pubName d n, 0)] = some ([c].length - 1)
        rw [show (([(pubName d n, 0)] : List (String × Nat)).lookup (pubName d n))
          = some 0 from lookup_cons_self _ _ _]
        rfl
      · intro j h1 h2
        simp only [List.length_singleton] at h2
        omega
    · have hk' : 1 ≤ ks'.length := List.length_pos.mpr hne'
      have hnames' : PubNamesOk d n ks'.length :=
        pubNamesOk_anti (by simp) hnames
      obtain ⟨ihd, ihc, ihdefs, ihpub, ihchain⟩ := ih hne' hnames'
      have hstep : chain_publish_name [] n ((c :: ks').map Expr.Literal)
          ⟨d, [], [], 0⟩ =
          chain_publish_contrib [] n
            (chain_publish_name [] n (ks'.map Expr.Literal) ⟨d, [], [], 0⟩)
            (Expr.Literal c) := by
        unfold chain_publish_name
        rw [List.map_cons, List.reverse_cons, List.foldl_append]
        rfl
      set st' := chain_publish_name [] n (ks'.map Expr.Literal) ⟨d, [], [], 0⟩
        with hst'
      have hlen : st'.defs.length = ks'.length := by
        rw [ihdefs]
        simp
      have hchainval : st'.chain + 1 = ks'.length := by
        rw [ihc]
        omega
      have hcontrib : chain_publish_contrib [] n st' (Expr.Literal c) =
          { depth := st'.depth,
            index := (pubName d n, st'.defs.length) ::
              (chainName d ks'.length n, ks'.length - 1) :: st'.index,
            defs := st'.defs.set (ks'.length - 1)
              (chainName d ks'.length n,
                (st'.defs.getD (ks'.length - 1) ("", Expr.Literal 0)).2) ++
              [(pubName d n,
                Expr.App (Expr.App (Expr.VarRef "binary ++") (Expr.Literal c))
                  (Expr.VarRef (chainName d ks'.length n)))],
            chain := st'.chain + 1 } := by
        simp only [chain_publish_contrib]
        rw [ihd, ihpub, hchainval]
      have hgetD : (st'.defs.getD (ks'.length - 1) ("", Expr.Literal 0)).2 =
          chainBody d n (ks'.getD 0 0) (ks'.length - 1) := by
        rw [ihdefs, getD_map_range _ _ _ _ (by omega)]
        unfold chainEntry
        have : ks'.length - 1 - (ks'.length - 1) = 0 := by omega
        rw [this]
      rw [hstep, hcontrib]
      refine ⟨ihd, ?_, ?_, ?_, ?_⟩
      · show st'.chain + 1 = (c :: ks').length - 1
        rw [hchainval]
        simp
      · show st'.defs.set (ks'.length - 1) _ ++ _ = _
        rw [hgetD, ihdefs]
        refine List.ext_getElem ?_ ?_
        · simp
        · intro i h1 h2
          simp only [List.length_append, List.length_set, List.length_map,
            List.length_range, List.length_cons, List.length_singleton] at h1 h2
          by_cases hik : i < ks'.length
          · rw [List.getElem_append_left (by simpa using hik)]
            by_cases hieq : i = ks'.length - 1
            · subst hieq
              rw [List.getElem_set_self (by simpa using (by omega : ks'.length - 1 < ks'.length))]
              rw [List.getElem_map, List.getElem_range]
              unfold chainEntry
              have hc1 : ¬ (ks'.length - 1 + 1 = (c :: ks').length) := by
                simp only [List.length_cons]
                omega
              rw [if_neg hc1]
              have hc2 : ks'.length - 1 + 1 = ks'.length := by omega
              rw [hc2]
              have hc3 : (c :: ks').length - 1 - (ks'.length - 1) = 1 := by
                simp only [List.length_cons]
                omega
              rw [hc3]
              rfl
            · rw [List.getElem_set_ne (by omega) (by simpa using hik)]
              rw [List.getElem_map, List.getElem_range,
                List.getElem_map, List.getElem_range]
              unfold chainEntry
              have hd1 : ¬ (i + 1 = ks'.length) := by omega
              have hd2 : ¬ (i + 1 = (c :: ks').length) := by
                simp only [List.length_cons]
                omega
              rw [if_neg hd1, if_neg hd2]
              have hd3 : (c :: ks').length - 1 - i = (ks'.length - 1 - i) + 1 := by
                simp only [List.length_cons]
                omega
              rw [hd3, List.getD_cons_succ]
          · have hik2 : i = ks'.length := by omega
            subst hik2
            rw [List.getElem_append_right (by simp)]
            simp only [List.length_set, List.length_map, List.length_range]
            rw [List.getElem_map, List.getElem_range]
            unfold chainEntry
            have he1 : ks'.length + 1 = (c :: ks').length := by simp
            rw [if_pos he1]
            show _ = (pubName d n, chainBody d n ((c :: ks').getD ((c :: ks').length - 1 - ks'.length) 0) ks'.length)
            have he2 : (c :: ks').length - 1 - ks'.length = 0 := by
              simp only [List.length_cons]
              omega
            rw [he2]
            unfold chainBody
            rw [if_neg (by omega : ¬ ks'.length = 0)]
            simp only [Nat.sub_self, List.getElem_singleton, List.getD_cons_zero]
      · show ((pubName d n, st'.defs.length) :: _ : List (String × Nat)).lookup _ = _
        rw [lookup_cons_self, hlen]
        simp
      · intro j hj1 hj2
        simp only [List.length_cons] at hj2
        have hne3 : pubName d n ≠ chainName d j n := by
          have := pubNamesOk_ne_pub hnames (j - 1)
            (by simp only [List.length_cons]; omega)
          rwa [(by omega : j - 1 + 1 = j)] at this
        by_cases hjk : j = ks'.length
        · subst hjk
          show ((pubName d n, st'.defs.length) :: _ : List (String × Nat)).lookup _ = _
          rw [lookup_cons_ne _ _ _ _ hne3, lookup_cons_self]
        · have hjlt : j < ks'.length := by omega
          have hne2 : chainName d ks'.length n ≠ chainName d j n := by
            have := pubNamesOk_chain_inj hnames (ks'.length - 1) (j - 1)
              (by simp only [List.length_cons]; omega)
              (by simp only [List.length_cons]; omega) (by omega)
            rwa [(by omega : ks'.length - 1 + 1 = ks'.length),
              (by omega : j - 1 + 1 = j)] at this
          show ((pubName d n, st'.defs.length) :: _ : List (String × Nat)).lookup _ = _
          rw [lookup_cons_ne _ _ _ _ hne3, lookup_cons_ne _ _ _ _ hne2]
          exact ihchain j hj1 (by omega)

theorem pubName_ne_nil (d : Nat) (n : String) : pubName d n ≠ "Nil" := by
  intro h
  have hlen := congrArg String.length h
  simp only [pubName, String.length_append] at hlen
  have h8 : ("publish " : String).length = 8 := rfl
  have h1 : (" " : String).length = 1 := rfl
  have h3 : ("Nil" : String).length = 3 := rfl
  omega

theorem chainName_ne_nil (d K : Nat) (n : String) : chainName d K n ≠ "Nil" := by
  intro h
  have hlen := congrArg String.length h
  simp only [chainName, String.length_append] at hlen
  have h8 : ("publish " : String).length = 8 := rfl
  have h1 : (" " : String).length = 1 := rfl
  have h3 : ("Nil" : String).length = 3 := rfl
  omega

theorem evalPub_append (defs : List (String × Expr)) (index : List (String × Nat))
    (fuel : Nat) (a b : Expr) (xs ys : List Nat)
    (ha : evalPub defs index fuel a = some xs)
    (hb : evalPub defs index fuel b = some ys) :
    evalPub defs index (fuel + 1)
      (Expr.App (Expr.App (Expr.VarRef "binary ++") a) b) = some (xs ++ ys) := by
  simp only [evalPub]
  rw [if_pos trivial, ha, hb]

theorem evalPub_varRef (defs : List (String × Expr)) (index : List (String × Nat))
    (fuel : Nat) (nm : String) (i : Nat) (hnm : nm ≠ "Nil")
    (hlk : index.lookup nm = some i) :
    evalPub defs index (fuel + 1) (Expr.VarRef nm) =
      evalPub defs index fuel (defs.getD i ("", Expr.Literal 0)).2 := by
  simp only [evalPub]
  rw [if_neg hnm, hlk]

/-- Evaluating the `i`-th link of the publish chain yields the last `i + 1`
contributions in source order. -/
theorem chain_eval (d : Nat) (n : String) (ks : List Nat)
    (index : List (String × Nat))
    (hidx : ∀ j, 1 ≤ j → j + 1 ≤ ks.length →
      index.lookup (chainName d j n) = some (j - 1)) :
    ∀ i, i < ks.length → ∀ fuel, 2 * i + 2 ≤ fuel →
      evalPub ((List.range ks.length).map (chainEntry d n ks)) index fuel
        (chainBody d n (ks.getD (ks.length - 1 - i) 0) i) =
      some (ks.drop (ks.length - 1 - i)) := by
  intro i
  induction i with
  | zero =>
    intro hi fuel hfuel
    obtain ⟨X, rfl⟩ : ∃ X, fuel = X + 1 + 1 := ⟨fuel - 2, by omega⟩
    have h1 : ks.length - 1 < ks.length := by omega
    have hnil : evalPub ((List.range ks.length).map (chainEntry d n ks)) index
        (X + 1) (Expr.VarRef "Nil") = some [] := rfl
    have hlit : evalPub ((List.range ks.length).map (chainEntry d n ks)) index
        (X + 1) (Expr.Literal (ks.getD (ks.length - 1 - 0) 0)) =
      some [ks.getD (ks.length - 1 - 0) 0] := rfl
    have hstep := evalPub_append _ index (X + 1) _ _ _ _ hlit hnil
    rw [show chainBody d n (ks.getD (ks.length - 1 - 0) 0) 0 =
      Expr.App (Expr.App (Expr.VarRef "binary ++")
        (Expr.Literal (ks.getD (ks.length - 1 - 0) 0)))
        (Expr.VarRef "Nil") from rfl]
    rw [hstep, List.append_nil, Nat.sub_zero, List.getD_eq_getElem _ _ h1,
      List.drop_eq_getElem_cons h1,
      (by omega : ks.length - 1 + 1 = ks.length), List.drop_length]
  | succ i' ih =>
    intro hi fuel hfuel
    obtain ⟨X, rfl⟩ : ∃ X, fuel = X + 1 + 1 := ⟨fuel - 2, by omega⟩
    have hi' : i' < ks.length := by omega
    have hlk := hidx (i' + 1) (by omega) (by omega)
    have htail : evalPub ((List.range ks.length).map (chainEntry d n ks)) index
        (X + 1) (Expr.VarRef (chainName d (i' + 1) n)) =
        some (ks.drop (ks.length - 1 - i')) := by
      rw [evalPub_varRef _ index X _ (i' + 1 - 1)
        (chainName_ne_nil d (i' + 1) n) hlk]
      rw [getD_map_range _ _ _ _ (show i' + 1 - 1 < ks.length from hi')]
      exact ih hi' X (by omega)
    have hlit : evalPub ((List.range ks.length).map (chainEntry d n ks)) index
        (X + 1) (Expr.Literal (ks.getD (ks.length - 1 - (i' + 1)) 0)) =
      some [ks.getD (ks.length - 1 - (i' + 1)) 0] := rfl
    have hstep := evalPub_append _ index (X + 1) _ _ _ _ hlit htail
    rw [show chainBody d n (ks.getD (ks.length - 1 - (i' + 1)) 0) (i' + 1) =
      Expr.App (Expr.App (Expr.VarRef "binary ++")
        (Expr.Literal (ks.getD (ks.length - 1 - (i' + 1)) 0)))
        (Expr.VarRef (chainName d (i' + 1) n)) from rfl]
    rw [hstep]
    have hA : ks.length - 1 - (i' + 1) < ks.length := by omega
    have hKi : ks.length - 1 - i' = ks.length - 1 - (i' + 1) + 1 := by omega
    rw [List.drop_eq_getElem_cons hA, hKi, List.getD_eq_getElem _ _ hA]
    rfl

theorem rebind_subscribe_find (frames : List PubFrame) (name : String) :
    rebind_subscribe frames name =
      match frames.find?
          (fun f => (f.index.lookup (pubName f.depth name)).isSome) with
      | some f => Expr.VarRef (pubName f.depth name)
      | none => Expr.VarRef "Nil" := by
  induction frames with
  | nil => rfl
  | cons f rest ih =>
    by_cases hp : (f.index.lookup (pubName f.depth name)).isSome = true
    · unfold rebind_subscribe
      rw [if_pos hp]
      simp only [List.find?_cons, hp]
    · unfold rebind_subscribe
      rw [if_neg hp, ih]
      have hpf : (f.index.lookup (pubName f.depth name)).isSome = false :=
        Bool.eq_false_iff.mpr hp
      simp only [List.find?_cons, hpf]

/-- C3 (amended): for publish contributions `ks` (integer literals, listed
in source order) to name `n` at scope depth `d` in a fresh scope,
`chain_publish` builds a synthetic definition `"publish d n"` that
evaluates to `contribution_1 ++ … ++ contribution_k ++ Nil` — the
contributions applied in SOURCE order, not reversed: the fold iterates
`rbegin..rend` over the parser's reversed contribution list, which
restores source order, so for `publish ps = 1` then `publish ps = 2`,
`"publish 1 ps"` evaluates to `1 ++ 2 ++ Nil = [1, 2]` (see the
counterexample theorem).  The tail clause of the claim is right:
`rebind_subscribe` resolves to the nearest enclosing frame publishing the
name, or `Nil` if none does. -/
theorem claim_C3_publish_chain (d : Nat) (n : String) (ks : List Nat)
    (hne : ks ≠ []) (hnames : PubNamesOk d n ks.length) :
    (evalPub (chain_publish [] [(n, ks.map Expr.Literal)] ⟨d, [], [], 0⟩).defs
      (chain_publish [] [(n, ks.map Expr.Literal)] ⟨d, [], [], 0⟩).index
      (2 * ks.length + 1) (Expr.VarRef (pubName d n)) = some ks) ∧
    (∀ frames name, rebind_subscribe frames name =
      match frames.find?
          (fun f => (f.index.lookup (pubName f.depth name)).isSome) with
      | some f => Expr.VarRef (pubName f.depth name)
      | none => Expr.VarRef "Nil") := by
  refine ⟨?_, rebind_subscribe_find⟩
  obtain ⟨hd, hc, hdefs, hpub, hchain⟩ := chain_publish_name_shape d n ks hne hnames
  have hKpos : 0 < ks.length := List.length_pos.mpr hne
  have heq : chain_publish [] [(n, ks.map Expr.Literal)] ⟨d, [], [], 0⟩ =
      chain_publish_name [] n (ks.map Expr.Literal) ⟨d, [], [], 0⟩ := rfl
  rw [heq]
  rw [evalPub_varRef _ _ (2 * ks.length) _ (ks.length - 1)
    (pubName_ne_nil d n) hpub]
  rw [hdefs, getD_map_range _ _ _ _ (by omega : ks.length - 1 < ks.length)]
  show evalPub _ _ (2 * ks.length)
    (chainBody d n (ks.getD (ks.length - 1 - (ks.length - 1)) 0)
      (ks.length - 1)) = _
  rw [chain_eval d n ks _ hchain (ks.length - 1) (by omega)
    (2 * ks.length) (by omega)]
  simp only [Nat.sub_self, List.drop_zero]

theorem claim_C3_publish_chain_witness :
    (([1, 2] : List Nat) ≠ [] ∧ PubNamesOk 1 "ps" ([1, 2] : List Nat).length) ∧
    ((evalPub (chain_publish []
          [("ps", ([1, 2] : List Nat).map Expr.Literal)] ⟨1, [], [], 0⟩).defs
        (chain_publish []
          [("ps", ([1, 2] : List Nat).map Expr.Literal)] ⟨1, [], [], 0⟩).index
        (2 * ([1, 2] : List Nat).length + 1)
        (Expr.VarRef (pubName 1 "ps")) = some [1, 2]) ∧
      (∀ frames name, rebind_subscribe frames name =
        match frames.find?
            (fun f => (f.index.lookup (pubName f.depth name)).isSome) with
        | some f => Expr.VarRef (pubName f.depth name)
        | none => Expr.VarRef "Nil")) :=
  ⟨⟨by decide, by unfold PubNamesOk; decide⟩,
    claim_C3_publish_chain 1 "ps" [1, 2] (by decide)
      (by unfold PubNamesOk; decide)⟩

/-! ## Pattern compilation (part_000 lines 291-550)

`expand_patterns` compiles a vector of pattern rows (row 0 being the
prototype) into nested `destruct` applications.  The C++ works in place:
rows matching the current constructor are moved into a per-constructor
`bucket` (leaving a sentinel `index` of `-1`/`-2` behind), the recursion
runs on the bucket, and a reverse sweep moves the rows back and un-expands
the prototype position.  The embedding threads the row vector explicitly
and returns the diagnostics the code prints; recursion is fuelled. -/

structure SumT where
  name : String
  members : List (String × Nat)
  deriving Repr, DecidableEq

inductive PTree : Type where
  | node (sum : Option SumT) (cons : Nat) (var : Int) (children : List PTree)
  deriving Repr, Inhabited

def PTree.sum : PTree → Option SumT
  | .node s _ _ _ => s

def PTree.cons : PTree → Nat
  | .node _ c _ _ => c

def PTree.var : PTree → Int
  | .node _ _ v _ => v

def PTree.children : PTree → List PTree
  | .node _ _ _ cs => cs

structure PatternRef where
  tree : PTree
  index : Int
  uses : Nat
  guard : Bool
  deriving Repr, Inhabited

inductive Diag where
  | nonExhaustive (missing : PTree)
  | badConstructor (cons sum : String)
  | unreachable (index : Int)
  deriving Repr

/-- `get_expansion` (part_000 lines 326-329): walk `path` down the
children. -/
def get_expansion (t : PTree) (path : List Nat) : PTree :=
  path.foldl (fun t i => t.children.getD i default) t

/-- Functional counterpart of mutating the node reached by
`get_expansion`. -/
def set_expansion (t : PTree) : List Nat → (PTree → PTree) → PTree
  | [], f => f t
  | i :: path, f =>
    match t with
    | .node s c v cs =>
      .node s c v (cs.set i (set_expansion (cs.getD i default) path f))

/-- `find_mismatch` (part_000 lines 303-313): first path (in child order)
where `a` is unexpanded but `b` carries a constructor; returns that sum. -/
def find_mismatch : PTree → PTree → List Nat → Option (List Nat × SumT)
  | .node none _ _ _, b, path => b.sum.map fun s => (path, s)
  | .node (some _) _ _ ac, b, path => go ac b.children path 0
where go : List PTree → List PTree → List Nat → Nat → Option (List Nat × SumT)
  | [], _, _, _ => none
  | a :: as, bs, path, i =>
    match find_mismatch a (bs.getD i default) (path ++ [i]) with
    | some r => some r
    | none => go as bs path (i + 1)

/-- `fill_pattern` (part_000 lines 315-324): apply `expr` to the prototype
variables at positions where `b` binds a variable. -/
def fill_pattern (e : Expr) : PTree → PTree → Expr
  | .node _ _ av ac, b =>
    if b.var ≥ 0 then Expr.App e (Expr.VarRef ("_ a" ++ toString av))
    else go e ac b.children
where go (e : Expr) : List PTree → List PTree → Expr
  | [], _ => e
  | a :: as, bs => go (fill_pattern e a (bs.headD default)) as bs.tail

/-- The row sweep of one constructor iteration (part_000 lines 355-375):
expand unexpanded rows in place and move matching rows into the bucket,
leaving sentinel indices `-1`/`-2`; a row expanded with a different sum
aborts with a diagnostic.  `scanChildren` is the `children.resize(args)`
step followed, on the prototype row, by assigning the variable counter to
every child (part_000 lines 359-363). -/
def scanChildren (args : Nat) (isFirst : Bool) (var : Int)
    (tc : List PTree) : List PTree :=
  let base := (tc ++ List.replicate args (PTree.node none 0 (-1) [])).take args
  if isFirst then
    base.mapIdx (fun i ch =>
      PTree.node ch.sum ch.cons (var + (i : Int)) ch.children)
  else base

def expand_scan (su : SumT) (c : Nat) (args : Nat) (path : List Nat)
    (isFirst : Bool) (var : Int) :
    List PatternRef → (List PatternRef × List PatternRef × Option Diag)
  | [] => ([], [], none)
  | p :: rest =>
    let t := get_expansion p.tree path
    if t.sum = none then
      let newChildren := scanChildren args isFirst var t.children
      let newTree := set_expansion p.tree path
        (fun t => PTree.node (some su) c t.var newChildren)
      let (shells, bucket, err) := expand_scan su c args path false var rest
      ({ p with tree := newTree, index := -1 } :: shells,
       { p with tree := newTree } :: bucket, err)
    else if t.sum ≠ some su then
      (p :: rest, [],
       some (Diag.badConstructor
        ((t.sum.getD ⟨"", []⟩).members.getD t.cons ("", 0)).1 su.name))
    else if t.cons = c then
      let (shells, bucket, err) := expand_scan su c args path false var rest
      ({ p with index := -2 } :: shells, p :: bucket, err)
    else
      let (shells, bucket, err) := expand_scan su c args path false var rest
      (p :: shells, bucket, err)

/-- The reverse sweep of one constructor iteration (part_000 lines
385-396), on the REVERSED row and bucket lists: rows marked `-1` are moved
back and un-expanded at `path`, rows marked `-2` are moved back as-is. -/
def expand_restore (path : List Nat) :
    List PatternRef → List PatternRef → List PatternRef
  | [], _ => []
  | r :: rs, bk =>
    if r.index = -1 then
      match bk with
      | b :: bk' =>
        { b with tree := (set_expansion b.tree path
            (fun t => PTree.node none t.cons t.var [])) } ::
          expand_restore path rs bk'
      | [] => r :: expand_restore path rs []
    else if r.index = -2 then
      match bk with
      | b :: bk' => b :: expand_restore path rs bk'
      | [] => r :: expand_restore path rs []
    else r :: expand_restore path rs bk

mutual

/-- `expand_patterns` (part_000 lines 332-433).  Returns the final row
vector, the emitted diagnostics, and the built expression (`none` models
the C++ null result); the outer `Option` is fuel exhaustion. -/
def expand_patterns : Nat → List PatternRef →
    Option (List PatternRef × List Diag × Option Expr)
  | 0, _ => none
  | _ + 1, [] => some ([], [], none)
  | _ + 1, [p] => some ([p], [Diag.nonExhaustive p.tree], none)
  | fuel + 1, prototype :: p1 :: rest =>
    match find_mismatch prototype.tree p1.tree [] with
    | some (path, su) =>
      expand_members fuel su su.members 0 path
        (Expr.VarRef ("destruct " ++ su.name)) [] (prototype :: p1 :: rest) []
    | none =>
      let p1' := { p1 with uses := p1.uses + 1 }
      let guard_true := fill_pattern
        (Expr.App (Expr.VarRef ("_ f" ++ toString p1.index))
          (Expr.VarRef "_ a0"))
        prototype.tree p1.tree
      if !p1.guard then
        some (prototype :: p1' :: rest, [], some guard_true)
      else
        match expand_patterns fuel (prototype :: rest) with
        | none => none
        | some (rows', diags, res) =>
          let rowsFinal := rows'.headD default :: p1' :: rows'.tail
          match res with
          | none => some (rowsFinal, diags, none)
          | some guard_false =>
            let g := fill_pattern
              (Expr.App (Expr.VarRef ("_ g" ++ toString p1.index))
                (Expr.VarRef "_ a0"))
              prototype.tree p1.tree
            some (rowsFinal, diags,
              some (Expr.App (Expr.App (Expr.App
                (Expr.VarRef "destruct Boolean")
                (Expr.Lambda "_" guard_true))
                (Expr.Lambda "_" guard_false)) g))

/-- The member loop of `expand_patterns` (part_000 lines 343-397):
`members` is the remaining suffix of `su.members`, `c` the current
constructor number, `body` the accumulated `destruct` application and
`entries` the accumulated `DefMap` entries. -/
def expand_members : Nat → SumT → List (String × Nat) → Nat → List Nat →
    Expr → List (String × Expr) → List PatternRef → List Diag →
    Option (List PatternRef × List Diag × Option Expr)
  | 0, _, _, _, _, _, _, _, _ => none
  | _ + 1, _, [], _, path, body, entries, patterns, diags =>
    let pv := (get_expansion (patterns.headD default).tree path).var
    some (patterns, diags,
      some (Expr.DefMapE entries
        (Expr.App body (Expr.VarRef ("_ a" ++ toString pv)))))
  | fuel + 1, su, (_, args) :: members, c, path, body, entries, patterns,
      diags =>
    let cname := "_ c" ++ toString c
    let body := Expr.App body (Expr.VarRef cname)
    let prototype := patterns.headD default
    let var := prototype.index
    let patterns := { prototype with index := prototype.index + (args : Int) } ::
      patterns.tail
    match expand_scan su c args path true var patterns with
    | (shells, _, some d) => some (shells, diags ++ [d], none)
    | (shells, bucket, none) =>
      match expand_patterns fuel bucket with
      | none => none
      | some (bucket', diags', res) =>
        match res with
        | none => some (shells, diags ++ diags', none)
        | some exp =>
          let exp := (List.range args).foldl
            (fun e i =>
              Expr.Lambda ("_ a" ++ toString (var + (args : Int) - 1 - (i : Int)))
                e) exp
          let exp := Expr.Lambda "_" exp
          let rows := (expand_restore path shells.reverse bucket'.reverse).reverse
          expand_members fuel su members (c + 1) path body
            (entries ++ [(cname, exp)]) rows (diags ++ diags')

end

/-- The tail of `rebind_match` (part_000 lines 540-547): after a
successful expansion, scan the rows for an unused arm; the first one found
is reported and the match rejected. -/
def rebind_match_post (fuel : Nat) (patterns : List PatternRef) :
    Option (Option Expr × List Diag) :=
  match expand_patterns fuel patterns with
  | none => none
  | some (rows, diags, body) =>
    match body with
    | none => some (none, diags)
    | some b =>
      match rows.find? (fun p => p.uses == 0) with
      | some p => some (none, diags ++ [Diag.unreachable p.index])
      | none => some (some b, diags)

/-- C5: with only the prototype row left, `expand_patterns` reports a
non-exhaustive match showing the prototype's current refinement and
returns a null result (for any fuel that lets it run at all); in
particular, the single-arm match `match x (Cons h t) = h` over the
two-constructor sum `List = Cons _ _ | Nil` reaches that base case in the
`Nil` bucket and reports the missing shape `Nil` (the prototype refined to
the nullary second constructor). -/
theorem claim_C5_nonexhaustive :
    (∀ fuel p, expand_patterns (fuel + 1) [p] =
      some ([p], [Diag.nonExhaustive p.tree], none)) ∧
    (∃ rows', expand_patterns 4
        [⟨PTree.node none 0 0 [], 1, 1, false⟩,
         ⟨PTree.node (some ⟨"List", [("Cons", 2), ("Nil", 0)]⟩) 0 (-1)
            [PTree.node none 0 0 [], PTree.node none 0 0 []], 0, 0, false⟩] =
      some (rows',
        [Diag.nonExhaustive
          (PTree.node (some ⟨"List", [("Cons", 2), ("Nil", 0)]⟩) 1 0 [])],
        none)) :=
  ⟨fun _ _ => rfl,
   ⟨[⟨PTree.node (some ⟨"List", [("Cons", 2), ("Nil", 0)]⟩) 1 0 [], -1, 1, false⟩,
     ⟨PTree.node (some ⟨"List", [("Cons", 2), ("Nil", 0)]⟩) 0 (-1)
        [PTree.node none 0 0 [], PTree.node none 0 0 []], 0, 1, false⟩], rfl⟩⟩

/-- C6 (counterexample): a match whose expansion leaves TWO arms with zero
uses (arms 2 and 3 below; arm 1 is an unguarded wildcard that shadows
them) reports only the FIRST unused arm and returns — the loop in
`rebind_match` returns inside its body, so the later unreachable arm is
never reported, refuting "every arm whose right-hand side was selected
zero times is reported". -/
theorem claim_C6_counterexample :
    (expand_patterns 1
      [⟨PTree.node none 0 0 [], 3, 1, false⟩,
       ⟨PTree.node none 0 0 [], 0, 0, false⟩,
       ⟨PTree.node none 0 0 [], 1, 0, false⟩,
       ⟨PTree.node none 0 0 [], 2, 0, false⟩] =
      some ([⟨PTree.node none 0 0 [], 3, 1, false⟩,
             ⟨PTree.node none 0 0 [], 0, 1, false⟩,
             ⟨PTree.node none 0 0 [], 1, 0, false⟩,
             ⟨PTree.node none 0 0 [], 2, 0, false⟩], [],
        some (Expr.App (Expr.App (Expr.VarRef "_ f0") (Expr.VarRef "_ a0"))
          (Expr.VarRef "_ a0")))) ∧
    (rebind_match_post 1
      [⟨PTree.node none 0 0 [], 3, 1, false⟩,
       ⟨PTree.node none 0 0 [], 0, 0, false⟩,
       ⟨PTree.node none 0 0 [], 1, 0, false⟩,
       ⟨PTree.node none 0 0 [], 2, 0, false⟩] =
      some (none, [Diag.unreachable 1])) :=
  ⟨rfl, rfl⟩

theorem find_zero_first (l1 : List PatternRef) (p : PatternRef)
    (l2 : List PatternRef) (hp : p.uses = 0) (hl1 : ∀ q ∈ l1, q.uses ≠ 0) :
    (l1 ++ p :: l2).find? (fun q => q.uses == 0) = some p := by
  induction l1 with
  | nil => simp [List.find?_cons, hp]
  | cons q l1' ih =>
    have hq : (q.uses == 0) = false := by
      simp [hl1 q (by simp)]
    simp only [List.cons_append, List.find?_cons, hq]
    exact ih (fun r hr => hl1 r (by simp [hr]))

theorem rebind_match_post_eq (fuel : Nat) (rows rows' : List PatternRef)
    (diags0 : List Diag) (b : Expr)
    (hexp : expand_patterns fuel rows = some (rows', diags0, some b)) :
    rebind_match_post fuel rows =
      match rows'.find? (fun p => p.uses == 0) with
      | some p => some (none, diags0 ++ [Diag.unreachable p.index])
      | none => some (some b, diags0) := by
  unfold rebind_match_post
  rw [hexp]

/-- C6 (amended): after a successful expansion, `rebind_match` accepts the
match exactly when every row was selected at least once; otherwise it
reports the FIRST row with zero uses (and only that one) and rejects the
match.  Consequently, for every match the compiler accepts, each arm was
selected at least once during expansion. -/
theorem claim_C6_unreachable (fuel : Nat) (rows rows' : List PatternRef)
    (diags0 : List Diag) (b : Expr)
    (hexp : expand_patterns fuel rows = some (rows', diags0, some b)) :
    ((∀ p ∈ rows', p.uses ≠ 0) →
      rebind_match_post fuel rows = some (some b, diags0)) ∧
    (∀ l1 p l2, rows' = l1 ++ p :: l2 → p.uses = 0 →
      (∀ q ∈ l1, q.uses ≠ 0) →
      rebind_match_post fuel rows =
        some (none, diags0 ++ [Diag.unreachable p.index])) ∧
    (∀ e diags, rebind_match_post fuel rows = some (some e, diags) →
      ∀ p ∈ rows', p.uses ≠ 0) := by
  refine ⟨?_, ?_, ?_⟩
  · intro hall
    rw [rebind_match_post_eq fuel rows rows' diags0 b hexp]
    have hnone : rows'.find? (fun p => p.uses == 0) = none := by
      rw [List.find?_eq_none]
      intro x hx
      simp [hall x hx]
    rw [hnone]
  · intro l1 p l2 hsplit hp hl1
    rw [rebind_match_post_eq fuel rows rows' diags0 b hexp, hsplit,
      find_zero_first l1 p l2 hp hl1]
  · intro e diags hpost q hq
    rw [rebind_match_post_eq fuel rows rows' diags0 b hexp] at hpost
    rcases hfind : rows'.find? (fun p => p.uses == 0) with _ | p
    · rw [List.find?_eq_none] at hfind
      simpa using hfind q hq
    · rw [hfind] at hpost
      simp at hpost

theorem claim_C6_unreachable_witness :
    (expand_patterns 1
      [⟨PTree.node none 0 0 [], 3, 1, false⟩,
       ⟨PTree.node none 0 0 [], 0, 0, false⟩] =
      some ([⟨PTree.node none 0 0 [], 3, 1, false⟩,
             ⟨PTree.node none 0 0 [], 0, 1, false⟩], [],
        some (Expr.App (Expr.App (Expr.VarRef "_ f0") (Expr.VarRef "_ a0"))
          (Expr.VarRef "_ a0")))) ∧
    (((∀ p ∈ [(⟨PTree.node none 0 0 [], 3, 1, false⟩ : PatternRef),
          ⟨PTree.node none 0 0 [], 0, 1, false⟩], p.uses ≠ 0) →
      rebind_match_post 1
        [⟨PTree.node none 0 0 [], 3, 1, false⟩,
         ⟨PTree.node none 0 0 [], 0, 0, false⟩] =
        some (some (Expr.App (Expr.App (Expr.VarRef "_ f0")
          (Expr.VarRef "_ a0")) (Expr.VarRef "_ a0")), [])) ∧
     (∀ l1 p l2,
        ([(⟨PTree.node none 0 0 [], 3, 1, false⟩ : PatternRef),
          ⟨PTree.node none 0 0 [], 0, 1, false⟩] : List PatternRef) =
          l1 ++ p :: l2 → p.uses = 0 →
        (∀ q ∈ l1, q.uses ≠ 0) →
        rebind_match_post 1
          [⟨PTree.node none 0 0 [], 3, 1, false⟩,
           ⟨PTree.node none 0 0 [], 0, 0, false⟩] =
          some (none, [] ++ [Diag.unreachable p.index])) ∧
     (∀ e diags, rebind_match_post 1
          [⟨PTree.node none 0 0 [], 3, 1, false⟩,
           ⟨PTree.node none 0 0 [], 0, 0, false⟩] = some (some e, diags) →
        ∀ p ∈ [(⟨PTree.node none 0 0 [], 3, 1, false⟩ : PatternRef),
          ⟨PTree.node none 0 0 [], 0, 1, false⟩], p.uses ≠ 0)) :=
  ⟨rfl, claim_C6_unreachable 1
    [⟨PTree.node none 0 0 [], 3, 1, false⟩,
     ⟨PTree.node none 0 0 [], 0, 0, false⟩]
    [⟨PTree.node none 0 0 [], 3, 1, false⟩,
     ⟨PTree.node none 0 0 [], 0, 1, false⟩] [] _ rfl⟩

/-! ### The frame property of `expand_patterns` (C7)

The C++ comments claim "post-condition: patterns unchanged (internal
mutation is reversed)".  Structurally this is false even on success: the
`uses` counters and the prototype's variable counter advance, and the
restore sweep (`t->sum = nullptr; t->children.clear()`) does not reset
`t->cons`, so un-expanded nodes keep a junk constructor tag.  What IS
preserved on success is each row's tree up to the canonical form that
zeroes the meaningless fields of unexpanded nodes, its guard flag, and the
index of every non-prototype row.  The development below proves exactly
that. -/

def PTree.size : PTree → Nat
  | .node _ _ _ cs => 1 + go cs
where go : List PTree → Nat
  | [] => 0
  | t :: ts => PTree.size t + go ts

theorem PTree.size_go_mem {t : PTree} {cs : List PTree} (h : t ∈ cs) :
    t.size ≤ PTree.size.go cs := by
  induction cs with
  | nil => cases h
  | cons hd tl ih =>
    rcases List.mem_cons.mp h with h1 | h1
    · subst h1
      simp [PTree.size.go]
    · have := ih h1
      simp only [PTree.size.go]
      omega

theorem PTree.size_lt_of_mem {t : PTree} {s : Option SumT} {c : Nat}
    {v : Int} {cs : List PTree} (h : t ∈ cs) :
    t.size < (PTree.node s c v cs).size := by
  have := PTree.size_go_mem h
  simp only [PTree.size]
  omega

/-- Canonical form: zero the junk constructor tag and children of
unexpanded nodes (they are never consulted; the restore sweep leaves a
stale tag behind). -/
def canon : PTree → PTree
  | .node none _ v _ => .node none 0 v []
  | .node (some s) c v cs => .node (some s) c v (go cs)
where go : List PTree → List PTree
  | [] => []
  | t :: ts => canon t :: go ts

theorem canon_go_eq (cs : List PTree) : canon.go cs = cs.map canon := by
  induction cs with
  | nil => rfl
  | cons hd tl ih => simp [canon.go, ih]

theorem canon_sum (t : PTree) : (canon t).sum = t.sum := by
  rcases t with ⟨s | s, c, v, cs⟩ <;> rfl

theorem canon_var (t : PTree) : (canon t).var = t.var := by
  rcases t with ⟨s | s, c, v, cs⟩ <;> rfl

theorem canon_none (c : Nat) (v : Int) (cs : List PTree) :
    canon (PTree.node none c v cs) = PTree.node none 0 v [] := rfl

theorem canon_some (s : SumT) (c : Nat) (v : Int) (cs : List PTree) :
    canon (PTree.node (some s) c v cs) =
      PTree.node (some s) c v (cs.map canon) := by
  simp [canon, canon_go_eq]

/-- Shape compatibility: wherever `a` is expanded, `b` is expanded with
the same sum, constructor and arity (invariant "patterns have detail >=
patterns[0]" of part_000 line 330). -/
def compat : PTree → PTree → Bool
  | .node none _ _ _, _ => true
  | .node (some s) c _ cs, .node bs bc _ bcs =>
    bs == some s && bc == c && cs.length == bcs.length && go cs bcs
where go : List PTree → List PTree → Bool
  | [], _ => true
  | a :: as, bs => compat a (bs.headD default) && go as bs.tail

/-- Arity correctness: every expanded node carries an in-range constructor
whose arity matches the children count, and unexpanded nodes carry no
children (as built by `cons_lookup` and maintained by the restore
sweep). -/
def wfTree : PTree → Bool
  | .node none _ _ cs => cs.isEmpty
  | .node (some s) c _ cs =>
    decide (c < s.members.length) &&
      cs.length == (s.members.getD c ("", 0)).2 && go cs
where go : List PTree → Bool
  | [] => true
  | t :: ts => wfTree t && go ts

/-- A path is valid when every traversed node is expanded and each step
is in range. -/
def validPath : PTree → List Nat → Bool
  | _, [] => true
  | .node none _ _ _, _ :: _ => false
  | .node (some _) _ _ cs, i :: p =>
    decide (i < cs.length) && validPath (cs.getD i default) p

theorem map_canon_getD {as as' : List PTree}
    (h : as.map canon = as'.map canon) (i : Nat) :
    canon (as.getD i default) = canon (as'.getD i default) := by
  have hlen : as.length = as'.length := by
    have := congrArg List.length h
    simpa using this
  by_cases hi : i < as.length
  · rw [List.getD_eq_getElem _ _ hi, List.getD_eq_getElem _ _ (hlen ▸ hi)]
    have hbi : i < (as.map canon).length := by
      simpa using hi
    have hbj : i < (as'.map canon).length := by
      simp only [List.length_map, ← hlen]
      exact hi
    have h2 : (as.map canon)[i] = (as'.map canon)[i] := by
      simp only [h]
    simpa using h2
  · rw [List.getD_eq_default _ _ (by omega),
      List.getD_eq_default _ _ (by omega)]

theorem validPath_congr {a a' : PTree} (p : List Nat)
    (h : canon a = canon a') : validPath a p = validPath a' p := by
  induction p generalizing a a' with
  | nil =>
    rcases a with ⟨sa | sa, ca, va, csa⟩ <;>
      rcases a' with ⟨sa' | sa', ca', va', csa'⟩ <;> rfl
  | cons i p ih =>
    rcases a with ⟨sa | sa, ca, va, csa⟩ <;> rcases a' with ⟨sa' | sa', ca', va', csa'⟩
    · rfl
    · rw [canon_none, canon_some] at h
      cases h
    · rw [canon_none, canon_some] at h
      cases h
    · rw [canon_some, canon_some] at h
      injection h with h1 h2 h3 h4
      injection h1 with h1
      subst h1 h2 h3
      have hlen : csa.length = csa'.length := by
        have := congrArg List.length h4
        simpa using this
      simp only [validPath, hlen, ih (map_canon_getD h4 i)]

theorem compat_go_congr (n : Nat)
    (IH : ∀ a a' b b', PTree.size a ≤ n → canon a = canon a' →
      canon b = canon b' → compat a b = compat a' b') :
    ∀ as as' bs bs', (∀ x ∈ as, PTree.size x ≤ n) →
      as.map canon = as'.map canon → bs.map canon = bs'.map canon →
      compat.go as bs = compat.go as' bs' := by
  intro as
  induction as with
  | nil =>
    intro as' bs bs' _ hmap _
    cases as' with
    | nil => rfl
    | cons y ys => simp at hmap
  | cons x xs ihx =>
    intro as' bs bs' hsz hmap hbs
    cases as' with
    | nil => simp at hmap
    | cons y ys =>
      simp only [List.map_cons, List.cons.injEq] at hmap
      have hhead : canon (bs.headD default) = canon (bs'.headD default) := by
        cases bs with
        | nil =>
          cases bs' with
          | nil => rfl
          | cons b0' bt' => simp at hbs
        | cons b0 bt =>
          cases bs' with
          | nil => simp at hbs
          | cons b0' bt' =>
            simp only [List.map_cons, List.cons.injEq] at hbs
            simpa using hbs.1
      have htail : bs.tail.map canon = bs'.tail.map canon := by
        cases bs with
        | nil =>
          cases bs' with
          | nil => rfl
          | cons b0' bt' => simp at hbs
        | cons b0 bt =>
          cases bs' with
          | nil => simp at hbs
          | cons b0' bt' =>
            simp only [List.map_cons, List.cons.injEq] at hbs
            simpa using hbs.2
      simp only [compat.go]
      rw [IH x y (bs.headD default) (bs'.headD default) (hsz x (by simp))
          hmap.1 hhead,
        ihx ys bs.tail bs'.tail (fun z hz => hsz z (by simp [hz]))
          hmap.2 htail]

theorem compat_congr : ∀ n a a' b b', PTree.size a ≤ n →
    canon a = canon a' → canon b = canon b' →
    compat a b = compat a' b' := by
  intro n
  induction n with
  | zero =>
    intro a a' b b' hsz
    rcases a with ⟨sa, ca, va, csa⟩
    simp [PTree.size] at hsz
  | succ n ih =>
    intro a a' b b' hsz hca hcb
    rcases a with ⟨sa | sa, ca, va, csa⟩ <;>
      rcases a' with ⟨sa' | sa', ca', va', csa'⟩
    · rcases b with ⟨sb, cb, vb, csb⟩
      rcases b' with ⟨sb', cb', vb', csb'⟩
      rfl
    · rw [canon_none, canon_some] at hca
      cases hca
    · rw [canon_none, canon_some] at hca
      cases hca
    · rw [canon_some, canon_some] at hca
      injection hca with h1 h2 h3 h4
      injection h1 with h1
      subst h1 h2 h3
      rcases b with ⟨sb, cb, vb, csb⟩
      rcases b' with ⟨sb', cb', vb', csb'⟩
      have hsb : sb = sb' := by
        have := congrArg PTree.sum hcb
        simpa [canon_sum] using this
      subst hsb
      rcases sb with _ | sbv
      · simp [compat]
      · rw [canon_some, canon_some] at hcb
        injection hcb with hb1 hb2 hb3 hb4
        subst hb2 hb3
        have hlen : csa.length = csa'.length := by
          have := congrArg List.length h4
          simpa using this
        have hblen : csb.length = csb'.length := by
          have := congrArg List.length hb4
          simpa using this
        have hgo : compat.go csa csb = compat.go csa' csb' := by
          refine compat_go_congr n ih csa csa' csb csb' ?_ h4 hb4
          intro x hx
          have hx2 := @PTree.size_lt_of_mem _ (some sa) ca va _ hx
          omega
        simp only [compat, hlen, hblen, hgo]

theorem list_getD_set_self {α : Type} [Inhabited α] (l : List α) (i : Nat)
    (a : α) (h : i < l.length) : (l.set i a).getD i default = a := by
  rw [List.getD_eq_getElem _ _ (by simpa using h)]
  exact List.getElem_set_self (by simpa using h)

theorem list_map_set {α β : Type} (f : α → β) (l : List α) (i : Nat) (a : α) :
    (l.set i a).map f = (l.map f).set i (f a) := by
  induction l generalizing i with
  | nil => simp
  | cons x xs ih =>
    cases i with
    | zero => simp
    | succ i => simp [List.set, ih]

theorem list_set_getD {α : Type} [Inhabited α] (l : List α) (i : Nat)
    (h : i < l.length) : l.set i (l.getD i default) = l := by
  rw [List.getD_eq_getElem _ _ h]
  refine List.ext_getElem (by simp) ?_
  intro j h1 h2
  by_cases hij : i = j
  · subst hij
    rw [List.getElem_set_self (by simpa using h2)]
  · rw [List.getElem_set_ne (by omega) (by simpa using h1)]

theorem list_set_set {α : Type} (l : List α) (i : Nat) (a b : α) :
    (l.set i a).set i b = l.set i b := by
  induction l generalizing i with
  | nil => rfl
  | cons x xs ih =>
    cases i with
    | zero => rfl
    | succ i => simp [List.set, ih]

theorem get_expansion_nil (t : PTree) : get_expansion t [] = t := rfl

theorem children_node (s : Option SumT) (c : Nat) (v : Int)
    (cs : List PTree) : (PTree.node s c v cs).children = cs := rfl

theorem get_expansion_cons (t : PTree) (i : Nat) (p : List Nat) :
    get_expansion t (i :: p) =
      get_expansion (t.children.getD i default) p := rfl

theorem get_set_same (f : PTree → PTree) :
    ∀ (p : List Nat) (t : PTree), validPath t p = true →
      get_expansion (set_expansion t p f) p = f (get_expansion t p) := by
  intro p
  induction p with
  | nil => intro t _; rfl
  | cons i p ih =>
    intro t hv
    rcases t with ⟨s | s, c, v, cs⟩
    · simp [validPath] at hv
    · simp only [validPath, Bool.and_eq_true, decide_eq_true_eq] at hv
      rw [set_expansion, get_expansion_cons, get_expansion_cons]
      show get_expansion ((cs.set i (set_expansion (cs.getD i default) p f)).getD
        i default) p = _
      rw [list_getD_set_self _ _ _ (by simpa using hv.1)]
      exact ih _ hv.2

theorem set_set_same (f g : PTree → PTree) :
    ∀ (p : List Nat) (t : PTree), validPath t p = true →
      set_expansion (set_expansion t p f) p g =
        set_expansion t p (fun x => g (f x)) := by
  intro p
  induction p with
  | nil => intro t _; rfl
  | cons i p ih =>
    intro t hv
    rcases t with ⟨s | s, c, v, cs⟩
    · simp [validPath] at hv
    · simp only [validPath, Bool.and_eq_true, decide_eq_true_eq] at hv
      simp only [set_expansion]
      rw [list_getD_set_self _ _ _ (by simpa using hv.1),
        list_set_set, ih _ hv.2]

theorem validPath_nil (t : PTree) : validPath t [] = true := by
  rcases t with ⟨s | s, c, v, cs⟩ <;> rfl

theorem validPath_set (f : PTree → PTree) :
    ∀ (p : List Nat) (t : PTree), validPath t p = true →
      validPath (set_expansion t p f) p = true := by
  intro p
  induction p with
  | nil => intro t _; exact validPath_nil _
  | cons i p ih =>
    intro t hv
    rcases t with ⟨s | s, c, v, cs⟩
    · simp [validPath] at hv
    · simp only [validPath, Bool.and_eq_true, decide_eq_true_eq] at hv
      simp only [set_expansion, validPath, Bool.and_eq_true, decide_eq_true_eq]
      constructor
      · simpa using hv.1
      · rw [list_getD_set_self _ _ _ (by simpa using hv.1)]
        exact ih _ hv.2

theorem get_canon :
    ∀ (p : List Nat) (t : PTree), validPath t p = true →
      get_expansion (canon t) p = canon (get_expansion t p) := by
  intro p
  induction p with
  | nil => intro t _; rfl
  | cons i p ih =>
    intro t hv
    rcases t with ⟨s | s, c, v, cs⟩
    · simp [validPath] at hv
    · simp only [validPath, Bool.and_eq_true, decide_eq_true_eq] at hv
      rw [canon_some, get_expansion_cons, get_expansion_cons]
      show get_expansion ((cs.map canon).getD i default) p = _
      rw [List.getD_eq_getElem _ _ (by simpa using hv.1), List.getElem_map,
        ← List.getD_eq_getElem _ _ hv.1]
      exact ih _ hv.2

theorem canon_set (f : PTree → PTree) :
    ∀ (p : List Nat) (t : PTree), validPath t p = true →
      canon (set_expansion t p f) =
        set_expansion (canon t) p
          (fun _ => canon (f (get_expansion t p))) := by
  intro p
  induction p with
  | nil => intro t _; rfl
  | cons i p ih =>
    intro t hv
    rcases t with ⟨s | s, c, v, cs⟩
    · simp [validPath] at hv
    · simp only [validPath, Bool.and_eq_true, decide_eq_true_eq] at hv
      simp only [set_expansion, canon_some]
      rw [list_map_set, ih _ hv.2]
      congr 1
      have hgd : (List.map canon cs).getD i default =
          canon (cs.getD i default) := by
        rw [List.getD_eq_getElem _ _ (by simpa using hv.1), List.getElem_map,
          ← List.getD_eq_getElem _ _ hv.1]
      simp only [get_expansion_cons, children_node, hgd]

theorem set_expansion_id (f : PTree → PTree) :
    ∀ (p : List Nat) (t : PTree), validPath t p = true →
      f (get_expansion t p) = get_expansion t p →
      set_expansion t p f = t := by
  intro p
  induction p with
  | nil =>
    intro t _ hf
    exact hf
  | cons i p ih =>
    intro t hv hf
    rcases t with ⟨s | s, c, v, cs⟩
    · simp [validPath] at hv
    · simp only [validPath, Bool.and_eq_true, decide_eq_true_eq] at hv
      simp only [set_expansion]
      rw [ih _ hv.2 (by rw [get_expansion_cons, children_node] at hf; exact hf),
        list_set_getD _ _ hv.1]

theorem canon_idem : ∀ (n : Nat) (t : PTree), PTree.size t ≤ n →
    canon (canon t) = canon t := by
  intro n
  induction n with
  | zero =>
    intro t hsz
    rcases t with ⟨s, c, v, cs⟩
    simp [PTree.size] at hsz
  | succ n ih =>
    intro t hsz
    rcases t with ⟨s | s, c, v, cs⟩
    · rfl
    · rw [canon_some, canon_some, List.map_map]
      refine congrArg _ (List.map_congr_left ?_)
      intro x hx
      have := @PTree.size_lt_of_mem _ (some s) c v _ hx
      exact ih x (by omega)

theorem compat_go_allNone : ∀ (as bs : List PTree),
    (∀ x ∈ as, x.sum = none) → compat.go as bs = true := by
  intro as
  induction as with
  | nil => intro bs _; rfl
  | cons a as ih =>
    intro bs hnone
    simp only [compat.go, Bool.and_eq_true]
    constructor
    · rcases a with ⟨sa, ca, va, csa⟩
      have h0 := hnone (PTree.node sa ca va csa) (by simp)
      simp only [PTree.sum] at h0
      subst h0
      rfl
    · exact ih _ (fun x hx => hnone x (by simp [hx]))

theorem compat_go_getD : ∀ (as bs : List PTree),
    compat.go as bs = true → ∀ i, i < as.length →
      compat (as.getD i default) (bs.getD i default) = true := by
  intro as
  induction as with
  | nil => intro bs _ i hi; simp at hi
  | cons a as ih =>
    intro bs hgo i hi
    simp only [compat.go, Bool.and_eq_true] at hgo
    cases i with
    | zero =>
      cases bs with
      | nil => simpa using hgo.1
      | cons b bt => simpa using hgo.1
    | succ i =>
      have := ih bs.tail hgo.2 i (by simpa using hi)
      cases bs with
      | nil => simpa using this
      | cons b bt => simpa using this

theorem wf_go_forall : ∀ (cs : List PTree),
    wfTree.go cs = true ↔ ∀ x ∈ cs, wfTree x = true := by
  intro cs
  induction cs with
  | nil => simp [wfTree.go]
  | cons x xs ih =>
    simp only [wfTree.go, Bool.and_eq_true, ih, List.mem_cons]
    constructor
    · rintro ⟨h1, h2⟩ y (rfl | hy)
      · exact h1
      · exact h2 y hy
    · intro h
      exact ⟨h x (Or.inl rfl), fun y hy => h y (Or.inr hy)⟩

theorem list_getD_mem {α : Type} [Inhabited α] (l : List α) (i : Nat)
    (h : i < l.length) : l.getD i default ∈ l := by
  rw [List.getD_eq_getElem _ _ h]
  exact List.getElem_mem _

theorem wf_get : ∀ (p : List Nat) (t : PTree), wfTree t = true →
    validPath t p = true → wfTree (get_expansion t p) = true := by
  intro p
  induction p with
  | nil => intro t hwf _; exact hwf
  | cons i p ih =>
    intro t hwf hv
    rcases t with ⟨s | s, c, v, cs⟩
    · simp [validPath] at hv
    · simp only [validPath, Bool.and_eq_true, decide_eq_true_eq] at hv
      simp only [wfTree, Bool.and_eq_true] at hwf
      rw [get_expansion_cons, children_node]
      refine ih _ ?_ hv.2
      exact (wf_go_forall cs).mp hwf.2 _
        (list_getD_mem _ _ hv.1)

theorem wf_go_set : ∀ (cs : List PTree) (i : Nat) (x : PTree),
    wfTree.go cs = true → wfTree x = true →
    wfTree.go (cs.set i x) = true := by
  intro cs i x hgo hx
  rw [wf_go_forall] at hgo ⊢
  intro y hy
  rcases List.mem_or_eq_of_mem_set hy with h | h
  · exact hgo y h
  · subst h
    exact hx

theorem wf_set (f : PTree → PTree) :
    ∀ (p : List Nat) (t : PTree), wfTree t = true → validPath t p = true →
      wfTree (f (get_expansion t p)) = true →
      wfTree (set_expansion t p f) = true := by
  intro p
  induction p with
  | nil => intro t _ _ hf; exact hf
  | cons i p ih =>
    intro t hwf hv hf
    rcases t with ⟨s | s, c, v, cs⟩
    · simp [validPath] at hv
    · simp only [validPath, Bool.and_eq_true, decide_eq_true_eq] at hv
      simp only [wfTree, Bool.and_eq_true] at hwf
      rw [get_expansion_cons, children_node] at hf
      simp only [set_expansion, wfTree, Bool.and_eq_true, List.length_set]
      refine ⟨⟨hwf.1.1, hwf.1.2⟩, ?_⟩
      refine wf_go_set _ _ _ hwf.2 ?_
      refine ih _ ?_ hv.2 hf
      exact (wf_go_forall cs).mp hwf.2 _ (list_getD_mem _ _ hv.1)

theorem compat_validPath : ∀ (p : List Nat) (a b : PTree),
    compat a b = true → validPath a p = true → validPath b p = true := by
  intro p
  induction p with
  | nil => intro a b _ _; exact validPath_nil b
  | cons i p ih =>
    intro a b hc hv
    rcases a with ⟨sa | sa, ca, va, csa⟩
    · simp [validPath] at hv
    · rcases b with ⟨sb, cb, vb, csb⟩
      simp only [compat, Bool.and_eq_true, beq_iff_eq] at hc
      obtain ⟨⟨⟨hsb, hcb⟩, hlen⟩, hgo⟩ := hc
      subst hsb
      simp only [validPath, Bool.and_eq_true, decide_eq_true_eq] at hv ⊢
      have hlen' : csa.length = csb.length := by simpa using hlen
      refine ⟨by omega, ?_⟩
      exact ih _ _ (compat_go_getD _ _ hgo i hv.1) hv.2

theorem list_tail_set_succ {α : Type} (b : α) (bt : List α) (j : Nat)
    (y : α) : ((b :: bt).set (j + 1) y).tail = bt.set j y := rfl

theorem compat_go_set : ∀ (as : List PTree) (bs : List PTree) (i : Nat)
    (x y : PTree), compat.go as bs = true → compat x y = true →
    as.length = bs.length → i < as.length →
    compat.go (as.set i x) (bs.set i y) = true := by
  intro as
  induction as with
  | nil => intro bs i x y _ _ _ hi; simp at hi
  | cons a at' ih =>
    intro bs i x y hgo hxy hlen hi
    cases bs with
    | nil => simp at hlen
    | cons b bt =>
      simp only [compat.go, Bool.and_eq_true] at hgo
      cases i with
      | zero =>
        simp only [List.set_cons_zero, compat.go, Bool.and_eq_true]
        exact ⟨by simpa using hxy, by simpa using hgo.2⟩
      | succ j =>
        simp only [List.set_cons_succ, compat.go, Bool.and_eq_true]
        constructor
        · simpa using hgo.1
        · rw [show (b :: bt.set j y).tail = bt.set j y from rfl]
          exact ih bt j x y (by simpa using hgo.2) hxy
            (by simpa using hlen) (by simpa using hi)

theorem compat_set (f g : PTree → PTree) :
    ∀ (p : List Nat) (a b : PTree), compat a b = true →
      validPath a p = true →
      compat (f (get_expansion a p)) (g (get_expansion b p)) = true →
      compat (set_expansion a p f) (set_expansion b p g) = true := by
  intro p
  induction p with
  | nil => intro a b _ _ hfg; exact hfg
  | cons i p ih =>
    intro a b hc hv
    rcases a with ⟨sa | sa, ca, va, csa⟩
    · simp [validPath] at hv
    · rcases b with ⟨sb, cb, vb, csb⟩
      simp only [compat, Bool.and_eq_true, beq_iff_eq] at hc
      obtain ⟨⟨⟨hsb, hcb⟩, hlen⟩, hgo⟩ := hc
      subst hsb hcb
      simp only [validPath, Bool.and_eq_true, decide_eq_true_eq] at hv
      intro hfg
      rw [get_expansion_cons, children_node, get_expansion_cons,
        children_node] at hfg
      simp only [set_expansion, compat, Bool.and_eq_true, beq_iff_eq,
        List.length_set]
      have hlen' : csa.length = csb.length := by simpa using hlen
      refine ⟨⟨⟨trivial, trivial⟩, by simpa using hlen⟩, ?_⟩
      exact compat_go_set _ _ _ _ _ hgo
        (ih _ _ (compat_go_getD _ _ hgo i hv.1) hv.2 hfg)
        hlen' hv.1

theorem restore_canon (path : List Nat) (su : SumT) (c : Nat)
    (NC : List PTree) (rt bt : PTree)
    (hv : validPath rt path = true)
    (hnull : (get_expansion rt path).sum = none)
    (hcb : canon bt = canon (set_expansion rt path
      (fun t => PTree.node (some su) c t.var NC))) :
    canon (set_expansion bt path
      (fun t => PTree.node none t.cons t.var [])) = canon rt := by
  have hvnt : validPath (set_expansion rt path
      (fun t => PTree.node (some su) c t.var NC)) path = true :=
    validPath_set _ path rt hv
  have hvbt : validPath bt path = true := by
    rw [validPath_congr path hcb]
    exact hvnt
  have hvc : validPath (canon rt) path = true := by
    rw [validPath_congr path (canon_idem (PTree.size rt) rt le_rfl)]
    exact hv
  have hget : get_expansion (set_expansion rt path
      (fun t => PTree.node (some su) c t.var NC)) path =
      PTree.node (some su) c (get_expansion rt path).var NC :=
    get_set_same _ path rt hv
  have hvar : (get_expansion bt path).var = (get_expansion rt path).var := by
    have h2 : canon (get_expansion bt path) =
        canon (get_expansion (set_expansion rt path
          (fun t => PTree.node (some su) c t.var NC)) path) := by
      rw [← get_canon path bt hvbt, ← get_canon path _ hvnt, hcb]
    have h3 := congrArg PTree.var h2
    rw [canon_var, canon_var, hget] at h3
    simpa [PTree.var] using h3
  have hR : canon (PTree.node none (get_expansion bt path).cons
      (get_expansion bt path).var []) =
      PTree.node none 0 (get_expansion rt path).var [] := by
    rw [canon_none, hvar]
  rw [canon_set _ path bt hvbt]
  simp only [hR]
  rw [hcb, canon_set _ path rt hv, set_set_same _ _ path (canon rt) hvc]
  refine set_expansion_id _ path (canon rt) hvc ?_
  rw [get_canon path rt hv]
  rcases hg : get_expansion rt path with ⟨s0, c0, v0, ch0⟩
  rw [hg] at hnull
  simp only [PTree.sum] at hnull
  subst hnull
  simp [canon_none, PTree.var]

theorem find_mismatch_go_valid (n : Nat)
    (IH : ∀ a, PTree.size a ≤ n → ∀ b pre path su,
      find_mismatch a b pre = some (path, su) →
      ∃ q, path = pre ++ q ∧ validPath a q = true ∧
        (get_expansion a q).sum = none) :
    ∀ as bs pre i path su, (∀ x ∈ as, PTree.size x ≤ n) →
      find_mismatch.go as bs pre i = some (path, su) →
      ∃ j q, j < as.length ∧ path = pre ++ [i + j] ++ q ∧
        validPath (as.getD j default) q = true ∧
        (get_expansion (as.getD j default) q).sum = none := by
  intro as
  induction as with
  | nil =>
    intro bs pre i path su _ h
    have h0 : (none : Option (List Nat × SumT)) = some (path, su) := h
    cases h0
  | cons a as ih =>
    intro bs pre i path su hsz h
    simp only [find_mismatch.go] at h
    rcases hr : find_mismatch a (bs.getD i default) (pre ++ [i]) with _ | r
    · rw [hr] at h
      have h4 : find_mismatch.go as bs pre (i + 1) = some (path, su) := h
      obtain ⟨j, q, hj, hpath, hv, hs⟩ := ih bs pre (i + 1) path su
        (fun x hx => hsz x (by simp [hx])) h4
      refine ⟨j + 1, q, by simpa using hj, ?_, by simpa using hv,
        by simpa using hs⟩
      rw [hpath]
      have hij : i + 1 + j = i + (j + 1) := by omega
      rw [hij]
    · rw [hr] at h
      have h3 : some r = some (path, su) := h
      have h2 : r = (path, su) := by injection h3
      obtain ⟨q, hpath, hv, hs⟩ := IH a (hsz a (by simp)) _ _ _ _ (h2 ▸ hr)
      refine ⟨0, q, by simp, ?_, by simpa using hv, by simpa using hs⟩
      rw [hpath]
      simp

theorem find_mismatch_valid : ∀ (n : Nat) (a : PTree), PTree.size a ≤ n →
    ∀ b pre path su, find_mismatch a b pre = some (path, su) →
    ∃ q, path = pre ++ q ∧ validPath a q = true ∧
      (get_expansion a q).sum = none := by
  intro n
  induction n with
  | zero =>
    intro a hsz
    rcases a with ⟨sa, ca, va, csa⟩
    simp [PTree.size] at hsz
  | succ n ih =>
    intro a hsz b pre path su h
    rcases a with ⟨sa | sa, ca, va, csa⟩
    · simp only [find_mismatch] at h
      rcases hbs : b.sum with _ | s
      · rw [hbs] at h
        simp at h
      · rw [hbs] at h
        simp at h
        refine ⟨[], by simp [h.1], validPath_nil _, rfl⟩
    · simp only [find_mismatch] at h
      obtain ⟨j, q, hj, hpath, hv, hs⟩ := find_mismatch_go_valid n
        (fun x hx => ih x hx) csa b.children pre 0 path su
        (fun x hx => by
          have hlt := @PTree.size_lt_of_mem _ (some sa) ca va _ hx
          simp only [PTree.size] at hlt hsz
          omega) h
      refine ⟨j :: q, by simpa using hpath, ?_, ?_⟩
      · simp only [validPath, Bool.and_eq_true, decide_eq_true_eq]
        exact ⟨hj, hv⟩
      · rw [get_expansion_cons, children_node]
        exact hs

def marked (r : PatternRef) : Bool := r.index == -1 || r.index == -2

def marksCount (rs : List PatternRef) : Nat := (rs.filter marked).length

/-- The forward counterpart of `expand_restore`: rows head-first, bucket
consumed head-first (C++ pushes the bucket in row order and pops from the
back while walking the rows backwards, which pairs them up exactly like
this). -/
def restoreFwd (path : List Nat) :
    List PatternRef → List PatternRef → List PatternRef
  | [], _ => []
  | r :: rs, bk =>
    if r.index = -1 then
      match bk with
      | b :: bk' =>
        { b with tree := (set_expansion b.tree path
            (fun t => PTree.node none t.cons t.var [])) } ::
          restoreFwd path rs bk'
      | [] => r :: restoreFwd path rs []
    else if r.index = -2 then
      match bk with
      | b :: bk' => b :: restoreFwd path rs bk'
      | [] => r :: restoreFwd path rs []
    else r :: restoreFwd path rs bk

theorem restoreFwd_cons_m1 (path : List Nat) (sh : PatternRef)
    (shells : List PatternRef) (b0 : PatternRef) (brest : List PatternRef)
    (hsh : sh.index = -1) :
    restoreFwd path (sh :: shells) (b0 :: brest) =
      { b0 with tree := (set_expansion b0.tree path
        (fun t => PTree.node none t.cons t.var [])) } ::
        restoreFwd path shells brest := by
  simp only [restoreFwd]
  rw [if_pos hsh]

theorem restoreFwd_cons_m2 (path : List Nat) (sh : PatternRef)
    (shells : List PatternRef) (b0 : PatternRef) (brest : List PatternRef)
    (hsh : sh.index = -2) :
    restoreFwd path (sh :: shells) (b0 :: brest) =
      b0 :: restoreFwd path shells brest := by
  simp only [restoreFwd]
  rw [if_neg (by rw [hsh]; decide), if_pos hsh]

theorem restoreFwd_cons_un (path : List Nat) (sh : PatternRef)
    (shells bk : List PatternRef) (hsh1 : ¬ sh.index = -1)
    (hsh2 : ¬ sh.index = -2) :
    restoreFwd path (sh :: shells) bk =
      sh :: restoreFwd path shells bk := by
  simp only [restoreFwd]
  rw [if_neg hsh1, if_neg hsh2]

theorem marksCount_cons_marked {r : PatternRef} (rs : List PatternRef)
    (h : marked r = true) : marksCount (r :: rs) = 1 + marksCount rs := by
  unfold marksCount
  simp [List.filter_cons, h, Nat.add_comm]

theorem marksCount_cons_unmarked {r : PatternRef} (rs : List PatternRef)
    (h : marked r = false) : marksCount (r :: rs) = marksCount rs := by
  unfold marksCount
  simp [List.filter_cons, h]

theorem marksCount_reverse (rs : List PatternRef) :
    marksCount rs.reverse = marksCount rs := by
  unfold marksCount
  rw [List.filter_reverse, List.length_reverse]

theorem expand_restore_ext (path : List Nat) :
    ∀ (rs bk ext : List PatternRef), marksCount rs ≤ bk.length →
      expand_restore path rs (bk ++ ext) = expand_restore path rs bk := by
  intro rs
  induction rs with
  | nil => intro bk ext _; rfl
  | cons r rs ih =>
    intro bk ext hm
    by_cases h1 : r.index = -1
    · have hmk : marked r = true := by simp [marked, h1]
      rw [marksCount_cons_marked _ hmk] at hm
      cases bk with
      | nil => simp at hm
      | cons b bk' =>
        simp only [List.length_cons] at hm
        simp only [expand_restore, if_pos h1, List.cons_append]
        rw [ih bk' ext (by omega)]
    · by_cases h2 : r.index = -2
      · have hmk : marked r = true := by simp [marked, h2]
        rw [marksCount_cons_marked _ hmk] at hm
        cases bk with
        | nil => simp at hm
        | cons b bk' =>
          simp only [List.length_cons] at hm
          simp only [expand_restore, if_neg h1, if_pos h2, List.cons_append]
          rw [ih bk' ext (by omega)]
      · have hmk : marked r = false := by simp [marked, h1, h2]
        rw [marksCount_cons_unmarked _ hmk] at hm
        simp only [expand_restore, if_neg h1, if_neg h2]
        rw [ih bk ext hm]

theorem expand_restore_append (path : List Nat) :
    ∀ (rs1 rs2 bk : List PatternRef), marksCount rs1 ≤ bk.length →
      expand_restore path (rs1 ++ rs2) bk =
        expand_restore path rs1 bk ++
          expand_restore path rs2 (bk.drop (marksCount rs1)) := by
  intro rs1
  induction rs1 with
  | nil =>
    intro rs2 bk _
    simp [expand_restore, marksCount]
  | cons r rs ih =>
    intro rs2 bk hm
    by_cases h1 : r.index = -1
    · have hmk : marked r = true := by simp [marked, h1]
      rw [marksCount_cons_marked _ hmk] at hm
      cases bk with
      | nil => simp at hm
      | cons b bk' =>
        simp only [List.length_cons] at hm
        simp only [List.cons_append, expand_restore, if_pos h1, List.append_eq]
        rw [ih rs2 bk' (by omega), marksCount_cons_marked _ hmk,
          show 1 + marksCount rs = marksCount rs + 1 from by omega,
          List.drop_succ_cons]
    · by_cases h2 : r.index = -2
      · have hmk : marked r = true := by simp [marked, h2]
        rw [marksCount_cons_marked _ hmk] at hm
        cases bk with
        | nil => simp at hm
        | cons b bk' =>
          simp only [List.length_cons] at hm
          simp only [List.cons_append, expand_restore, if_neg h1, if_pos h2, List.append_eq]
          rw [ih rs2 bk' (by omega), marksCount_cons_marked _ hmk,
            show 1 + marksCount rs = marksCount rs + 1 from by omega,
            List.drop_succ_cons]
      · have hmk : marked r = false := by simp [marked, h1, h2]
        rw [marksCount_cons_unmarked _ hmk] at hm
        simp only [List.cons_append, expand_restore, if_neg h1, if_neg h2, List.append_eq]
        rw [ih rs2 bk hm, marksCount_cons_unmarked _ hmk]

theorem expand_restore_reverse (path : List Nat) :
    ∀ (rs bk : List PatternRef), marksCount rs = bk.length →
      expand_restore path rs.reverse bk.reverse =
        (restoreFwd path rs bk).reverse := by
  intro rs
  induction rs with
  | nil =>
    intro bk hm
    have hbk : bk = [] := by
      have : bk.length = 0 := by
        rw [← hm]
        rfl
      simpa using this
    subst hbk
    rfl
  | cons r rs ih =>
    intro bk hm
    by_cases h1 : r.index = -1
    · have hmk : marked r = true := by simp [marked, h1]
      rw [marksCount_cons_marked _ hmk] at hm
      cases bk with
      | nil => simp at hm
      | cons b bk' =>
        have hm' : marksCount rs = bk'.length := by
          simp only [List.length_cons] at hm
          omega
        rw [List.reverse_cons, List.reverse_cons]
        rw [expand_restore_append path rs.reverse [r] (bk'.reverse ++ [b])
          (by rw [marksCount_reverse, hm']; simp)]
        rw [expand_restore_ext path rs.reverse bk'.reverse [b]
          (by rw [marksCount_reverse, hm']; simp)]
        rw [ih bk' hm', marksCount_reverse, hm']
        rw [show bk'.length = bk'.reverse.length from by simp,
          List.drop_left]
        simp only [expand_restore, if_pos h1, restoreFwd,
          List.reverse_cons]
    · by_cases h2 : r.index = -2
      · have hmk : marked r = true := by simp [marked, h2]
        rw [marksCount_cons_marked _ hmk] at hm
        cases bk with
        | nil => simp at hm
        | cons b bk' =>
          have hm' : marksCount rs = bk'.length := by
            simp only [List.length_cons] at hm
            omega
          rw [List.reverse_cons, List.reverse_cons]
          rw [expand_restore_append path rs.reverse [r] (bk'.reverse ++ [b])
            (by rw [marksCount_reverse, hm']; simp)]
          rw [expand_restore_ext path rs.reverse bk'.reverse [b]
            (by rw [marksCount_reverse, hm']; simp)]
          rw [ih bk' hm', marksCount_reverse, hm']
          rw [show bk'.length = bk'.reverse.length from by simp,
            List.drop_left]
          simp only [expand_restore, if_neg h1, if_pos h2, restoreFwd,
            List.reverse_cons]
      · have hmk : marked r = false := by simp [marked, h1, h2]
        rw [marksCount_cons_unmarked _ hmk] at hm
        have hm' : marksCount rs = bk.length := hm
        rw [List.reverse_cons]
        rw [expand_restore_append path rs.reverse [r] bk.reverse
          (by rw [marksCount_reverse, hm']; simp)]
        rw [ih bk hm', marksCount_reverse, hm']
        rw [show bk.reverse.drop bk.length = [] from by
          rw [show bk.length = bk.reverse.length from by simp,
            List.drop_length]]
        simp only [expand_restore, if_neg h1, if_neg h2, restoreFwd,
          List.reverse_cons]

theorem newChildren_facts (args : Nat) (isFirst : Bool) (var : Int)
    (tc : List PTree) (htc : tc = []) :
    (scanChildren args isFirst var tc).length = args ∧
    ∀ x ∈ scanChildren args isFirst var tc,
      x.sum = none ∧ wfTree x = true := by
  subst htc
  unfold scanChildren
  have hbase : (([] : List PTree) ++
      List.replicate args (PTree.node none 0 (-1) [])).take args =
      List.replicate args (PTree.node none 0 (-1) []) := by
    simp
  rcases isFirst with _ | _
  · rw [if_neg (by simp), hbase]
    refine ⟨by simp, ?_⟩
    intro x hx
    have hx2 := List.eq_of_mem_replicate hx
    subst hx2
    exact ⟨rfl, rfl⟩
  · rw [if_pos rfl, hbase]
    refine ⟨by simp, ?_⟩
    intro x hx
    obtain ⟨i, hi, hx⟩ := List.mem_iff_getElem.mp hx
    rw [List.getElem_mapIdx, List.getElem_replicate] at hx
    subst hx
    exact ⟨rfl, rfl⟩

theorem scan_bucket (su : SumT) (c args : Nat) (path : List Nat)
    (P0T : PTree) (NPC : List PTree)
    (hc : c < su.members.length)
    (harity : (su.members.getD c ("", 0)).2 = args)
    (hv0 : validPath P0T path = true)
    (hnpc : NPC.length = args) (hnpcn : ∀ x ∈ NPC, x.sum = none) :
    ∀ (rows : List PatternRef) (isFirst : Bool) (var : Int)
      (shells bucket : List PatternRef),
      expand_scan su c args path isFirst var rows =
        (shells, bucket, none) →
      (∀ r ∈ rows, 0 ≤ r.index ∧ wfTree r.tree = true ∧
        validPath r.tree path = true ∧ compat P0T r.tree = true) →
      ∀ b ∈ bucket, 0 ≤ b.index ∧ wfTree b.tree = true ∧
        compat (set_expansion P0T path
          (fun t => PTree.node (some su) c t.var NPC)) b.tree = true ∧
        validPath b.tree path = true := by
  intro rows
  induction rows with
  | nil =>
    intro isFirst var shells bucket hscan _
    simp only [expand_scan] at hscan
    injection hscan with hs h23
    injection h23 with hb herr
    subst hb
    intro b hb
    cases hb
  | cons p rest ih =>
    intro isFirst var shells bucket hscan hrows
    obtain ⟨hp1, hp2, hp3, hp4⟩ := hrows p (by simp)
    have hrest := fun r hr => hrows r (List.mem_cons_of_mem _ hr)
    simp only [expand_scan] at hscan
    by_cases h1 : (get_expansion p.tree path).sum = none
    · rw [if_pos h1] at hscan
      rcases hrec : expand_scan su c args path false var rest with
        ⟨shells', bucket', err'⟩
      rw [hrec] at hscan
      injection hscan with hs h23
      injection h23 with hb herr
      subst hb
      have herr2 : err' = none := herr
      subst herr2
      have hwfg : wfTree (get_expansion p.tree path) = true :=
        wf_get path p.tree hp2 hp3
      have htc : (get_expansion p.tree path).children = [] := by
        rcases hg : get_expansion p.tree path with ⟨s0, c0, v0, ch0⟩
        rw [hg] at h1 hwfg
        simp only [PTree.sum] at h1
        subst h1
        simp only [wfTree] at hwfg
        simpa [PTree.children] using hwfg
      obtain ⟨hnclen, hncall⟩ := newChildren_facts args isFirst var _ htc
      intro b hb
      rcases List.mem_cons.mp hb with hb | hb
      · subst hb
        refine ⟨hp1, ?_, ?_, ?_⟩
        · refine wf_set _ path p.tree hp2 hp3 ?_
          simp only [wfTree, Bool.and_eq_true, decide_eq_true_eq]
          refine ⟨⟨hc, ?_⟩, ?_⟩
          · rw [harity]
            simpa using hnclen
          · rw [wf_go_forall]
            intro x hx
            exact (hncall x hx).2
        · refine compat_set _ _ path P0T p.tree hp4 hv0 ?_
          simp only [compat, Bool.and_eq_true, beq_iff_eq]
          refine ⟨⟨⟨trivial, trivial⟩, ?_⟩, compat_go_allNone _ _ hnpcn⟩
          rw [hnpc]
          simpa using hnclen.symm
        · exact validPath_set _ path p.tree hp3
      · exact ih false var shells' bucket' hrec hrest b hb
    · rw [if_neg h1] at hscan
      by_cases h2 : (get_expansion p.tree path).sum = some su
      · rw [if_neg (fun hcon => hcon h2)] at hscan
        by_cases h3 : (get_expansion p.tree path).cons = c
        · rw [if_pos h3] at hscan
          rcases hrec : expand_scan su c args path false var rest with
            ⟨shells', bucket', err'⟩
          rw [hrec] at hscan
          injection hscan with hs h23
          injection h23 with hb herr
          subst hb
          have herr2 : err' = none := herr
          subst herr2
          intro b hb
          rcases List.mem_cons.mp hb with hb | hb
          · subst hb
            refine ⟨hp1, hp2, ?_, hp3⟩
            have hid : set_expansion b.tree path (fun x => x) = b.tree :=
              set_expansion_id _ path b.tree hp3 rfl
            have hcs : compat (set_expansion P0T path
                (fun t => PTree.node (some su) c t.var NPC))
                (set_expansion b.tree path (fun x => x)) = true := by
              refine compat_set _ _ path P0T b.tree hp4 hv0 ?_
              have hwfg : wfTree (get_expansion b.tree path) = true :=
                wf_get path b.tree hp2 hp3
              rcases hg : get_expansion b.tree path with ⟨s0, c0, v0, ch0⟩
              rw [hg] at h2 h3 hwfg
              simp only [PTree.sum] at h2
              simp only [PTree.cons] at h3
              subst h2 h3
              simp only [wfTree, Bool.and_eq_true, decide_eq_true_eq,
                beq_iff_eq] at hwfg
              simp only [compat, Bool.and_eq_true, beq_iff_eq]
              refine ⟨⟨⟨trivial, trivial⟩, ?_⟩, compat_go_allNone _ _
                hnpcn⟩
              rw [hnpc, hwfg.1.2, harity]
            rw [hid] at hcs
            exact hcs
          · exact ih false var shells' bucket' hrec hrest b hb
        · rw [if_neg h3] at hscan
          rcases hrec : expand_scan su c args path false var rest with
            ⟨shells', bucket', err'⟩
          rw [hrec] at hscan
          injection hscan with hs h23
          injection h23 with hb herr
          subst hb
          have herr2 : err' = none := herr
          subst herr2
          intro b hb
          exact ih false var shells' bucket' hrec hrest b hb
      · rw [if_pos h2] at hscan
        injection hscan with hs h23
        injection h23 with hb herr
        cases herr

theorem scan_merge (su : SumT) (c args : Nat) (path : List Nat) :
    ∀ (rows : List PatternRef) (var : Int)
      (shells bucket : List PatternRef),
      expand_scan su c args path false var rows = (shells, bucket, none) →
      (∀ r ∈ rows, 0 ≤ r.index ∧ wfTree r.tree = true ∧
        validPath r.tree path = true) →
      marksCount shells = bucket.length ∧
      shells.length = rows.length ∧
      ∀ bucket2 : List PatternRef, bucket2.length = bucket.length →
        (∀ k, canon ((bucket2.getD k default).tree) =
            canon ((bucket.getD k default).tree) ∧
          (bucket2.getD k default).guard = (bucket.getD k default).guard ∧
          wfTree ((bucket2.getD k default).tree) = true ∧
          (bucket2.getD k default).index = (bucket.getD k default).index) →
        (restoreFwd path shells bucket2).length = rows.length ∧
        ∀ k, canon (((restoreFwd path shells bucket2).getD k default).tree) =
            canon ((rows.getD k default).tree) ∧
          ((restoreFwd path shells bucket2).getD k default).guard =
            (rows.getD k default).guard ∧
          ((restoreFwd path shells bucket2).getD k default).index =
            (rows.getD k default).index ∧
          wfTree (((restoreFwd path shells bucket2).getD k default).tree) =
            true := by
  intro rows
  induction rows with
  | nil =>
    intro var shells bucket hscan _
    simp only [expand_scan] at hscan
    injection hscan with hs h23
    injection h23 with hb herr
    subst hs hb
    refine ⟨rfl, rfl, ?_⟩
    intro bucket2 hlen _
    have hb2 : bucket2 = [] := by simpa using hlen
    subst hb2
    refine ⟨rfl, ?_⟩
    intro k
    exact ⟨rfl, rfl, rfl, rfl⟩
  | cons p rest ih =>
    intro var shells bucket hscan hrows
    obtain ⟨hp1, hp2, hp3⟩ := hrows p (by simp)
    have hrest := fun r hr => hrows r (List.mem_cons_of_mem _ hr)
    simp only [expand_scan] at hscan
    by_cases h1 : (get_expansion p.tree path).sum = none
    · rw [if_pos h1] at hscan
      rcases hrec : expand_scan su c args path false var rest with
        ⟨shells', bucket', err'⟩
      rw [hrec] at hscan
      injection hscan with hs h23
      injection h23 with hb herr
      subst hs hb
      have herr2 : err' = none := herr
      subst herr2
      obtain ⟨ihm, ihl, ihb⟩ := ih var shells' bucket' hrec hrest
      refine ⟨?_, ?_, ?_⟩
      · rw [marksCount_cons_marked _ (by simp [marked])]
        simp only [List.length_cons]
        omega
      · simp only [List.length_cons, ihl]
      · intro bucket2 hlen hpt
        cases bucket2 with
        | nil => simp at hlen
        | cons b0 brest =>
          obtain ⟨hc0, hg0, hw0, hi0⟩ := by
            have := hpt 0
            simpa using this
          have hptrest : ∀ k, canon ((brest.getD k default).tree) =
              canon ((bucket'.getD k default).tree) ∧
            (brest.getD k default).guard =
              (bucket'.getD k default).guard ∧
            wfTree ((brest.getD k default).tree) = true ∧
            (brest.getD k default).index =
              (bucket'.getD k default).index := by
            intro k
            have := hpt (k + 1)
            simpa using this
          obtain ⟨ihl2, ihpt⟩ := ihb brest (by simpa using hlen) hptrest
          rw [restoreFwd_cons_m1 path _ shells' b0 brest rfl]
          have hvnb : validPath (set_expansion p.tree path
              (fun t => PTree.node (some su) c t.var
                (scanChildren args false var
                  (get_expansion p.tree path).children))) path = true :=
            validPath_set _ path p.tree hp3
          have hvb0 : validPath b0.tree path = true := by
            rw [validPath_congr path hc0]
            exact hvnb
          refine ⟨by simpa using ihl2, ?_⟩
          intro k
          cases k with
          | zero =>
            simp only [List.getD_cons_zero]
            refine ⟨?_, ?_, ?_, ?_⟩
            · exact restore_canon path su c _ p.tree b0.tree hp3 h1 hc0
            · exact hg0
            · exact hi0
            · refine wf_set _ path b0.tree hw0 hvb0 ?_
              rfl
          | succ k =>
            simp only [List.getD_cons_succ]
            exact ihpt k
    · rw [if_neg h1] at hscan
      by_cases h2 : (get_expansion p.tree path).sum = some su
      · rw [if_neg (fun hcon => hcon h2)] at hscan
        by_cases h3 : (get_expansion p.tree path).cons = c
        · rw [if_pos h3] at hscan
          rcases hrec : expand_scan su c args path false var rest with
            ⟨shells', bucket', err'⟩
          rw [hrec] at hscan
          injection hscan with hs h23
          injection h23 with hb herr
          subst hs hb
          have herr2 : err' = none := herr
          subst herr2
          obtain ⟨ihm, ihl, ihb⟩ := ih var shells' bucket' hrec hrest
          refine ⟨?_, ?_, ?_⟩
          · rw [marksCount_cons_marked _ (by simp [marked])]
            simp only [List.length_cons]
            omega
          · simp only [List.length_cons, ihl]
          · intro bucket2 hlen hpt
            cases bucket2 with
            | nil => simp at hlen
            | cons b0 brest =>
              obtain ⟨hc0, hg0, hw0, hi0⟩ := by
                have := hpt 0
                simpa using this
              have hptrest : ∀ k, canon ((brest.getD k default).tree) =
                  canon ((bucket'.getD k default).tree) ∧
                (brest.getD k default).guard =
                  (bucket'.getD k default).guard ∧
                wfTree ((brest.getD k default).tree) = true ∧
                (brest.getD k default).index =
                  (bucket'.getD k default).index := by
                intro k
                have := hpt (k + 1)
                simpa using this
              obtain ⟨ihl2, ihpt⟩ := ihb brest (by simpa using hlen) hptrest
              rw [restoreFwd_cons_m2 path _ shells' b0 brest rfl]
              refine ⟨by simpa using ihl2, ?_⟩
              intro k
              cases k with
              | zero =>
                simp only [List.getD_cons_zero]
                exact ⟨hc0, hg0, hi0, hw0⟩
              | succ k =>
                simp only [List.getD_cons_succ]
                exact ihpt k
        · rw [if_neg h3] at hscan
          rcases hrec : expand_scan su c args path false var rest with
            ⟨shells', bucket', err'⟩
          rw [hrec] at hscan
          injection hscan with hs h23
          injection h23 with hb herr
          subst hs hb
          have herr2 : err' = none := herr
          subst herr2
          obtain ⟨ihm, ihl, ihb⟩ := ih var shells' bucket' hrec hrest
          refine ⟨?_, ?_, ?_⟩
          · rw [marksCount_cons_unmarked _ (by
              simp only [marked, Bool.or_eq_false_iff]
              constructor <;> simp <;> omega)]
            exact ihm
          · simp only [List.length_cons, ihl]
          · intro bucket2 hlen hpt
            obtain ⟨ihl2, ihpt⟩ := ihb bucket2 hlen hpt
            rw [restoreFwd_cons_un path p shells' bucket2
              (by omega) (by omega)]
            refine ⟨by simpa using ihl2, ?_⟩
            intro k
            cases k with
            | zero =>
              simp only [List.getD_cons_zero]
              exact ⟨trivial, trivial, trivial, hp2⟩
            | succ k =>
              simp only [List.getD_cons_succ]
              exact ihpt k
      · rw [if_pos h2] at hscan
        injection hscan with hs h23
        injection h23 with hb herr
        cases herr

/-- The frame relation C7 actually satisfies on success: same number of
rows, trees preserved up to `canon`, guards preserved, well-formedness and
non-negative indices preserved, and the index of every non-prototype row
preserved exactly (the prototype's variable counter advances). -/
def RowsRel (rows out : List PatternRef) : Prop :=
  out.length = rows.length ∧
  ∀ k, canon ((out.getD k default).tree) =
      canon ((rows.getD k default).tree) ∧
    (out.getD k default).guard = (rows.getD k default).guard ∧
    0 ≤ (out.getD k default).index ∧
    wfTree ((out.getD k default).tree) = true ∧
    (1 ≤ k → (out.getD k default).index = (rows.getD k default).index)

/-- The precondition `expand_patterns` is called under: a non-empty row
vector of arity-correct rows with non-negative indices, every row at least
as refined as the prototype. -/
def ValidRows (rows : List PatternRef) : Prop :=
  rows ≠ [] ∧ ∀ r ∈ rows, 0 ≤ r.index ∧ wfTree r.tree = true ∧
    compat ((rows.headD default).tree) r.tree = true

theorem headD_getD {α : Type} [Inhabited α] (l : List α) :
    l.headD default = l.getD 0 default := by
  cases l <;> rfl

theorem getD_tail {α : Type} [Inhabited α] (l : List α) (k : Nat) :
    l.tail.getD k default = l.getD (k + 1) default := by
  cases l <;> rfl

theorem list_drop_headD {α : Type} [Inhabited α] :
    ∀ (c : Nat) (l : List α), (l.drop c).headD default = l.getD c default := by
  intro c
  induction c with
  | zero => intro l; cases l <;> rfl
  | succ c ih =>
    intro l
    cases l with
    | nil => rfl
    | cons x xs => simpa using ih xs

theorem list_drop_tail {α : Type} :
    ∀ (c : Nat) (l : List α), (l.drop c).tail = l.drop (c + 1) := by
  intro c
  induction c with
  | zero => intro l; cases l <;> rfl
  | succ c ih =>
    intro l
    cases l with
    | nil => rfl
    | cons x xs => simpa using ih xs

theorem RowsRel_refl (rows : List PatternRef)
    (h : ∀ r ∈ rows, 0 ≤ r.index ∧ wfTree r.tree = true) :
    RowsRel rows rows := by
  refine ⟨rfl, ?_⟩
  intro k
  by_cases hk : k < rows.length
  · obtain ⟨h1, h2⟩ := h _ (list_getD_mem _ _ hk)
    exact ⟨rfl, rfl, h1, h2, fun _ => rfl⟩
  · rw [List.getD_eq_default _ _ (by omega)]
    exact ⟨rfl, rfl, by decide, by decide, fun _ => rfl⟩

theorem RowsRel_trans {a b c : List PatternRef}
    (h1 : RowsRel a b) (h2 : RowsRel b c) : RowsRel a c := by
  obtain ⟨hl1, hp1⟩ := h1
  obtain ⟨hl2, hp2⟩ := h2
  refine ⟨hl2.trans hl1, ?_⟩
  intro k
  obtain ⟨c1, g1, i1, w1, e1⟩ := hp1 k
  obtain ⟨c2, g2, i2, w2, e2⟩ := hp2 k
  exact ⟨c2.trans c1, g2.trans g1, i2, w2,
    fun hk => (e2 hk).trans (e1 hk)⟩

theorem get_sum_congr {a b : PTree} (p : List Nat)
    (hv : validPath a p = true) (h : canon a = canon b) :
    (get_expansion a p).sum = (get_expansion b p).sum := by
  have hv2 : validPath b p = true := by
    rw [← validPath_congr p h]
    exact hv
  have hc : canon (get_expansion a p) = canon (get_expansion b p) := by
    rw [← get_canon p a hv, ← get_canon p b hv2, h]
  have := congrArg PTree.sum hc
  rwa [canon_sum, canon_sum] at this

theorem null_children (t : PTree) (path : List Nat)
    (hw : wfTree t = true) (hv : validPath t path = true)
    (hn : (get_expansion t path).sum = none) :
    (get_expansion t path).children = [] := by
  have hwfg : wfTree (get_expansion t path) = true := wf_get path t hw hv
  rcases hg : get_expansion t path with ⟨s0, c0, v0, ch0⟩
  rw [hg] at hn hwfg
  simp only [PTree.sum] at hn
  subst hn
  simp only [wfTree] at hwfg
  simpa [PTree.children] using hwfg

theorem expand_frame : ∀ fuel : Nat,
    (∀ rows out diags e, ValidRows rows →
      expand_patterns fuel rows = some (out, diags, some e) →
      RowsRel rows out) ∧
    (∀ su members c path body entries rows diags out diags2 e,
      ValidRows rows →
      (∀ r ∈ rows, validPath r.tree path = true) →
      (get_expansion ((rows.headD default).tree) path).sum = none →
      members = su.members.drop c →
      expand_members fuel su members c path body entries rows diags =
        some (out, diags2, some e) →
      RowsRel rows out) := by
  intro fuel
  induction fuel with
  | zero =>
    constructor
    · intro rows out diags e _ hexp
      cases hexp
    · intro su members c path body entries rows diags out diags2 e
        _ _ _ _ hexp
      cases hexp
  | succ fuel ih =>
    obtain ⟨ihP, ihQ⟩ := ih
    constructor
    · intro rows out diags e hval hexp
      obtain ⟨hne, hfacts⟩ := hval
      cases rows with
      | nil => exact absurd rfl hne
      | cons p0 tail =>
        cases tail with
        | nil =>
          simp only [expand_patterns] at hexp
          simp at hexp
        | cons p1 rest =>
          simp only [expand_patterns] at hexp
          split at hexp
          · rename_i path su heq
            obtain ⟨q, hq, hvp0, hnull⟩ := find_mismatch_valid
              (PTree.size p0.tree) p0.tree le_rfl p1.tree [] path su heq
            have hq2 : q = path := by simpa using hq.symm
            subst hq2
            have hvall : ∀ r ∈ p0 :: p1 :: rest,
                validPath r.tree q = true := by
              intro r hr
              refine compat_validPath q _ _ ?_ hvp0
              have := (hfacts r hr).2.2
              simpa using this
            refine ihQ su su.members 0 q _ [] _ [] out diags e
              ⟨hne, hfacts⟩ hvall (by simpa using hnull) (by simp) hexp
          · rename_i heq
            split at hexp
            · rename_i hguard
              simp only [Option.some.injEq, Prod.mk.injEq] at hexp
              obtain ⟨hout, hdiags, hres⟩ := hexp
              subst hout
              refine ⟨by simp, ?_⟩
              intro k
              match k with
              | 0 =>
                obtain ⟨h1, h2, _⟩ := hfacts p0 (by simp)
                exact ⟨rfl, rfl, h1, h2, fun hk => by omega⟩
              | 1 =>
                obtain ⟨h1, h2, _⟩ := hfacts p1 (by simp)
                exact ⟨rfl, rfl, h1, h2, fun _ => rfl⟩
              | (k + 2) =>
                simp only [List.getD_cons_succ]
                by_cases hk : k < rest.length
                · obtain ⟨h1, h2, _⟩ := hfacts _
                    (List.mem_cons_of_mem _ (List.mem_cons_of_mem _
                      (list_getD_mem _ _ hk)))
                  exact ⟨trivial, trivial, h1, h2, fun _ => trivial⟩
                · rw [List.getD_eq_default _ _ (by omega)]
                  exact ⟨trivial, trivial, by decide, by decide,
                    fun _ => trivial⟩
            · rename_i hguard
              split at hexp
              · cases hexp
              · rename_i rows2 diags1 res heq2
                rcases res with _ | gf
                · simp at hexp
                · simp only [Option.some.injEq, Prod.mk.injEq] at hexp
                  obtain ⟨hout, hdiags, hres⟩ := hexp
                  subst hout
                  have hvsub : ValidRows (p0 :: rest) := by
                    refine ⟨by simp, ?_⟩
                    intro r hr
                    rcases List.mem_cons.mp hr with hr | hr
                    · subst hr
                      have := hfacts r (by simp)
                      simpa using this
                    · have := hfacts r (by simp [hr])
                      simpa using this
                  obtain ⟨hlen2, hpt2⟩ := ihP (p0 :: rest) rows2 diags1 gf
                    hvsub heq2
                  have hlen3 : rows2.length = rest.length + 1 := by
                    simpa using hlen2
                  refine ⟨?_, ?_⟩
                  · simp only [List.length_cons]
                    have : rows2.tail.length = rows2.length - 1 :=
                      List.length_tail _
                    omega
                  · intro k
                    match k with
                    | 0 =>
                      have h0 := hpt2 0
                      simp only [List.getD_cons_zero] at h0 ⊢
                      rw [headD_getD]
                      exact ⟨h0.1, h0.2.1, h0.2.2.1, h0.2.2.2.1,
                        fun hk => by omega⟩
                    | 1 =>
                      obtain ⟨h1, h2, _⟩ := hfacts p1 (by simp)
                      simp only [List.getD_cons_succ, List.getD_cons_zero]
                      exact ⟨trivial, trivial, h1, h2, fun _ => trivial⟩
                    | (k + 2) =>
                      have hk1 := hpt2 (k + 1)
                      simp only [List.getD_cons_succ] at hk1 ⊢
                      rw [getD_tail]
                      exact ⟨hk1.1, hk1.2.1, hk1.2.2.1, hk1.2.2.2.1,
                        fun _ => hk1.2.2.2.2 (by omega)⟩
    · intro su members c path body entries rows diags out diags2 e hval
        hvp hnull hmem hexp
      obtain ⟨hne, hfacts⟩ := hval
      cases members with
      | nil =>
        simp only [expand_members] at hexp
        simp only [Option.some.injEq, Prod.mk.injEq] at hexp
        obtain ⟨hout, hrest⟩ := hexp
        subst hout
        exact RowsRel_refl rows
          (fun r hr => ⟨(hfacts r hr).1, (hfacts r hr).2.1⟩)
      | cons m members2 =>
        obtain ⟨mname, margs⟩ := m
        cases rows with
        | nil => exact absurd rfl hne
        | cons p0 tail =>
          have hp0 := hfacts p0 (by simp)
          have hnull0 : (get_expansion p0.tree path).sum = none := by
            simpa using hnull
          have hvp0 : validPath p0.tree path = true := hvp p0 (by simp)
          have hwf0 : wfTree p0.tree = true := hp0.2.1
          have hdropne : su.members.drop c ≠ [] := by
            rw [← hmem]
            simp
          have hc : c < su.members.length := by
            by_contra hcle
            exact hdropne (List.drop_eq_nil_of_le (by omega))
          have hgetc : su.members.getD c ("", 0) = (mname, margs) := by
            have h := list_drop_headD c su.members
            rw [← hmem] at h
            simpa using h.symm
          have harity : (su.members.getD c ("", 0)).2 = margs := by
            rw [hgetc]
          simp only [expand_members, List.headD_cons, List.tail_cons] at hexp
          split at hexp
          · rename_i shells bucketX d heqscan
            simp at hexp
          · rename_i shells bucket heqscan
            split at hexp
            · cases hexp
            · rename_i bucket2 diags3 res heq2
              rcases res with _ | exp
              · simp at hexp
              · have hnullP : (get_expansion
                    (({ p0 with index := p0.index + (margs : Int) } :
                      PatternRef).tree) path).sum = none := hnull0
                have hrows1 : ∀ r ∈ ({ p0 with
                    index := p0.index + (margs : Int) } :: tail :
                      List PatternRef), 0 ≤ r.index ∧
                    wfTree r.tree = true ∧ validPath r.tree path = true ∧
                    compat p0.tree r.tree = true := by
                  intro r hr
                  rcases List.mem_cons.mp hr with hr | hr
                  · subst hr
                    refine ⟨by have := hp0.1; simp; omega, hwf0, hvp0, ?_⟩
                    have := hp0.2.2
                    simpa using this
                  · have h2 := hfacts r (by simp [hr])
                    refine ⟨h2.1, h2.2.1, hvp r (by simp [hr]), ?_⟩
                    have := h2.2.2
                    simpa using this
                have hbfacts := scan_bucket su c margs path p0.tree
                  (scanChildren margs true p0.index
                    (get_expansion p0.tree path).children)
                  hc harity hvp0
                  (newChildren_facts margs true p0.index _
                    (null_children p0.tree path hwf0 hvp0 hnull0)).1
                  (fun x hx => ((newChildren_facts margs true p0.index _
                    (null_children p0.tree path hwf0 hvp0 hnull0)).2
                      x hx).1)
                  _ true p0.index shells bucket heqscan hrows1
                -- destructure the scan one step
                simp only [expand_scan] at heqscan
                rw [if_pos hnullP] at heqscan
                rcases hrect : expand_scan su c margs path false p0.index
                  tail with ⟨shells', bucket0, err0⟩
                rw [hrect] at heqscan
                injection heqscan with hs h23
                injection h23 with hb herr
                have herr2 : err0 = none := herr
                subst herr2
                set NT := set_expansion p0.tree path
                  (fun t => PTree.node (some su) c t.var
                    (scanChildren margs true p0.index
                      (get_expansion p0.tree path).children)) with hNT
                have hs2 : ({ p0 with tree := NT, index := -1 } ::
                    shells' : List PatternRef) = shells := hs
                have hidx2 : p0.index + (margs : Int) =
                    p0.index + (margs : Int) := rfl
                have hb2 :
                    ({ p0 with tree := NT, index := p0.index + (margs : Int) } :: bucket0 : List PatternRef) = bucket := hb
                subst hs2 hb2
                -- bucket validity and the inner recursion
                have hvbucket :
                    ValidRows ({ p0 with tree := NT, index := p0.index + (margs : Int) } :: bucket0) := by
                  refine ⟨by simp, ?_⟩
                  intro b hb3
                  obtain ⟨hb1, hb4, hb5, hb6⟩ := hbfacts b hb3
                  exact ⟨hb1, hb4, by simpa using hb5⟩
                have hrelB := ihP _ bucket2 diags3 exp hvbucket heq2
                obtain ⟨hblen, hbpt⟩ := hrelB
                -- merge facts for the tail
                have htailfacts : ∀ r ∈ tail, 0 ≤ r.index ∧
                    wfTree r.tree = true ∧ validPath r.tree path = true :=
                  fun r hr => ⟨(hfacts r (by simp [hr])).1,
                    (hfacts r (by simp [hr])).2.1, hvp r (by simp [hr])⟩
                obtain ⟨hmarks, hslen, hmergeF⟩ :=
                  scan_merge su c margs path tail p0.index shells' bucket0
                    hrect htailfacts
                -- bucket2 is nonempty
                cases bucket2 with
                | nil => simp at hblen
                | cons b0 brest =>
                  have hb0 := hbpt 0
                  simp only [List.getD_cons_zero] at hb0
                  have hblen2 : brest.length = bucket0.length := by
                    simpa using hblen
                  -- rewrite the restored row vector in hexp
                  have hm :
                      marksCount ({ p0 with tree := NT, index := -1 } :: shells') = (b0 :: brest).length := by
                    rw [marksCount_cons_marked _ (by simp [marked])]
                    simp only [List.length_cons]
                    omega
                  rw [expand_restore_reverse path _ _ hm,
                    List.reverse_reverse,
                    restoreFwd_cons_m1 path _ shells' b0 brest rfl] at hexp
                  -- pointwise facts for the merged tail
                  obtain ⟨hrlen, hrpt⟩ := hmergeF brest hblen2 (by
                    intro k
                    have hk := hbpt (k + 1)
                    simp only [List.getD_cons_succ] at hk
                    exact ⟨hk.1, hk.2.1, hk.2.2.2.1,
                      hk.2.2.2.2 (by omega)⟩)
                  -- head facts
                  have hcb : canon b0.tree = canon NT := hb0.1
                  have hvb0 : validPath b0.tree path = true := by
                    rw [validPath_congr path hcb]
                    exact validPath_set _ path p0.tree hvp0
                  have hcanon0 : canon ({ b0 with
                      tree := (set_expansion b0.tree path
                        (fun t => PTree.node none t.cons t.var [])) } :
                        PatternRef).tree = canon p0.tree :=
                    restore_canon path su c _ p0.tree b0.tree hvp0
                      hnull0 hcb
                  have hrel1 : RowsRel (p0 :: tail)
                      ({ b0 with tree := (set_expansion b0.tree path
                        (fun t => PTree.node none t.cons t.var [])) } ::
                        restoreFwd path shells' brest) := by
                    refine ⟨by simp [hrlen], ?_⟩
                    intro k
                    match k with
                    | 0 =>
                      refine ⟨hcanon0, ?_, ?_, ?_, fun hk => by omega⟩
                      · exact hb0.2.1
                      · exact hb0.2.2.1
                      · refine wf_set _ path b0.tree hb0.2.2.2.1 hvb0 rfl
                    | (k + 1) =>
                      have hk := hrpt k
                      simp only [List.getD_cons_succ]
                      refine ⟨hk.1, hk.2.1, ?_, hk.2.2.2, fun _ =>
                        hk.2.2.1⟩
                      rw [hk.2.2.1]
                      by_cases hkl : k < tail.length
                      · exact (htailfacts _ (list_getD_mem _ _ hkl)).1
                      · rw [List.getD_eq_default _ _ (by omega)]
                        decide
                  -- validity of the restored rows for the next member
                  have hRfacts : ∀ k, canon ((({ b0 with
                      tree := (set_expansion b0.tree path
                        (fun t => PTree.node none t.cons t.var [])) } ::
                        restoreFwd path shells' brest :
                        List PatternRef).getD k default).tree) =
                      canon (((p0 :: tail : List PatternRef).getD k
                        default).tree) := fun k => (hrel1.2 k).1
                  have hRlen : ({ b0 with
                      tree := (set_expansion b0.tree path
                        (fun t => PTree.node none t.cons t.var [])) } ::
                      restoreFwd path shells' brest :
                      List PatternRef).length =
                      (p0 :: tail : List PatternRef).length := hrel1.1
                  have hvR : ValidRows ({ b0 with
                      tree := (set_expansion b0.tree path
                        (fun t => PTree.node none t.cons t.var [])) } ::
                      restoreFwd path shells' brest) := by
                    refine ⟨by simp, ?_⟩
                    intro r hr
                    obtain ⟨k, hk, hrk⟩ := List.mem_iff_getElem.mp hr
                    have hrk2 : r = (({ b0 with
                        tree := (set_expansion b0.tree path
                          (fun t => PTree.node none t.cons t.var [])) } ::
                        restoreFwd path shells' brest :
                        List PatternRef).getD k default) := by
                      rw [List.getD_eq_getElem _ _ hk, hrk]
                    subst hrk2
                    refine ⟨(hrel1.2 k).2.2.1, (hrel1.2 k).2.2.2.1, ?_⟩
                    rw [List.headD_cons]
                    have hcc := compat_congr
                      (PTree.size ({ b0 with
                        tree := (set_expansion b0.tree path
                          (fun t => PTree.node none t.cons t.var [])) } :
                          PatternRef).tree) _ p0.tree _
                      ((p0 :: tail : List PatternRef).getD k default).tree
                      le_rfl hcanon0 (hRfacts k)
                    rw [hcc]
                    by_cases hkl : k < (p0 :: tail : List PatternRef).length
                    · have := (hfacts _ (list_getD_mem _ _ hkl)).2.2
                      simpa using this
                    · omega
                  have hvpR : ∀ r ∈ ({ b0 with
                      tree := (set_expansion b0.tree path
                        (fun t => PTree.node none t.cons t.var [])) } ::
                      restoreFwd path shells' brest : List PatternRef),
                      validPath r.tree path = true := by
                    intro r hr
                    obtain ⟨k, hk, hrk⟩ := List.mem_iff_getElem.mp hr
                    have hrk2 : r = (({ b0 with
                        tree := (set_expansion b0.tree path
                          (fun t => PTree.node none t.cons t.var [])) } ::
                        restoreFwd path shells' brest :
                        List PatternRef).getD k default) := by
                      rw [List.getD_eq_getElem _ _ hk, hrk]
                    subst hrk2
                    rw [validPath_congr path (hRfacts k)]
                    by_cases hkl : k < (p0 :: tail : List PatternRef).length
                    · exact compat_validPath path _ _
                        (by simpa using (hfacts _ (list_getD_mem _ _
                          hkl)).2.2) hvp0
                    · omega
                  have hnullR : (get_expansion ((({ b0 with
                      tree := (set_expansion b0.tree path
                        (fun t => PTree.node none t.cons t.var [])) } ::
                      restoreFwd path shells' brest :
                      List PatternRef).headD default).tree) path).sum =
                      none := by
                    rw [List.headD_cons]
                    rw [← get_sum_congr path hvp0 hcanon0.symm]
                    exact hnull0
                  have hmem2 : members2 = su.members.drop (c + 1) := by
                    have := congrArg List.tail hmem
                    simpa [list_drop_tail] using this
                  exact RowsRel_trans hrel1
                    (ihQ su members2 (c + 1) path _ _ _ _ out diags2 e
                      hvR hvpR hnullR hmem2 hexp)

/-- C7 (counterexample): a successful `expand_patterns` call does NOT
return its row vector unchanged: in the run below (a two-constructor
match with a `Cons` arm and a wildcard arm) the returned rows differ from
the input rows — the wildcard arm's `uses` went from 0 to 1, the
prototype's variable counter `index` advanced from 1 to 3, and the
restore sweep left the junk constructor tag `1` on the un-expanded nodes
(`t->cons` is not reset). -/
theorem claim_C7_counterexample :
    (expand_patterns 5
      [⟨PTree.node none 0 0 [], 1, 1, false⟩,
       ⟨PTree.node (some ⟨"List", [("Cons", 2), ("Nil", 0)]⟩) 0 (-1)
          [PTree.node none 0 0 [], PTree.node none 0 0 []], 0, 0, false⟩,
       ⟨PTree.node none 0 0 [], 1, 0, false⟩]).map
        (fun r => r.1) =
      some [⟨PTree.node none 1 0 [], 3, 1, false⟩,
        ⟨PTree.node (some ⟨"List", [("Cons", 2), ("Nil", 0)]⟩) 0 (-1)
          [PTree.node none 0 0 [], PTree.node none 0 0 []], 0, 1, false⟩,
        ⟨PTree.node none 1 0 [], 1, 1, false⟩] ∧
    ([(⟨PTree.node none 1 0 [], 3, 1, false⟩ : PatternRef),
      ⟨PTree.node (some ⟨"List", [("Cons", 2), ("Nil", 0)]⟩) 0 (-1)
        [PTree.node none 0 0 [], PTree.node none 0 0 []], 0, 1, false⟩,
      ⟨PTree.node none 1 0 [], 1, 1, false⟩] : List PatternRef) ≠
      [⟨PTree.node none 0 0 [], 1, 1, false⟩,
       ⟨PTree.node (some ⟨"List", [("Cons", 2), ("Nil", 0)]⟩) 0 (-1)
          [PTree.node none 0 0 [], PTree.node none 0 0 []], 0, 0, false⟩,
       ⟨PTree.node none 0 0 [], 1, 0, false⟩] :=
  ⟨rfl, fun h => by
    have h2 := congrArg (fun l => ((l.getD 0 default : PatternRef)).index) h
    simp at h2⟩

/-- C7 (amended): on SUCCESS, `expand_patterns` preserves the number of
rows, each row's tree up to the canonical form that zeroes the junk
fields of unexpanded nodes (the restore sweep does not reset `t->cons`),
each row's guard flag, and the `index` of every non-prototype row; the
`uses` counters and the prototype's variable counter may advance, and on
failure paths the rows can be left moved-out (no restore before the early
returns). -/
theorem claim_C7_frame (fuel : Nat) (rows out : List PatternRef)
    (diags : List Diag) (e : Expr) (hval : ValidRows rows)
    (hexp : expand_patterns fuel rows = some (out, diags, some e)) :
    out.length = rows.length ∧
    (∀ k, canon ((out.getD k default).tree) =
        canon ((rows.getD k default).tree) ∧
      (out.getD k default).guard = (rows.getD k default).guard) ∧
    (∀ k, 1 ≤ k →
      (out.getD k default).index = (rows.getD k default).index) := by
  obtain ⟨hlen, hpt⟩ := (expand_frame fuel).1 rows out diags e hval hexp
  exact ⟨hlen, fun k => ⟨(hpt k).1, (hpt k).2.1⟩,
    fun k hk => (hpt k).2.2.2.2 hk⟩

theorem claim_C7_frame_witness :
    ValidRows [⟨PTree.node none 0 0 [], 1, 1, false⟩,
      ⟨PTree.node none 0 0 [], 0, 0, false⟩] ∧
    (expand_patterns 1
      [⟨PTree.node none 0 0 [], 1, 1, false⟩,
       ⟨PTree.node none 0 0 [], 0, 0, false⟩] =
      some ([⟨PTree.node none 0 0 [], 1, 1, false⟩,
             ⟨PTree.node none 0 0 [], 0, 1, false⟩], [],
        some (Expr.App (Expr.App (Expr.VarRef "_ f0") (Expr.VarRef "_ a0"))
          (Expr.VarRef "_ a0")))) ∧
    (([⟨PTree.node none 0 0 [], 1, 1, false⟩,
       ⟨PTree.node none 0 0 [], 0, 1, false⟩] :
        List PatternRef).length =
      ([⟨PTree.node none 0 0 [], 1, 1, false⟩,
        ⟨PTree.node none 0 0 [], 0, 0, false⟩] :
        List PatternRef).length ∧
     (∀ k, canon ((([⟨PTree.node none 0 0 [], 1, 1, false⟩,
          ⟨PTree.node none 0 0 [], 0, 1, false⟩] :
            List PatternRef).getD k default).tree) =
        canon ((([⟨PTree.node none 0 0 [], 1, 1, false⟩,
          ⟨PTree.node none 0 0 [], 0, 0, false⟩] :
            List PatternRef).getD k default).tree) ∧
       (([⟨PTree.node none 0 0 [], 1, 1, false⟩,
          ⟨PTree.node none 0 0 [], 0, 1, false⟩] :
            List PatternRef).getD k default).guard =
        (([⟨PTree.node none 0 0 [], 1, 1, false⟩,
          ⟨PTree.node none 0 0 [], 0, 0, false⟩] :
            List PatternRef).getD k default).guard) ∧
     (∀ k, 1 ≤ k →
       (([⟨PTree.node none 0 0 [], 1, 1, false⟩,
          ⟨PTree.node none 0 0 [], 0, 1, false⟩] :
            List PatternRef).getD k default).index =
        (([⟨PTree.node none 0 0 [], 1, 1, false⟩,
          ⟨PTree.node none 0 0 [], 0, 0, false⟩] :
            List PatternRef).getD k default).index)) :=
  ⟨⟨by simp, by decide⟩, rfl,
    claim_C7_frame 1 _ _ [] _ ⟨by simp, by decide⟩ rfl⟩


/-! ## Type inference on `App` nodes (C4)

`explore` (part_000 lines 733-824) drives unification.  The `TypeVar`
union-find engine itself is not part of the sources here; it is modelled
from the spec: "Unification is classical union-find with occurs-check"
and the `App` rule "unify `fn`'s type with `a → b`, then `a` with the
argument's type and `b` with the result type".  The model below uses an
idempotent (triangular) substitution in place of the union-find arena:
type variables are numbered, a substitution maps variables to terms, and
unification extends it; representatives of the union-find correspond to
fully applied terms.  `explore` is translated from the source order of
its `VarRef`/`App`/`Lambda`/`Literal` cases (monomorphic `VarRef`
lookup — cloning for generalization is beyond this claim). -/

inductive Ty : Type where
  | var (n : Nat)
  | con (name : String) (args : List Ty)
  deriving Repr, Inhabited

def occursB (x : Nat) : Ty → Bool
  | .var n => n == x
  | .con _ as => go as
where go : List Ty → Bool
  | [] => false
  | t :: ts => occursB x t || go ts

def subApply (σ : List (Nat × Ty)) : Ty → Ty
  | .var n =>
    match σ.lookup n with
    | some t => t
    | none => .var n
  | .con c as => .con c (go as)
where go : List Ty → List Ty
  | [] => []
  | t :: ts => subApply σ t :: go ts

/-- Extend an idempotent substitution with `x ↦ t`, re-normalizing the
existing range. -/
def extendS (σ : List (Nat × Ty)) (x : Nat) (t : Ty) : List (Nat × Ty) :=
  (x, t) :: σ.map (fun p => (p.1, subApply [(x, t)] p.2))

mutual

def unifyF : Nat → List (Nat × Ty) → Ty → Ty → Option (List (Nat × Ty))
  | 0, _, _, _ => none
  | fuel + 1, σ, a, b =>
    match subApply σ a, subApply σ b with
    | .var x, .var y =>
      if x = y then some σ else some (extendS σ x (.var y))
    | .var x, .con d bs =>
      if occursB x (.con d bs) then none else some (extendS σ x (.con d bs))
    | .con c as, .var y =>
      if occursB y (.con c as) then none else some (extendS σ y (.con c as))
    | .con c as, .con d bs =>
      if c = d ∧ as.length = bs.length then unifyList fuel σ as bs else none

def unifyList : Nat → List (Nat × Ty) → List Ty → List Ty →
    Option (List (Nat × Ty))
  | _, σ, [], _ => some σ
  | 0, _, _ :: _, _ => none
  | fuel + 1, σ, a :: as, bs =>
    match unifyF fuel σ a (bs.headD default) with
    | none => none
    | some σ1 => unifyList fuel σ1 as bs.tail

end

def subApply_go_eq (σ : List (Nat × Ty)) :
    ∀ ts : List Ty, subApply.go σ ts = ts.map (subApply σ) := by
  intro ts
  induction ts with
  | nil => rfl
  | cons t ts ih => simp [subApply.go, ih]

theorem subApply_con (σ : List (Nat × Ty)) (c : String) (as : List Ty) :
    subApply σ (.con c as) = .con c (as.map (subApply σ)) := by
  simp [subApply, subApply_go_eq]

theorem occursB_go_eq (x : Nat) : ∀ ts : List Ty,
    occursB.go x ts = ts.any (occursB x) := by
  intro ts
  induction ts with
  | nil => rfl
  | cons t ts ih => simp [occursB.go, ih]

/-- Triangular form: no domain variable occurs in any range term, and
domain keys are distinct. -/
def WFS (σ : List (Nat × Ty)) : Prop :=
  (∀ p ∈ σ, ∀ q ∈ σ, occursB p.1 q.2 = false) ∧
  (σ.map (fun p => p.1)).Nodup

def Ty.size : Ty → Nat
  | .var _ => 1
  | .con _ as => 1 + go as
where go : List Ty → Nat
  | [] => 0
  | t :: ts => Ty.size t + go ts

theorem Ty.size_pos : ∀ t : Ty, 0 < t.size := by
  intro t
  cases t with
  | var n => simp [Ty.size]
  | con c as => simp [Ty.size]

theorem Ty.size_lt_of_mem_list {t : Ty} {as : List Ty} (h : t ∈ as) (c : String) :
    t.size < (Ty.con c as).size := by
  simp only [Ty.size]
  induction as with
  | nil => cases h
  | cons a as ih =>
    rcases List.mem_cons.mp h with h1 | h2
    · subst h1
      simp only [Ty.size.go]
      omega
    · have := ih h2
      simp only [Ty.size.go]
      omega

/-- Structural induction for the nested inductive `Ty`. -/
theorem Ty.ind {P : Ty → Prop} (hv : ∀ n, P (Ty.var n))
    (hc : ∀ c as, (∀ t ∈ as, P t) → P (Ty.con c as)) : ∀ t, P t := by
  have H : ∀ n, ∀ t : Ty, t.size ≤ n → P t := by
    intro n
    induction n with
    | zero =>
      intro t ht
      have := Ty.size_pos t
      omega
    | succ n ih =>
      intro t ht
      cases t with
      | var m => exact hv m
      | con c as =>
        apply hc
        intro u hu
        apply ih
        have := Ty.size_lt_of_mem_list hu c
        omega
  intro t
  exact H t.size t le_rfl

theorem lookup_eq_none_of {σ : List (Nat × Ty)} {n : Nat}
    (h : ∀ p ∈ σ, p.1 ≠ n) : σ.lookup n = none := by
  induction σ with
  | nil => rfl
  | cons p σ ih =>
    have hp : p.1 ≠ n := h p (List.mem_cons_self _ _)
    have hn : (n == p.1) = false := by
      simp [Ne.symm hp]
    simp only [List.lookup, hn]
    exact ih (fun q hq => h q (List.mem_cons_of_mem _ hq))

theorem lookup_none_forall {σ : List (Nat × Ty)} {n : Nat}
    (h : σ.lookup n = none) : ∀ p ∈ σ, p.1 ≠ n := by
  induction σ with
  | nil => intro p hp; cases hp
  | cons q σ ih =>
    intro p hp
    by_cases hq : (n == q.1) = true
    · simp only [List.lookup, hq] at h
      exact absurd h (Option.some_ne_none _)
    · simp only [List.lookup, hq] at h
      rcases List.mem_cons.mp hp with h1 | h2
      · subst h1
        intro he
        exact hq (by simp [he])
      · exact ih h p h2

theorem lookup_mem {σ : List (Nat × Ty)} {n : Nat} {t : Ty}
    (h : σ.lookup n = some t) : (n, t) ∈ σ := by
  induction σ with
  | nil => cases h
  | cons q σ ih =>
    by_cases hq : (n == q.1) = true
    · simp only [List.lookup, hq] at h
      have hn : n = q.1 := by simpa using hq
      have : q = (n, t) := by
        cases q
        simp at h hn ⊢
        exact ⟨hn.symm, h⟩
      rw [← this]
      exact List.mem_cons_self _ _
    · simp only [List.lookup, hq] at h
      exact List.mem_cons_of_mem _ (ih h)

theorem lookup_map_snd (σ : List (Nat × Ty)) (f : Ty → Ty) (n : Nat) :
    (σ.map (fun p => (p.1, f p.2))).lookup n = (σ.lookup n).map f := by
  induction σ with
  | nil => rfl
  | cons p σ ih =>
    by_cases hq : (n == p.1) = true
    · simp only [List.map, List.lookup, hq]
      rfl
    · simp only [List.map, List.lookup, hq]
      exact ih

/-- A term free of every domain variable is fixed by the substitution. -/
theorem subApply_of_notOccurs {σ : List (Nat × Ty)} :
    ∀ t : Ty, (∀ p ∈ σ, occursB p.1 t = false) → subApply σ t = t := by
  intro t
  induction t using Ty.ind with
  | hv n =>
    intro h
    have hnone : σ.lookup n = none := by
      apply lookup_eq_none_of
      intro p hp he
      have := h p hp
      rw [he] at this
      simp [occursB] at this
    simp [subApply, hnone]
  | hc c as ih =>
    intro h
    rw [subApply_con]
    have hall : ∀ u ∈ as, subApply σ u = u := by
      intro u hu
      apply ih u hu
      intro p hp
      have hc2 := h p hp
      simp only [occursB, occursB_go_eq, List.any_eq_false] at hc2
      exact Bool.eq_false_iff.mpr (hc2 u hu)
    have : as.map (subApply σ) = as := by
      rw [List.map_congr_left hall]
      simp
    rw [this]

/-- No domain variable of a triangular substitution occurs in an applied
term. -/
theorem domFree_subApply {σ : List (Nat × Ty)} (hwf : WFS σ) :
    ∀ s : Ty, ∀ p ∈ σ, occursB p.1 (subApply σ s) = false := by
  intro s
  induction s using Ty.ind with
  | hv n =>
    intro p hp
    cases hl : σ.lookup n with
    | some t =>
      simp only [subApply, hl]
      exact hwf.1 (n, t) (lookup_mem hl) p hp |>.symm ▸
        (hwf.1 p hp (n, t) (lookup_mem hl))
    | none =>
      simp only [subApply, hl]
      have := lookup_none_forall hl p hp
      simp [occursB]
      omega
  | hc c as ih =>
    intro p hp
    rw [subApply_con]
    simp only [occursB, occursB_go_eq, List.any_eq_false]
    intro u hu
    rcases List.mem_map.mp hu with ⟨v, hv, rfl⟩
    exact Bool.eq_false_iff.mp (ih v hv p hp)

/-- Triangular substitutions are idempotent. -/
theorem subApply_idem {σ : List (Nat × Ty)} (hwf : WFS σ) (s : Ty) :
    subApply σ (subApply σ s) = subApply σ s := by
  apply subApply_of_notOccurs
  intro p hp
  exact domFree_subApply hwf s p hp

theorem notKey_of_subApply_var {σ : List (Nat × Ty)} (hwf : WFS σ) {s : Ty}
    {x : Nat} (h : subApply σ s = .var x) : ∀ p ∈ σ, p.1 ≠ x := by
  intro p hp he
  have := domFree_subApply hwf s p hp
  rw [h, he] at this
  simp [occursB] at this

/-- Applying an extension decomposes as the old substitution followed by
the new single binding. -/
theorem extendS_subApply {σ : List (Nat × Ty)} {x : Nat} (t : Ty)
    (hx : ∀ p ∈ σ, p.1 ≠ x) :
    ∀ s : Ty, subApply (extendS σ x t) s = subApply [(x, t)] (subApply σ s) := by
  intro s
  induction s using Ty.ind with
  | hv n =>
    by_cases hnx : n = x
    · subst hnx
      have hnone : σ.lookup n = none := lookup_eq_none_of hx
      simp [subApply, extendS, List.lookup, hnone]
    · have hne : (n == x) = false := by simp [hnx]
      simp only [subApply, extendS, List.lookup, hne, lookup_map_snd]
      cases hl : σ.lookup n with
      | some t0 => simp [subApply, hl]
      | none => simp [subApply, hl, List.lookup, hne]
  | hc c as ih =>
    rw [subApply_con, subApply_con, subApply_con, List.map_map]
    congr 1
    exact List.map_congr_left (fun u hu => ih u hu)

def Ext (σ σ2 : List (Nat × Ty)) : Prop :=
  ∀ s : Ty, subApply σ2 (subApply σ s) = subApply σ2 s

theorem Ext_refl {σ : List (Nat × Ty)} (hwf : WFS σ) : Ext σ σ :=
  fun s => subApply_idem hwf s

theorem Ext_trans {σ1 σ2 σ3 : List (Nat × Ty)} (h12 : Ext σ1 σ2)
    (h23 : Ext σ2 σ3) : Ext σ1 σ3 := by
  intro s
  calc subApply σ3 (subApply σ1 s)
      = subApply σ3 (subApply σ2 (subApply σ1 s)) := (h23 _).symm
    _ = subApply σ3 (subApply σ2 s) := by rw [h12 s]
    _ = subApply σ3 s := h23 s

/-- Equalities under a substitution persist under any extension. -/
theorem Ext_pers {σ σ2 : List (Nat × Ty)} (h : Ext σ σ2) {u v : Ty}
    (he : subApply σ u = subApply σ v) :
    subApply σ2 u = subApply σ2 v := by
  calc subApply σ2 u = subApply σ2 (subApply σ u) := (h u).symm
    _ = subApply σ2 (subApply σ v) := by rw [he]
    _ = subApply σ2 v := h v

theorem Ext_extendS {σ : List (Nat × Ty)} {x : Nat} {t : Ty} (hwf : WFS σ)
    (hx : ∀ p ∈ σ, p.1 ≠ x) : Ext σ (extendS σ x t) := by
  intro s
  rw [extendS_subApply t hx, extendS_subApply t hx, subApply_idem hwf]

theorem occursB_subApply_free {σ2 : List (Nat × Ty)} {y : Nat}
    (hr : ∀ p ∈ σ2, occursB y p.2 = false) :
    ∀ s : Ty, occursB y s = false → occursB y (subApply σ2 s) = false := by
  intro s
  induction s using Ty.ind with
  | hv n =>
    intro h
    cases hl : σ2.lookup n with
    | some t =>
      simp only [subApply, hl]
      exact hr (n, t) (lookup_mem hl)
    | none =>
      simp only [subApply, hl]
      exact h
  | hc c as ih =>
    intro h
    rw [subApply_con]
    simp only [occursB, occursB_go_eq, List.any_eq_false] at h ⊢
    intro u hu
    rcases List.mem_map.mp hu with ⟨v, hv, rfl⟩
    exact Bool.eq_false_iff.mp (ih v hv (Bool.eq_false_iff.mpr (h v hv)))

theorem occursB_subApply_single {x : Nat} {t : Ty} (ht : occursB x t = false) :
    ∀ s : Ty, occursB x (subApply [(x, t)] s) = false := by
  intro s
  induction s using Ty.ind with
  | hv n =>
    by_cases hnx : n = x
    · subst hnx
      simp [subApply, List.lookup, ht]
    · have hne : (n == x) = false := by simp [hnx]
      simp [subApply, List.lookup, hne, occursB, hnx]
  | hc c as ih =>
    rw [subApply_con]
    simp only [occursB, occursB_go_eq, List.any_eq_false]
    intro u hu
    rcases List.mem_map.mp hu with ⟨v, hv, rfl⟩
    exact Bool.eq_false_iff.mp (ih v hv)

theorem WFS_extendS {σ : List (Nat × Ty)} {x : Nat} {t : Ty} (hwf : WFS σ)
    (hx : ∀ p ∈ σ, p.1 ≠ x) (hxt : occursB x t = false)
    (hdt : ∀ p ∈ σ, occursB p.1 t = false) : WFS (extendS σ x t) := by
  constructor
  · intro p hp q hq
    rcases List.mem_cons.mp hp with hp1 | hp2
    · subst hp1
      rcases List.mem_cons.mp hq with hq1 | hq2
      · subst hq1
        exact hxt
      · rcases List.mem_map.mp hq2 with ⟨r, hr, rfl⟩
        exact occursB_subApply_single hxt r.2
    · rcases List.mem_map.mp hp2 with ⟨r, hr, rfl⟩
      rcases List.mem_cons.mp hq with hq1 | hq2
      · subst hq1
        exact hdt r hr
      · rcases List.mem_map.mp hq2 with ⟨r2, hr2, rfl⟩
        apply occursB_subApply_free
        · intro p hp
          rcases List.mem_cons.mp hp with h1 | h2
          · subst h1
            exact hdt r hr
          · cases h2
        · exact hwf.1 r hr r2 hr2
  · have hkeys : ((extendS σ x t).map (fun p => p.1)) =
        x :: σ.map (fun p => p.1) := by
      simp [extendS, List.map_map, Function.comp]
    rw [hkeys]
    refine List.nodup_cons.mpr ⟨?_, hwf.2⟩
    intro hmem
    rcases List.mem_map.mp hmem with ⟨p, hp, he⟩
    exact hx p hp he

theorem map_ext_getD {f : Ty → Ty} :
    ∀ as bs : List Ty, as.length = bs.length →
      (∀ i, i < as.length → f (as.getD i default) = f (bs.getD i default)) →
      as.map f = bs.map f := by
  intro as
  induction as with
  | nil =>
    intro bs hlen _
    cases bs with
    | nil => rfl
    | cons b bs => simp at hlen
  | cons a as ih =>
    intro bs hlen hp
    cases bs with
    | nil => simp at hlen
    | cons b bs =>
      simp only [List.map]
      have h0 := hp 0 (by simp)
      simp only [List.getD_cons_zero] at h0
      rw [h0]
      congr 1
      apply ih
      · simpa using hlen
      · intro i hi
        have := hp (i + 1) (by simpa using Nat.succ_lt_succ hi)
        simpa using this

theorem subApply_extendS_self {σ : List (Nat × Ty)} (x : Nat) (t : Ty) :
    subApply (extendS σ x t) (.var x) = t := by
  simp [subApply, extendS, List.lookup]

theorem unify_sound : ∀ fuel : Nat,
    (∀ σ a b σ2, WFS σ → unifyF fuel σ a b = some σ2 →
      WFS σ2 ∧ Ext σ σ2 ∧ subApply σ2 a = subApply σ2 b) ∧
    (∀ σ as bs σ2, WFS σ → as.length = bs.length →
      unifyList fuel σ as bs = some σ2 →
      WFS σ2 ∧ Ext σ σ2 ∧
        ∀ i, i < as.length →
          subApply σ2 (as.getD i default) = subApply σ2 (bs.getD i default)) := by
  intro fuel
  induction fuel with
  | zero =>
    constructor
    · intro σ a b σ2 _ h
      simp [unifyF] at h
    · intro σ as bs σ2 hwf _ h
      cases as with
      | nil =>
        simp only [unifyList, Option.some_inj] at h
        subst h
        exact ⟨hwf, Ext_refl hwf, fun i hi => by simp at hi⟩
      | cons a as => simp [unifyList] at h
  | succ fuel ih =>
    constructor
    · intro σ a b σ2 hwf h
      simp only [unifyF] at h
      split at h
      · rename_i x y ha hb
        by_cases hxy : x = y
        · subst hxy
          rw [if_pos rfl, Option.some_inj] at h
          subst h
          exact ⟨hwf, Ext_refl hwf, by rw [ha, hb]⟩
        · rw [if_neg hxy, Option.some_inj] at h
          subst h
          have hx := notKey_of_subApply_var hwf ha
          have hy := notKey_of_subApply_var hwf hb
          have hxt : occursB x (Ty.var y) = false := by
            simp [occursB]
            omega
          have hdt : ∀ p ∈ σ, occursB p.1 (Ty.var y) = false := by
            intro p hp
            simp [occursB]
            exact fun he => hy p hp he.symm
          have hwf2 := WFS_extendS hwf hx hxt hdt
          have hext := @Ext_extendS σ x (Ty.var y) hwf hx
          refine ⟨hwf2, hext, ?_⟩
          have h1 : subApply (extendS σ x (Ty.var y)) a =
              subApply (extendS σ x (Ty.var y)) (.var x) := by
            rw [← hext a, ha]
          have h2 : subApply (extendS σ x (Ty.var y)) b =
              subApply (extendS σ x (Ty.var y)) (.var y) := by
            rw [← hext b, hb]
          rw [h1, h2, subApply_extendS_self]
          have hyk : List.lookup y (extendS σ x (Ty.var y)) = none := by
            apply lookup_eq_none_of
            intro p hp
            rcases List.mem_cons.mp hp with h1 | h2
            · subst h1
              exact fun he => hxy he
            · rcases List.mem_map.mp h2 with ⟨r, hr, rfl⟩
              exact hy r hr
          simp [subApply, hyk]
      · rename_i x d bs2 ha hb
        split at h
        · cases h
        · rename_i hocc
          rw [Option.some_inj] at h
          subst h
          have hx := notKey_of_subApply_var hwf ha
          have hxt : occursB x (Ty.con d bs2) = false :=
            Bool.eq_false_iff.mpr hocc
          have hdt : ∀ p ∈ σ, occursB p.1 (Ty.con d bs2) = false := by
            intro p hp
            rw [← hb]
            exact domFree_subApply hwf b p hp
          have hwf2 := WFS_extendS hwf hx hxt hdt
          have hext := @Ext_extendS σ x (Ty.con d bs2) hwf hx
          refine ⟨hwf2, hext, ?_⟩
          have hfix : subApply (extendS σ x (Ty.con d bs2)) (Ty.con d bs2) =
              Ty.con d bs2 := by
            apply subApply_of_notOccurs
            intro p hp
            rcases List.mem_cons.mp hp with h1 | h2
            · subst h1
              exact hxt
            · rcases List.mem_map.mp h2 with ⟨r, hr, rfl⟩
              exact hdt r hr
          calc subApply (extendS σ x (Ty.con d bs2)) a
              = subApply (extendS σ x (Ty.con d bs2)) (.var x) := by
                rw [← hext a, ha]
            _ = Ty.con d bs2 := subApply_extendS_self x _
            _ = subApply (extendS σ x (Ty.con d bs2)) (Ty.con d bs2) :=
                hfix.symm
            _ = subApply (extendS σ x (Ty.con d bs2)) b := by
                rw [← hext b, hb]
      · rename_i c as2 y ha hb
        split at h
        · cases h
        · rename_i hocc
          rw [Option.some_inj] at h
          subst h
          have hy := notKey_of_subApply_var hwf hb
          have hyt : occursB y (Ty.con c as2) = false :=
            Bool.eq_false_iff.mpr hocc
          have hdt : ∀ p ∈ σ, occursB p.1 (Ty.con c as2) = false := by
            intro p hp
            rw [← ha]
            exact domFree_subApply hwf a p hp
          have hwf2 := WFS_extendS hwf hy hyt hdt
          have hext := @Ext_extendS σ y (Ty.con c as2) hwf hy
          refine ⟨hwf2, hext, ?_⟩
          have hfix : subApply (extendS σ y (Ty.con c as2)) (Ty.con c as2) =
              Ty.con c as2 := by
            apply subApply_of_notOccurs
            intro p hp
            rcases List.mem_cons.mp hp with h1 | h2
            · subst h1
              exact hyt
            · rcases List.mem_map.mp h2 with ⟨r, hr, rfl⟩
              exact hdt r hr
          calc subApply (extendS σ y (Ty.con c as2)) a
              = subApply (extendS σ y (Ty.con c as2)) (Ty.con c as2) := by
                rw [← hext a, ha]
            _ = Ty.con c as2 := hfix
            _ = subApply (extendS σ y (Ty.con c as2)) (.var y) :=
                (@subApply_extendS_self σ y (Ty.con c as2)).symm
            _ = subApply (extendS σ y (Ty.con c as2)) b := by
                rw [← hext b, hb]
      · rename_i c as2 d bs2 ha hb
        split at h
        · rename_i hg
          obtain ⟨hcd, hlen⟩ := hg
          obtain ⟨hwf2, hext, heqs⟩ := ih.2 σ as2 bs2 σ2 hwf hlen h
          refine ⟨hwf2, hext, ?_⟩
          calc subApply σ2 a = subApply σ2 (subApply σ a) := (hext a).symm
            _ = subApply σ2 (Ty.con c as2) := by rw [ha]
            _ = Ty.con c (as2.map (subApply σ2)) := subApply_con _ _ _
            _ = Ty.con d (bs2.map (subApply σ2)) := by
                rw [hcd, map_ext_getD as2 bs2 hlen heqs]
            _ = subApply σ2 (Ty.con d bs2) := (subApply_con _ _ _).symm
            _ = subApply σ2 (subApply σ b) := by rw [hb]
            _ = subApply σ2 b := hext b
        · cases h
    · intro σ as bs σ2 hwf hlen h
      cases as with
      | nil =>
        simp only [unifyList, Option.some_inj] at h
        subst h
        exact ⟨hwf, Ext_refl hwf, fun i hi => by simp at hi⟩
      | cons a as =>
        cases bs with
        | nil => simp at hlen
        | cons b bs =>
          simp only [unifyList, List.headD_cons, List.tail_cons] at h
          cases h1 : unifyF fuel σ a b with
          | none => rw [h1] at h; cases h
          | some σ1 =>
            rw [h1] at h
            obtain ⟨hwf1, hext1, heq1⟩ := ih.1 σ a b σ1 hwf h1
            have hlen2 : as.length = bs.length := by simpa using hlen
            obtain ⟨hwf2, hext2, heqs⟩ := ih.2 σ1 as bs σ2 hwf1 hlen2 h
            refine ⟨hwf2, Ext_trans hext1 hext2, ?_⟩
            intro i hi
            cases i with
            | zero =>
              simp only [List.getD_cons_zero]
              exact Ext_pers hext2 heq1
            | succ i =>
              simp only [List.getD_cons_succ]
              exact heqs i (by simpa using hi)

/-- AST subset for the inference walk: each node carries its type
variable, mirroring `Expr::typeVar` in the source. -/
inductive TExpr : Type where
  | tvarRef (name : String) (tv : Nat)
  | tapp (fn val : TExpr) (tv : Nat)
  | tlambda (name : String) (body : TExpr) (tv : Nat)
  | tlit (litName : String) (tv : Nat)
  deriving Repr, DecidableEq

def TExpr.tv : TExpr → Nat
  | .tvarRef _ t => t
  | .tapp _ _ t => t
  | .tlambda _ _ t => t
  | .tlit _ t => t

def subexprs : TExpr → List TExpr
  | .tvarRef n t => [.tvarRef n t]
  | .tapp f v t => .tapp f v t :: (subexprs f ++ subexprs v)
  | .tlambda n b t => .tlambda n b t :: subexprs b
  | .tlit l t => [.tlit l t]

/-- The function-type constructor (`FN` in the source, arity 2). -/
def fnName : String := "binary =>"

/-- The inference walk, translated from the source case order: `VarRef`
unifies the node with the binding (monomorphic subset), `App` explores
both children then unifies `fn` with a fresh `a → b`, then `a` with the
argument and `b` with the node; `Lambda` unifies the node with a fresh
`a → b`, explores the body with the parameter bound to `a`, then unifies
`b` with the body; `Literal` unifies the node with the literal's type.
State is the substitution plus a fresh-variable counter. -/
def explore (ufuel : Nat) :
    TExpr → List (String × Nat) → List (Nat × Ty) × Nat →
    Option (List (Nat × Ty) × Nat)
  | .tvarRef name tv, env, (σ, fr) =>
    match env.lookup name with
    | none => none
    | some tvn => (unifyF ufuel σ (.var tv) (.var tvn)).map (fun σ2 => (σ2, fr))
  | .tapp fn val tv, env, (σ, fr) =>
    match explore ufuel fn env (σ, fr) with
    | none => none
    | some (σ1, fr1) =>
      match explore ufuel val env (σ1, fr1) with
      | none => none
      | some (σ2, fr2) =>
        match unifyF ufuel σ2 (.var fn.tv)
            (.con fnName [.var fr2, .var (fr2 + 1)]) with
        | none => none
        | some σ3 =>
          match unifyF ufuel σ3 (.var fr2) (.var val.tv) with
          | none => none
          | some σ4 =>
            match unifyF ufuel σ4 (.var (fr2 + 1)) (.var tv) with
            | none => none
            | some σ5 => some (σ5, fr2 + 2)
  | .tlambda name body tv, env, (σ, fr) =>
    match unifyF ufuel σ (.var tv) (.con fnName [.var fr, .var (fr + 1)]) with
    | none => none
    | some σ1 =>
      match explore ufuel body ((name, fr) :: env) (σ1, fr + 2) with
      | none => none
      | some (σ2, fr2) =>
        (unifyF ufuel σ2 (.var (fr + 1)) (.var body.tv)).map
          (fun σ3 => (σ3, fr2))
  | .tlit litName tv, _, (σ, fr) =>
    (unifyF ufuel σ (.var tv) (.con litName [])).map (fun σ2 => (σ2, fr))

/-- The claimed `App` invariant, read off a substitution. -/
def AppPost (σ : List (Nat × Ty)) (fn val : TExpr) (tv : Nat) : Prop :=
  subApply σ (.var fn.tv) =
    .con fnName [subApply σ (.var val.tv), subApply σ (.var tv)]

theorem AppPost_pers {σ σ2 : List (Nat × Ty)} {fn val : TExpr} {tv : Nat}
    (hext : Ext σ σ2) (h : AppPost σ fn val tv) : AppPost σ2 fn val tv := by
  unfold AppPost at h ⊢
  calc subApply σ2 (.var fn.tv)
      = subApply σ2 (subApply σ (.var fn.tv)) := (hext _).symm
    _ = subApply σ2 (.con fnName
          [subApply σ (.var val.tv), subApply σ (.var tv)]) := by rw [h]
    _ = .con fnName [subApply σ2 (subApply σ (.var val.tv)),
          subApply σ2 (subApply σ (.var tv))] := by
        rw [subApply_con]
        rfl
    _ = .con fnName [subApply σ2 (.var val.tv), subApply σ2 (.var tv)] := by
        rw [hext (Ty.var val.tv), hext (Ty.var tv)]

theorem explore_sound (ufuel : Nat) :
    ∀ (e : TExpr) (env : List (String × Nat)) (σ : List (Nat × Ty)) (fr : Nat)
      (out : List (Nat × Ty) × Nat), WFS σ →
      explore ufuel e env (σ, fr) = some out →
      WFS out.1 ∧ Ext σ out.1 ∧
        ∀ fn val tv, TExpr.tapp fn val tv ∈ subexprs e →
          AppPost out.1 fn val tv := by
  intro e
  induction e with
  | tvarRef name tv =>
    intro env σ fr out hwf h
    simp only [explore] at h
    cases hl : env.lookup name with
    | none => rw [hl] at h; simp at h
    | some tvn =>
      rw [hl] at h
      dsimp only at h
      cases hu : unifyF ufuel σ (.var tv) (.var tvn) with
      | none => rw [hu] at h; simp at h
      | some σ2 =>
        rw [hu] at h
        dsimp only [Option.map] at h
        rw [Option.some_inj] at h
        obtain ⟨hwf2, hext, _⟩ := (unify_sound ufuel).1 σ _ _ σ2 hwf hu
        subst h
        refine ⟨hwf2, hext, ?_⟩
        intro fn val tv2 hmem
        simp [subexprs] at hmem
  | tapp fn val tv ihf ihv =>
    intro env σ fr out hwf h
    simp only [explore] at h
    cases h1 : explore ufuel fn env (σ, fr) with
    | none => rw [h1] at h; simp at h
    | some p1 =>
      rw [h1] at h
      dsimp only at h
      obtain ⟨σ1, fr1⟩ := p1
      dsimp only at h
      cases h2 : explore ufuel val env (σ1, fr1) with
      | none => rw [h2] at h; simp at h
      | some p2 =>
        rw [h2] at h
        dsimp only at h
        obtain ⟨σ2, fr2⟩ := p2
        dsimp only at h
        cases h3 : unifyF ufuel σ2 (.var fn.tv)
            (.con fnName [.var fr2, .var (fr2 + 1)]) with
        | none => rw [h3] at h; simp at h
        | some σ3 =>
          rw [h3] at h
          dsimp only at h
          cases h4 : unifyF ufuel σ3 (.var fr2) (.var val.tv) with
          | none => rw [h4] at h; simp at h
          | some σ4 =>
            rw [h4] at h
            dsimp only at h
            cases h5 : unifyF ufuel σ4 (.var (fr2 + 1)) (.var tv) with
            | none => rw [h5] at h; simp at h
            | some σ5 =>
              rw [h5] at h
              dsimp only at h
              rw [Option.some_inj] at h
              obtain ⟨hwf1, hext1, hpost1⟩ := ihf env σ fr (σ1, fr1) hwf h1
              obtain ⟨hwf2, hext2, hpost2⟩ := ihv env σ1 fr1 (σ2, fr2) hwf1 h2
              obtain ⟨hwf3, hext3, heq3⟩ :=
                (unify_sound ufuel).1 σ2 _ _ σ3 hwf2 h3
              obtain ⟨hwf4, hext4, heq4⟩ :=
                (unify_sound ufuel).1 σ3 _ _ σ4 hwf3 h4
              obtain ⟨hwf5, hext5, heq5⟩ :=
                (unify_sound ufuel).1 σ4 _ _ σ5 hwf4 h5
              have hout1 : out.1 = σ5 := by rw [← h]
              have hext35 : Ext σ3 σ5 := Ext_trans hext4 hext5
              have hnode : AppPost σ5 fn val tv := by
                unfold AppPost
                have ha : subApply σ5 (.var fn.tv) =
                    subApply σ5 (.con fnName [.var fr2, .var (fr2 + 1)]) :=
                  Ext_pers hext35 heq3
                have hb : subApply σ5 (.var fr2) =
                    subApply σ5 (.var val.tv) := Ext_pers hext5 heq4
                rw [ha, subApply_con]
                simp only [List.map]
                rw [hb, heq5]
              refine ⟨hout1 ▸ hwf5,
                hout1 ▸ Ext_trans hext1 (Ext_trans hext2
                  (Ext_trans hext3 hext35)), ?_⟩
              intro fn2 val2 tv2 hmem
              simp only [subexprs, List.mem_cons, List.mem_append] at hmem
              rcases hmem with hm0 | hmf | hmv
              · injection hm0 with e1 e2 e3
                subst e1
                subst e2
                subst e3
                exact hout1 ▸ hnode
              · exact hout1 ▸ AppPost_pers
                  (Ext_trans hext2 (Ext_trans hext3 hext35))
                  (hpost1 fn2 val2 tv2 hmf)
              · exact hout1 ▸ AppPost_pers (Ext_trans hext3 hext35)
                  (hpost2 fn2 val2 tv2 hmv)
  | tlambda name body tv ihb =>
    intro env σ fr out hwf h
    simp only [explore] at h
    cases h1 : unifyF ufuel σ (.var tv)
        (.con fnName [.var fr, .var (fr + 1)]) with
    | none => rw [h1] at h; simp at h
    | some σ1 =>
      rw [h1] at h
      dsimp only at h
      cases h2 : explore ufuel body ((name, fr) :: env) (σ1, fr + 2) with
      | none => rw [h2] at h; simp at h
      | some p2 =>
        rw [h2] at h
        dsimp only at h
        obtain ⟨σ2, fr2⟩ := p2
        dsimp only at h
        cases h3 : unifyF ufuel σ2 (.var (fr + 1)) (.var body.tv) with
        | none => rw [h3] at h; simp at h
        | some σ3 =>
          rw [h3] at h
          dsimp only [Option.map] at h
          rw [Option.some_inj] at h
          obtain ⟨hwf1, hext1, _⟩ := (unify_sound ufuel).1 σ _ _ σ1 hwf h1
          obtain ⟨hwf2, hext2, hpost2⟩ :=
            ihb ((name, fr) :: env) σ1 (fr + 2) (σ2, fr2) hwf1 h2
          obtain ⟨hwf3, hext3, _⟩ := (unify_sound ufuel).1 σ2 _ _ σ3 hwf2 h3
          have hout1 : out.1 = σ3 := by rw [← h]
          refine ⟨hout1 ▸ hwf3,
            hout1 ▸ Ext_trans hext1 (Ext_trans hext2 hext3), ?_⟩
          intro fn2 val2 tv2 hmem
          simp only [subexprs, List.mem_cons] at hmem
          rcases hmem with hm0 | hmb
          · cases hm0
          · exact hout1 ▸ AppPost_pers hext3 (hpost2 fn2 val2 tv2 hmb)
  | tlit litName tv =>
    intro env σ fr out hwf h
    simp only [explore] at h
    cases hu : unifyF ufuel σ (.var tv) (.con litName []) with
    | none => rw [hu] at h; simp at h
    | some σ2 =>
      rw [hu] at h
      dsimp only [Option.map] at h
      rw [Option.some_inj] at h
      obtain ⟨hwf2, hext, _⟩ := (unify_sound ufuel).1 σ _ _ σ2 hwf hu
      subst h
      refine ⟨hwf2, hext, ?_⟩
      intro fn val tv2 hmem
      simp [subexprs] at hmem

/-- C4: for every `App` node of an expression on which the inference walk
`explore` succeeds, the function child's type resolves to a function type
`a → b` whose domain `a` equals the resolved type of the argument child
and whose codomain `b` equals the resolved type of the `App` node itself
(`explore` unifies the function child with `a → b`, then `a` with the
argument and `b` with the node, and every later unification extends the
substitution, preserving these equalities). -/
theorem claim_C4_app_function_type (ufuel : Nat) (e : TExpr)
    (env : List (String × Nat)) (σ0 : List (Nat × Ty)) (fr0 : Nat)
    (out : List (Nat × Ty) × Nat) (hwf : WFS σ0)
    (h : explore ufuel e env (σ0, fr0) = some out)
    (fn val : TExpr) (tv : Nat)
    (hmem : TExpr.tapp fn val tv ∈ subexprs e) :
    subApply out.1 (.var fn.tv) =
      .con fnName [subApply out.1 (.var val.tv), subApply out.1 (.var tv)] :=
  (explore_sound ufuel e env σ0 fr0 out hwf h).2.2 fn val tv hmem

theorem claim_C4_app_function_type_witness :
    explore 10 (TExpr.tapp (TExpr.tlambda "x" (TExpr.tvarRef "x" 1) 0)
        (TExpr.tlit "Int" 2) 3) [] ([], 10) =
      some ([(3, Ty.con "Int" []), (13, Ty.con "Int" []),
        (12, Ty.con "Int" []), (10, Ty.con "Int" []), (2, Ty.con "Int" []),
        (11, Ty.con "Int" []), (1, Ty.con "Int" []),
        (0, Ty.con "binary =>" [Ty.con "Int" [], Ty.con "Int" []])], 14) ∧
    subApply [(3, Ty.con "Int" []), (13, Ty.con "Int" []),
        (12, Ty.con "Int" []), (10, Ty.con "Int" []), (2, Ty.con "Int" []),
        (11, Ty.con "Int" []), (1, Ty.con "Int" []),
        (0, Ty.con "binary =>" [Ty.con "Int" [], Ty.con "Int" []])]
        (.var 0) =
      .con fnName [subApply [(3, Ty.con "Int" []), (13, Ty.con "Int" []),
        (12, Ty.con "Int" []), (10, Ty.con "Int" []), (2, Ty.con "Int" []),
        (11, Ty.con "Int" []), (1, Ty.con "Int" []),
        (0, Ty.con "binary =>" [Ty.con "Int" [], Ty.con "Int" []])]
        (.var 2),
        subApply [(3, Ty.con "Int" []), (13, Ty.con "Int" []),
        (12, Ty.con "Int" []), (10, Ty.con "Int" []), (2, Ty.con "Int" []),
        (11, Ty.con "Int" []), (1, Ty.con "Int" []),
        (0, Ty.con "binary =>" [Ty.con "Int" [], Ty.con "Int" []])]
        (.var 3)] :=
  ⟨rfl, claim_C4_app_function_type 10
    (TExpr.tapp (TExpr.tlambda "x" (TExpr.tvarRef "x" 1) 0)
      (TExpr.tlit "Int" 2) 3) [] [] 10
    ([(3, Ty.con "Int" []), (13, Ty.con "Int" []),
      (12, Ty.con "Int" []), (10, Ty.con "Int" []), (2, Ty.con "Int" []),
      (11, Ty.con "Int" []), (1, Ty.con "Int" []),
      (0, Ty.con "binary =>" [Ty.con "Int" [], Ty.con "Int" []])], 14)
    ⟨by simp, by simp⟩ rfl
    (TExpr.tlambda "x" (TExpr.tvarRef "x" 1) 0) (TExpr.tlit "Int" 2) 3
    (by decide)⟩

/-! ## SCC numbering in fracture_binding (C2)

`fracture_binding` (part_000 lines 149-178) processes one level at a
time: non-lambda definitions go to `val`, lambda definitions get
`index = -1`, and Tarjan's algorithm `SCC` (lines 52-87) is run from
each still-unvisited lambda, emitting strongly connected components
into the `fun` vector with `scc` ids.  The embedding below models the
definition store as total functions (`adj` = edge sets, `lam` = the lambda flag, `lvl` = the level map `d`); the per-node fields
`index`/`lowlink`/`onstack` and the emission vectors live in an
explicit state. -/

structure TarjanSt : Type where
  idxA : Nat → Int
  lowA : Nat → Int
  onA : Nat → Bool
  stk : List Nat
  funv : List Nat
  sccv : List Nat
  cnt : Nat

def upd {α : Type} (f : Nat → α) (k : Nat) (x : α) : Nat → α :=
  fun m => if m = k then x else f m

section SCCAlg

variable (adj : Nat → List Nat) (lam : Nat → Bool) (lvl : Nat → Nat) (L : Nat)

/-- The emission loop at lines 76-85: pop the stack down to `v`,
moving nodes into `fun` with the common scc id. -/
def sccPop (v : Nat) (sid : Nat) : List Nat → TarjanSt → TarjanSt
  | [], st => st
  | w :: rest, st =>
    let st2 : TarjanSt :=
      { st with
        stk := rest
        onA := upd st.onA w false
        funv := st.funv ++ [w]
        sccv := st.sccv ++ [sid] }
    if w = v then st2 else sccPop v sid rest st2

mutual

/-- `SCC` (lines 52-87): assign index/lowlink, push, scan edges, and
emit the component if `v` is a root. -/
def sccVisit : Nat → Nat → TarjanSt → Option TarjanSt
  | 0, _, _ => none
  | fuel + 1, v, st =>
    let st1 : TarjanSt :=
      { st with
        idxA := upd st.idxA v ((st.cnt : Int))
        lowA := upd st.lowA v ((st.cnt : Int))
        cnt := st.cnt + 1
        stk := v :: st.stk
        onA := upd st.onA v true }
    match sccEdges fuel v (adj v) st1 with
    | none => none
    | some st2 =>
      if st2.lowA v = st2.idxA v then
        some (sccPop v st2.funv.length st2.stk st2)
      else some st2

/-- The edge loop at lines 62-72: skip out-of-level targets, recurse
into unvisited lambdas, and take on-stack indices into the lowlink. -/
def sccEdges : Nat → Nat → List Nat → TarjanSt → Option TarjanSt
  | _, _, [], st => some st
  | 0, _, _ :: _, _ => none
  | fuel + 1, v, w :: ws, st =>
    if lvl w ≠ L then sccEdges fuel v ws st
    else if st.idxA w = -1 ∧ lam w = true then
      match sccVisit fuel w st with
      | none => none
      | some st3 =>
        sccEdges fuel v ws
          { st3 with lowA := upd st3.lowA v (min (st3.lowA v) (st3.lowA w)) }
    else if st.onA w then
      sccEdges fuel v ws
        { st with lowA := upd st.lowA v (min (st.lowA v) (st.idxA w)) }
    else sccEdges fuel v ws st

end

/-- The driver loop at lines 174-176: start a visit from every
still-unvisited lambda of the level, in list order. -/
def sccLevel (fuel : Nat) : List Nat → TarjanSt → Option TarjanSt
  | [], st => some st
  | j :: js, st =>
    if st.idxA j = -1 ∧ lam j = true then
      match sccVisit adj lam lvl L fuel j st with
      | none => none
      | some st2 => sccLevel fuel js st2
    else sccLevel fuel js st

/-- In-level lambda definitions: the vertices Tarjan's pass walks. -/
def goodV (v : Nat) : Prop := lvl v = L ∧ lam v = true

/-- One in-level reference between lambda definitions. -/
def stepG (a b : Nat) : Prop := goodV lam lvl L a ∧ goodV lam lvl L b ∧ b ∈ adj a

/-- Reachability along in-level lambda-to-lambda references. -/
def ReachG : Nat → Nat → Prop := Relation.ReflTransGen (stepG adj lam lvl L)

/-- One in-level reference between definitions of any kind (the
relation named by the claim). -/
def stepL (a b : Nat) : Prop := lvl a = L ∧ lvl b = L ∧ b ∈ adj a

/-- In-level reachability through definitions of any kind. -/
def ReachL : Nat → Nat → Prop := Relation.ReflTransGen (stepL adj lvl L)

end SCCAlg

section SCCProof

variable (adj : Nat → List Nat) (lam : Nat → Bool) (lvl : Nat → Nat) (L : Nat)

/-- Well-formedness invariant of the Tarjan state between steps. -/
structure Inv (st : TarjanSt) : Prop where
  stkGood : ∀ v ∈ st.stk, goodV lam lvl L v
  stkNodup : st.stk.Nodup
  stkOn : ∀ v, goodV lam lvl L v → (st.onA v = true ↔ v ∈ st.stk)
  funGood : ∀ v ∈ st.funv, goodV lam lvl L v
  funNodup : st.funv.Nodup
  disj : ∀ v ∈ st.funv, v ∉ st.stk
  visited : ∀ v, goodV lam lvl L v →
    (st.idxA v ≠ -1 ↔ (v ∈ st.stk ∨ v ∈ st.funv))
  idxBound : ∀ v, goodV lam lvl L v → st.idxA v ≠ -1 →
    0 ≤ st.idxA v ∧ st.idxA v < (st.cnt : Int)
  idxInj : ∀ u v, goodV lam lvl L u → goodV lam lvl L v → u ≠ v →
    st.idxA u ≠ -1 → st.idxA v ≠ -1 → st.idxA u ≠ st.idxA v
  nonLam : ∀ v, lvl v = L → lam v = false → st.idxA v = 0 ∧ st.onA v = false
  stkSorted : List.Pairwise (fun a b => st.idxA b < st.idxA a) st.stk
  funClosed : ∀ v ∈ st.funv, ∀ u, stepG adj lam lvl L v u → u ∈ st.funv
  lowReal : ∀ v ∈ st.stk, st.lowA v ≤ st.idxA v ∧
    ∃ u, u ∈ st.stk ∧ st.idxA u = st.lowA v ∧ ReachG adj lam lvl L v u
  lenscc : st.sccv.length = st.funv.length
  sccLe : ∀ i, i < st.sccv.length → st.sccv.getD i 0 ≤ i
  sccIdem : ∀ i, i < st.sccv.length →
    st.sccv.getD (st.sccv.getD i 0) 0 = st.sccv.getD i 0
  sccConvex : ∀ i k j, i ≤ k → k ≤ j → j < st.sccv.length →
    st.sccv.getD i 0 = st.sccv.getD j 0 → st.sccv.getD k 0 = st.sccv.getD i 0
  sccIff : ∀ i j, i < st.funv.length → j < st.funv.length →
    (st.sccv.getD i 0 = st.sccv.getD j 0 ↔
      (ReachG adj lam lvl L (st.funv.getD i 0) (st.funv.getD j 0) ∧
       ReachG adj lam lvl L (st.funv.getD j 0) (st.funv.getD i 0)))

/-- Every stack entry reaches an active ("gray") node at or below its
own index. -/
def INVA (st : TarjanSt) (grays : List Nat) : Prop :=
  ∀ y ∈ st.stk, ∃ g ∈ grays, st.idxA g ≤ st.idxA y ∧ ReachG adj lam lvl L y g

theorem sccPop_spec (v sid : Nat) : ∀ (P R : List Nat) (st : TarjanSt),
    v ∉ P →
    (sccPop v sid (P ++ v :: R) st).idxA = st.idxA ∧
    (sccPop v sid (P ++ v :: R) st).lowA = st.lowA ∧
    (sccPop v sid (P ++ v :: R) st).cnt = st.cnt ∧
    (sccPop v sid (P ++ v :: R) st).stk = R ∧
    (sccPop v sid (P ++ v :: R) st).funv = st.funv ++ (P ++ [v]) ∧
    (sccPop v sid (P ++ v :: R) st).sccv =
      st.sccv ++ List.replicate (P.length + 1) sid ∧
    (∀ m, m ∉ P → m ≠ v → (sccPop v sid (P ++ v :: R) st).onA m = st.onA m) ∧
    (∀ m, m ∈ P ∨ m = v → (sccPop v sid (P ++ v :: R) st).onA m = false) := by
  intro P
  induction P with
  | nil =>
    intro R st _
    simp only [List.nil_append, sccPop, if_pos rfl]
    refine ⟨rfl, rfl, rfl, rfl, by simp, by simp, ?_, ?_⟩
    · intro m _ hmv
      simp [upd, hmv]
    · intro m hm
      rcases hm with hm | hm
      · cases hm
      · subst hm
        simp [upd]
  | cons w P ih =>
    intro R st hv
    have hwv : w ≠ v := by
      intro he
      exact hv (he ▸ List.mem_cons_self _ _)
    have hvP : v ∉ P := fun hc => hv (List.mem_cons_of_mem _ hc)
    simp only [List.cons_append, sccPop, if_neg hwv, List.append_eq]
    obtain ⟨e1, e2, e3, e4, e5, e6, e7, e8⟩ := ih R
      { st with
        stk := P ++ v :: R
        onA := upd st.onA w false
        funv := st.funv ++ [w]
        sccv := st.sccv ++ [sid] } hvP
    refine ⟨e1, e2, e3, e4, ?_, ?_, ?_, ?_⟩
    · rw [e5]
      simp
    · rw [e6]
      simp [List.replicate_succ]
    · intro m hm hmv
      have hmP : m ∉ P := fun hc => hm (List.mem_cons_of_mem _ hc)
      have hmw : m ≠ w := by
        intro he
        exact hm (he ▸ List.mem_cons_self _ _)
      rw [e7 m hmP hmv]
      simp [upd, hmw]
    · intro m hm
      rcases hm with hm | hm
      · rcases List.mem_cons.mp hm with hm1 | hm2
        · subst hm1
          by_cases hmP : m ∈ P
          · exact e8 m (Or.inl hmP)
          · rw [e7 m hmP hwv]
            simp [upd]
        · exact e8 m (Or.inl hm2)
      · exact e8 m (Or.inr hm)

end SCCProof

section SCCProof2

variable (adj : Nat → List Nat) (lam : Nat → Bool) (lvl : Nat → Nat) (L : Nat)

/-- Postcondition of a completed `sccVisit v` relative to its entry
state. -/
structure VPost (st st2 : TarjanSt) (v : Nat) : Prop where
  idxFrame : ∀ u, st.idxA u ≠ -1 → st2.idxA u = st.idxA u
  lowFrame : ∀ u, st.idxA u ≠ -1 → st2.lowA u = st.lowA u
  cntMono : st.cnt ≤ st2.cnt
  newIdx : ∀ u, st.idxA u = -1 → st2.idxA u ≠ -1 →
    (st.cnt : Int) ≤ st2.idxA u
  newGood : ∀ u, st.idxA u = -1 → st2.idxA u ≠ -1 →
    goodV lam lvl L u ∧ ReachG adj lam lvl L v u
  funExt : ∃ Δ, st2.funv = st.funv ++ Δ
  stkExt : ∃ New, st2.stk = New ++ st.stk ∧ ∀ u ∈ New, st.idxA u = -1
  onFrame : ∀ u ∈ st.stk, st2.onA u = st.onA u
  vIdx : st2.idxA v = (st.cnt : Int)
  edgeClosure : ∀ y, st.idxA y = -1 → st2.idxA y ≠ -1 → y ∈ st2.stk →
    ∀ u, u ∈ adj y → goodV lam lvl L u →
      (st.idxA u = -1 ∧ st2.idxA u ≠ -1) ∨ u ∈ st2.funv ∨
      (u ∈ st2.stk ∧ st2.idxA u < st2.idxA v ∧ st2.lowA v ≤ st2.idxA u)
  rootOr : (v ∈ st2.funv ∧ st2.stk = st.stk ∧ st2.lowA v = st2.idxA v ∧
      (∀ u, st.idxA u = -1 → st2.idxA u ≠ -1 → u ∈ st2.funv)) ∨
    (v ∈ st2.stk ∧ st2.lowA v < st2.idxA v)

/-- The edge trichotomy: a scanned target is either in the current
root's subtree era (index at or above the root's), already emitted, or
an on-stack node of smaller index already accounted in the root's
lowlink. -/
def TRI (s : TarjanSt) (v u : Nat) : Prop :=
  s.idxA u ≠ -1 ∧ (s.idxA v ≤ s.idxA u ∨ u ∈ s.funv ∨
    (u ∈ s.stk ∧ s.idxA u < s.idxA v ∧ s.lowA v ≤ s.idxA u))

/-- Postcondition of a completed `sccEdges v ws` run relative to its
entry state (`v` already pushed). -/
structure EPost (st st2 : TarjanSt) (v : Nat) (ws : List Nat) : Prop where
  idxFrame : ∀ u, st.idxA u ≠ -1 → st2.idxA u = st.idxA u
  lowFrame : ∀ u, u ≠ v → st.idxA u ≠ -1 → st2.lowA u = st.lowA u
  lowMono : st2.lowA v ≤ st.lowA v
  cntMono : st.cnt ≤ st2.cnt
  newIdx : ∀ u, st.idxA u = -1 → st2.idxA u ≠ -1 →
    (st.cnt : Int) ≤ st2.idxA u
  newGood : ∀ u, st.idxA u = -1 → st2.idxA u ≠ -1 →
    goodV lam lvl L u ∧ ReachG adj lam lvl L v u
  funExt : ∃ Δ, st2.funv = st.funv ++ Δ
  stkExt : ∃ New, st2.stk = New ++ st.stk ∧ ∀ u ∈ New, st.idxA u = -1
  onFrame : ∀ u ∈ st.stk, st2.onA u = st.onA u
  ecOut : ∀ y ∈ st2.stk, st2.idxA v < st2.idxA y →
    ∀ u, u ∈ adj y → goodV lam lvl L u → TRI st2 v u
  uDone : ∀ u ∈ ws, goodV lam lvl L u → TRI st2 v u

end SCCProof2

section SCCProof3

variable (adj : Nat → List Nat) (lam : Nat → Bool) (lvl : Nat → Nat) (L : Nat)

def pushSt (v : Nat) (st : TarjanSt) : TarjanSt :=
  { st with
    idxA := upd st.idxA v ((st.cnt : Int))
    lowA := upd st.lowA v ((st.cnt : Int))
    cnt := st.cnt + 1
    stk := v :: st.stk
    onA := upd st.onA v true }

theorem upd_self {α : Type} (f : Nat → α) (k : Nat) (x : α) :
    upd f k x k = x := by
  simp [upd]

theorem upd_other {α : Type} (f : Nat → α) (k : Nat) (x : α) {m : Nat}
    (h : m ≠ k) : upd f k x m = f m := by
  simp [upd, h]

theorem pushSt_idxA (v : Nat) (st : TarjanSt) :
    (pushSt v st).idxA = upd st.idxA v ((st.cnt : Int)) := rfl

theorem pushSt_lowA (v : Nat) (st : TarjanSt) :
    (pushSt v st).lowA = upd st.lowA v ((st.cnt : Int)) := rfl

theorem pushSt_onA (v : Nat) (st : TarjanSt) :
    (pushSt v st).onA = upd st.onA v true := rfl

theorem pushSt_stk (v : Nat) (st : TarjanSt) :
    (pushSt v st).stk = v :: st.stk := rfl

theorem pushSt_cnt (v : Nat) (st : TarjanSt) :
    (pushSt v st).cnt = st.cnt + 1 := rfl

theorem pushSt_funv (v : Nat) (st : TarjanSt) :
    (pushSt v st).funv = st.funv := rfl

theorem pushSt_sccv (v : Nat) (st : TarjanSt) :
    (pushSt v st).sccv = st.sccv := rfl

theorem reach_single {a b : Nat} (h : stepG adj lam lvl L a b) :
    ReachG adj lam lvl L a b :=
  Relation.ReflTransGen.single h

theorem reach_refl (a : Nat) : ReachG adj lam lvl L a a :=
  Relation.ReflTransGen.refl

theorem reach_trans {a b c : Nat} (h1 : ReachG adj lam lvl L a b)
    (h2 : ReachG adj lam lvl L b c) : ReachG adj lam lvl L a c :=
  Relation.ReflTransGen.trans h1 h2

/-- `funv` is closed under reachability, not just single steps. -/
theorem funvReach {st : TarjanSt} (hinv : Inv adj lam lvl L st) {a b : Nat}
    (ha : a ∈ st.funv) (h : ReachG adj lam lvl L a b) : b ∈ st.funv := by
  induction h with
  | refl => exact ha
  | tail _ hstep ih => exact hinv.funClosed _ ih _ hstep

theorem unvisited_not_stk {st : TarjanSt} (hinv : Inv adj lam lvl L st)
    {v : Nat} (hg : goodV lam lvl L v) (hun : st.idxA v = -1) :
    v ∉ st.stk := by
  intro hc
  exact (hinv.visited v hg).mpr (Or.inl hc) hun

theorem unvisited_not_funv {st : TarjanSt} (hinv : Inv adj lam lvl L st)
    {v : Nat} (hg : goodV lam lvl L v) (hun : st.idxA v = -1) :
    v ∉ st.funv := by
  intro hc
  exact (hinv.visited v hg).mpr (Or.inr hc) hun

theorem stk_idx_lt_cnt {st : TarjanSt} (hinv : Inv adj lam lvl L st)
    {u : Nat} (hu : u ∈ st.stk) :
    0 ≤ st.idxA u ∧ st.idxA u < (st.cnt : Int) := by
  have hgu := hinv.stkGood u hu
  exact hinv.idxBound u hgu ((hinv.visited u hgu).mpr (Or.inl hu))

theorem push_inv {st : TarjanSt} {v : Nat} (hinv : Inv adj lam lvl L st)
    (hg : goodV lam lvl L v) (hun : st.idxA v = -1) :
    Inv adj lam lvl L (pushSt v st) := by
  have hvstk : v ∉ st.stk := unvisited_not_stk adj lam lvl L hinv hg hun
  have hvfun : v ∉ st.funv := unvisited_not_funv adj lam lvl L hinv hg hun
  have hstkv : ∀ u ∈ st.stk, u ≠ v := fun u hu he => hvstk (he ▸ hu)
  have hfunv : ∀ u ∈ st.funv, u ≠ v := fun u hu he => hvfun (he ▸ hu)
  refine
    { stkGood := ?_, stkNodup := ?_, stkOn := ?_, funGood := ?_
      funNodup := ?_, disj := ?_, visited := ?_, idxBound := ?_
      idxInj := ?_, nonLam := ?_, stkSorted := ?_, funClosed := ?_
      lowReal := ?_, lenscc := ?_, sccLe := ?_, sccIdem := ?_
      sccConvex := ?_, sccIff := ?_ }
  · intro u hu
    rcases List.mem_cons.mp hu with h1 | h2
    · exact h1 ▸ hg
    · exact hinv.stkGood u h2
  · exact List.nodup_cons.mpr ⟨hvstk, hinv.stkNodup⟩
  · intro u hgu
    rw [pushSt_onA, pushSt_stk]
    by_cases huv : u = v
    · subst huv
      rw [upd_self]
      exact ⟨fun _ => List.mem_cons_self _ _, fun _ => rfl⟩
    · rw [upd_other _ _ _ huv]
      rw [hinv.stkOn u hgu]
      exact ⟨fun h => List.mem_cons_of_mem _ h,
        fun h => (List.mem_cons.mp h).resolve_left huv⟩
  · intro u hu
    exact hinv.funGood u hu
  · exact hinv.funNodup
  · intro u hu hc
    rw [pushSt_stk] at hc
    rcases List.mem_cons.mp hc with h1 | h2
    · exact hfunv u hu h1
    · exact hinv.disj u hu h2
  · intro u hgu
    rw [pushSt_idxA, pushSt_stk, pushSt_funv]
    by_cases huv : u = v
    · subst huv
      rw [upd_self]
      refine ⟨fun _ => Or.inl (List.mem_cons_self _ _), fun _ => ?_⟩
      intro hc
      omega
    · rw [upd_other _ _ _ huv, hinv.visited u hgu]
      constructor
      · intro h
        rcases h with h | h
        · exact Or.inl (List.mem_cons_of_mem _ h)
        · exact Or.inr h
      · intro h
        rcases h with h | h
        · exact Or.inl ((List.mem_cons.mp h).resolve_left huv)
        · exact Or.inr h
  · intro u hgu hne
    rw [pushSt_idxA, pushSt_cnt]
    rw [pushSt_idxA] at hne
    by_cases huv : u = v
    · subst huv
      rw [upd_self]
      omega
    · rw [upd_other _ _ _ huv] at hne ⊢
      have := hinv.idxBound u hgu hne
      omega
  · intro u w hgu hgw hne hnu hnw
    rw [pushSt_idxA] at hnu hnw ⊢
    by_cases huv : u = v
    · have hwv : w ≠ v := fun he => hne (huv.trans he.symm)
      rw [huv, upd_self] at *
      rw [upd_other _ _ _ hwv] at hnw ⊢
      have := hinv.idxBound w hgw hnw
      omega
    · by_cases hwv : w = v
      · rw [hwv, upd_self] at *
        rw [upd_other _ _ _ huv] at hnu ⊢
        have := hinv.idxBound u hgu hnu
        omega
      · rw [upd_other _ _ _ huv] at hnu ⊢
        rw [upd_other _ _ _ hwv] at hnw ⊢
        exact hinv.idxInj u w hgu hgw hne hnu hnw
  · intro u hl hnl
    have huv : u ≠ v := by
      intro he
      rw [he, hg.2] at hnl
      cases hnl
    rw [pushSt_idxA, pushSt_onA, upd_other _ _ _ huv, upd_other _ _ _ huv]
    exact hinv.nonLam u hl hnl
  · rw [pushSt_stk]
    refine List.pairwise_cons.mpr ⟨?_, ?_⟩
    · intro u hu
      rw [pushSt_idxA, upd_self, upd_other _ _ _ (hstkv u hu)]
      exact (stk_idx_lt_cnt adj lam lvl L hinv hu).2
    · refine List.Pairwise.imp_of_mem ?_ hinv.stkSorted
      intro a b ha hb hab
      rw [pushSt_idxA, upd_other _ _ _ (hstkv a ha),
        upd_other _ _ _ (hstkv b hb)]
      exact hab
  · intro u hu w hw
    exact hinv.funClosed u hu w hw
  · intro u hu
    rw [pushSt_stk] at hu
    rw [pushSt_lowA, pushSt_idxA]
    rcases List.mem_cons.mp hu with h1 | h2
    · subst h1
      rw [upd_self, upd_self]
      refine ⟨le_refl _, u, ?_, ?_, reach_refl adj lam lvl L u⟩
      · rw [pushSt_stk]
        exact List.mem_cons_self _ _
      · rw [upd_self]
    · have huv : u ≠ v := hstkv u h2
      rw [upd_other _ _ _ huv, upd_other _ _ _ huv]
      obtain ⟨hle, u0, hu0, hidx, hr⟩ := hinv.lowReal u h2
      have hu0v : u0 ≠ v := hstkv u0 hu0
      refine ⟨hle, u0, ?_, ?_, hr⟩
      · rw [pushSt_stk]
        exact List.mem_cons_of_mem _ hu0
      · rw [upd_other _ _ _ hu0v]
        exact hidx
  · exact hinv.lenscc
  · exact hinv.sccLe
  · exact hinv.sccIdem
  · exact hinv.sccConvex
  · exact hinv.sccIff

theorem push_inva {st : TarjanSt} {v : Nat} {grays : List Nat}
    (hinv : Inv adj lam lvl L st) (hg : goodV lam lvl L v)
    (hun : st.idxA v = -1) (ha : INVA adj lam lvl L st grays)
    (hgs : ∀ g ∈ grays, g ∈ st.stk) :
    INVA adj lam lvl L (pushSt v st) (grays ++ [v]) := by
  have hvstk : v ∉ st.stk := unvisited_not_stk adj lam lvl L hinv hg hun
  have hstkv : ∀ u ∈ st.stk, u ≠ v := fun u hu he => hvstk (he ▸ hu)
  intro y hy
  rw [pushSt_stk] at hy
  rcases List.mem_cons.mp hy with h1 | h2
  · subst h1
    refine ⟨y, by simp, ?_, reach_refl adj lam lvl L y⟩
    rw [pushSt_idxA, upd_self]
  · obtain ⟨g, hgm, hgle, hgr⟩ := ha y h2
    have hgv : g ≠ v := hstkv g (hgs g hgm)
    have hyv : y ≠ v := hstkv y h2
    refine ⟨g, by simp [hgm], ?_, hgr⟩
    rw [pushSt_idxA, upd_other _ _ _ hgv, upd_other _ _ _ hyv]
    exact hgle

end SCCProof3

section SCCProof4

variable (adj : Nat → List Nat) (lam : Nat → Bool) (lvl : Nat → Nat) (L : Nat)

def lowUpd (v : Nat) (m : Int) (st : TarjanSt) : TarjanSt :=
  { st with lowA := upd st.lowA v m }

theorem lowUpd_lowA (v : Nat) (m : Int) (st : TarjanSt) :
    (lowUpd v m st).lowA = upd st.lowA v m := rfl

theorem lowUpd_idxA (v : Nat) (m : Int) (st : TarjanSt) :
    (lowUpd v m st).idxA = st.idxA := rfl

theorem lowUpd_onA (v : Nat) (m : Int) (st : TarjanSt) :
    (lowUpd v m st).onA = st.onA := rfl

theorem lowUpd_stk (v : Nat) (m : Int) (st : TarjanSt) :
    (lowUpd v m st).stk = st.stk := rfl

theorem lowUpd_funv (v : Nat) (m : Int) (st : TarjanSt) :
    (lowUpd v m st).funv = st.funv := rfl

theorem lowUpd_sccv (v : Nat) (m : Int) (st : TarjanSt) :
    (lowUpd v m st).sccv = st.sccv := rfl

theorem lowUpd_cnt (v : Nat) (m : Int) (st : TarjanSt) :
    (lowUpd v m st).cnt = st.cnt := rfl

theorem lowUpd_inv {st : TarjanSt} {v : Nat} {m : Int}
    (hinv : Inv adj lam lvl L st) (hv : v ∈ st.stk) (hm : m ≤ st.idxA v)
    (hreal : ∃ u, u ∈ st.stk ∧ st.idxA u = m ∧ ReachG adj lam lvl L v u) :
    Inv adj lam lvl L (lowUpd v m st) := by
  refine
    { stkGood := hinv.stkGood, stkNodup := hinv.stkNodup
      stkOn := hinv.stkOn, funGood := hinv.funGood
      funNodup := hinv.funNodup, disj := hinv.disj
      visited := hinv.visited, idxBound := hinv.idxBound
      idxInj := hinv.idxInj, nonLam := hinv.nonLam
      stkSorted := hinv.stkSorted, funClosed := hinv.funClosed
      lowReal := ?_, lenscc := hinv.lenscc, sccLe := hinv.sccLe
      sccIdem := hinv.sccIdem, sccConvex := hinv.sccConvex
      sccIff := hinv.sccIff }
  intro u hu
  rw [lowUpd_lowA, lowUpd_idxA, lowUpd_stk] at *
  by_cases huv : u = v
  · subst huv
    rw [upd_self]
    exact ⟨hm, hreal⟩
  · rw [upd_other _ _ _ huv]
    exact hinv.lowReal u hu

theorem lowUpd_inva {st : TarjanSt} {v : Nat} {m : Int} {grays : List Nat}
    (ha : INVA adj lam lvl L st grays) :
    INVA adj lam lvl L (lowUpd v m st) grays := ha

/-- After a finished scan whose root test succeeds, every node
reachable from a new on-stack node is itself new-on-stack or already
emitted. -/
theorem root_reach_closed {st st2 : TarjanSt} {v : Nat}
    (hinv2 : Inv adj lam lvl L st2)
    (hroot : st2.lowA v = st2.idxA v)
    (hclosure : ∀ y, st.idxA y = -1 → st2.idxA y ≠ -1 → y ∈ st2.stk →
      ∀ u, u ∈ adj y → goodV lam lvl L u →
        (st.idxA u = -1 ∧ st2.idxA u ≠ -1) ∨ u ∈ st2.funv ∨
        (u ∈ st2.stk ∧ st2.idxA u < st2.idxA v ∧ st2.lowA v ≤ st2.idxA u)) :
    ∀ y, (y ∈ st2.stk ∧ st.idxA y = -1 ∧ st2.idxA y ≠ -1) →
      ∀ z, ReachG adj lam lvl L y z →
        (z ∈ st2.stk ∧ st.idxA z = -1 ∧ st2.idxA z ≠ -1) ∨ z ∈ st2.funv := by
  intro y hy z hz
  induction hz with
  | refl => exact Or.inl hy
  | tail hr hstep ih =>
    rename_i m z
    rcases ih with hm | hm
    · have hcl := hclosure m hm.2.1 hm.2.2 hm.1 z hstep.2.2 hstep.2.1
      rcases hcl with h1 | h2 | h3
      · have hz2 := (hinv2.visited z hstep.2.1).mp h1.2
        rcases hz2 with hzs | hzf
        · exact Or.inl ⟨hzs, h1⟩
        · exact Or.inr hzf
      · exact Or.inr h2
      · rw [hroot] at h3
        omega
    · exact Or.inr (hinv2.funClosed m hm z hstep)

end SCCProof4

section SCCProof5

variable (adj : Nat → List Nat) (lam : Nat → Bool) (lvl : Nat → Nat) (L : Nat)

theorem getD_mem_nat (l : List Nat) (i : Nat) (h : i < l.length) :
    l.getD i 0 ∈ l := by
  rw [List.getD_eq_getElem l 0 h]
  exact List.getElem_mem h

theorem replicate_getD (k x i : Nat) (h : i < k) :
    (List.replicate k x).getD i 0 = x := by
  rw [List.getD_eq_getElem _ 0 (by simpa using h)]
  simp

/-- Emission of a root's component: popping re-establishes the
invariant and appends one maximal strongly connected block. -/
theorem root_emit {st st2 : TarjanSt} {v : Nat} {New grays : List Nat}
    (hinvPre : Inv adj lam lvl L st)
    (hinv2 : Inv adj lam lvl L st2)
    (hva2 : INVA adj lam lvl L st2 (grays ++ [v]))
    (hgood : goodV lam lvl L v)
    (hun : st.idxA v = -1)
    (hstk2 : st2.stk = New ++ v :: st.stk)
    (hNewNew : ∀ u ∈ New, st.idxA u = -1)
    (hgs : ∀ g ∈ grays, g ∈ st.stk)
    (hroot : st2.lowA v = st2.idxA v)
    (hvidx : st2.idxA v = (st.cnt : Int))
    (hidxFrame : ∀ u, st.idxA u ≠ -1 → st2.idxA u = st.idxA u)
    (hnewIdx : ∀ u, st.idxA u = -1 → st2.idxA u ≠ -1 →
      (st.cnt : Int) ≤ st2.idxA u)
    (hnewGood : ∀ u, st.idxA u = -1 → st2.idxA u ≠ -1 →
      goodV lam lvl L u ∧ ReachG adj lam lvl L v u)
    (hclosure : ∀ y, st.idxA y = -1 → st2.idxA y ≠ -1 → y ∈ st2.stk →
      ∀ u, u ∈ adj y → goodV lam lvl L u →
        (st.idxA u = -1 ∧ st2.idxA u ≠ -1) ∨ u ∈ st2.funv ∨
        (u ∈ st2.stk ∧ st2.idxA u < st2.idxA v ∧ st2.lowA v ≤ st2.idxA u)) :
    Inv adj lam lvl L (sccPop v st2.funv.length st2.stk st2) ∧
    INVA adj lam lvl L (sccPop v st2.funv.length st2.stk st2) grays ∧
    (sccPop v st2.funv.length st2.stk st2).stk = st.stk ∧
    (sccPop v st2.funv.length st2.stk st2).funv = st2.funv ++ (New ++ [v]) ∧
    (sccPop v st2.funv.length st2.stk st2).idxA = st2.idxA ∧
    (sccPop v st2.funv.length st2.stk st2).lowA = st2.lowA ∧
    (sccPop v st2.funv.length st2.stk st2).cnt = st2.cnt ∧
    (∀ u ∈ st.stk, (sccPop v st2.funv.length st2.stk st2).onA u = st2.onA u) ∧
    (∀ u, st.idxA u = -1 → st2.idxA u ≠ -1 →
      u ∈ (sccPop v st2.funv.length st2.stk st2).funv) := by
  have hvcnt : st2.idxA v ≠ -1 := by
    rw [hvidx]
    omega
  have hvstkPre : v ∉ st.stk := unvisited_not_stk adj lam lvl L hinvPre hgood hun
  have hvstk2 : v ∈ st2.stk := by
    rw [hstk2]
    exact List.mem_append_right _ (List.mem_cons_self _ _)
  -- decompose the stack's Nodup
  have hnd2 : st2.stk.Nodup := hinv2.stkNodup
  have hndSplit : New.Nodup ∧ (v :: st.stk).Nodup ∧
      ∀ a ∈ New, a ∉ v :: st.stk := by
    rw [hstk2, List.nodup_append] at hnd2
    exact ⟨hnd2.1, hnd2.2.1, fun a ha hb => hnd2.2.2 ha hb⟩
  have hvNew : v ∉ New := fun hc =>
    hndSplit.2.2 v hc (List.mem_cons_self _ _)
  have hNewR : ∀ a ∈ New, a ∉ st.stk := fun a ha hb =>
    hndSplit.2.2 a ha (List.mem_cons_of_mem _ hb)
  -- old stack nodes are previously visited, with small indices
  have hRvis : ∀ u ∈ st.stk, st.idxA u ≠ -1 := by
    intro u hu
    have hgu := hinvPre.stkGood u hu
    exact (hinvPre.visited u hgu).mpr (Or.inl hu)
  have hRidx : ∀ u ∈ st.stk, st2.idxA u = st.idxA u ∧
      0 ≤ st.idxA u ∧ st.idxA u < (st.cnt : Int) := by
    intro u hu
    have h1 := hidxFrame u (hRvis u hu)
    have h2 := stk_idx_lt_cnt adj lam lvl L hinvPre hu
    exact ⟨h1, h2.1, h2.2⟩
  -- membership in the popped block
  have hBmem : ∀ u, (u ∈ New ∨ u = v) ↔
      (u ∈ st2.stk ∧ st.idxA u = -1 ∧ st2.idxA u ≠ -1) := by
    intro u
    constructor
    · intro h
      rcases h with h | h
      · have hsm : u ∈ st2.stk := by
          rw [hstk2]
          exact List.mem_append_left _ h
        have hnew := hNewNew u h
        have hgu := hinv2.stkGood u hsm
        have hvis := (hinv2.visited u hgu).mpr (Or.inl hsm)
        exact ⟨hsm, hnew, hvis⟩
      · subst h
        exact ⟨hvstk2, hun, hvcnt⟩
    · intro ⟨hsm, hnew, _⟩
      rw [hstk2] at hsm
      rcases List.mem_append.mp hsm with h | h
      · exact Or.inl h
      · rcases List.mem_cons.mp h with h | h
        · exact Or.inr h
        · exact absurd (hRvis u h) (fun hc => hc hnew)
  have hclosed := @root_reach_closed adj lam lvl L st st2 v hinv2 hroot
    hclosure
  -- every block member reaches v
  have hBreach : ∀ y, y ∈ st2.stk → st.idxA y = -1 → st2.idxA y ≠ -1 →
      ReachG adj lam lvl L y v := by
    intro y hys hy1 hy2
    obtain ⟨g, hgm, hgle, hgr⟩ := hva2 y hys
    rcases List.mem_append.mp hgm with hgg | hgv
    · exfalso
      have hgstk : g ∈ st.stk := hgs g hgg
      have hg2 : g ∈ st2.stk := by
        rw [hstk2]
        exact List.mem_append_right _ (List.mem_cons_of_mem _ hgstk)
      rcases hclosed y ⟨hys, hy1, hy2⟩ g hgr with h | h
      · exact hRvis g hgstk h.2.1
      · exact hinv2.disj g h hg2
    · rw [List.mem_singleton.mp hgv] at hgr
      exact hgr
  -- apply the pop characterization
  obtain ⟨e1, e2, e3, e4, e5, e6, e7, e8⟩ :=
    sccPop_spec v st2.funv.length New st.stk st2 hvNew
  rw [← hstk2] at e1 e2 e3 e4 e5 e6 e7 e8
  have hBgood : ∀ u, u ∈ New ∨ u = v → goodV lam lvl L u := by
    intro u hu
    rcases hu with hu | hu
    · obtain ⟨_, hn, hv2⟩ := (hBmem u).mp (Or.inl hu)
      exact (hnewGood u hn hv2).1
    · exact hu ▸ hgood
  have hBidxGe : ∀ u, u ∈ New ∨ u = v → (st.cnt : Int) ≤ st2.idxA u := by
    intro u hu
    rcases hu with hu | hu
    · obtain ⟨_, hn, hv2⟩ := (hBmem u).mp (Or.inl hu)
      exact hnewIdx u hn hv2
    · subst hu
      rw [hvidx]
  have hmemF : ∀ u, u ∈ st2.funv ++ (New ++ [v]) ↔
      (u ∈ st2.funv ∨ u ∈ New ∨ u = v) := by
    intro u
    simp [List.mem_append]
  have hBstk2 : ∀ u, u ∈ New ∨ u = v → u ∈ st2.stk := by
    intro u hu
    exact ((hBmem u).mp hu).1
  have hBalt : ∀ u, u ∈ New ++ [v] ↔ (u ∈ New ∨ u = v) := by
    intro u
    simp
  have hBmut : ∀ a b, (a ∈ New ∨ a = v) → (b ∈ New ∨ b = v) →
      ReachG adj lam lvl L a b := by
    intro a b ha hb
    have h1 : ReachG adj lam lvl L a v := by
      obtain ⟨hs, hn, hv2⟩ := (hBmem a).mp ha
      exact hBreach a hs hn hv2
    have h2 : ReachG adj lam lvl L v b := by
      rcases hb with hb | hb
      · obtain ⟨_, hn, hv2⟩ := (hBmem b).mp (Or.inl hb)
        exact (hnewGood b hn hv2).2
      · exact hb ▸ reach_refl adj lam lvl L v
    exact reach_trans adj lam lvl L h1 h2
  have hnewFun : ∀ u, st.idxA u = -1 → st2.idxA u ≠ -1 →
      u ∈ (sccPop v st2.funv.length st2.stk st2).funv := by
    intro u hn hv2
    rw [e5, hmemF]
    have hgu := (hnewGood u hn hv2).1
    rcases (hinv2.visited u hgu).mp hv2 with hs | hf
    · exact Or.inr ((hBmem u).mpr ⟨hs, hn, hv2⟩)
    · exact Or.inl hf
  have hlen2 : st2.sccv.length = st2.funv.length := hinv2.lenscc
  have hlenF : (sccPop v st2.funv.length st2.stk st2).sccv.length =
      st2.funv.length + (New.length + 1) := by
    rw [e6]
    simp [hlen2]
  have hlenFf : (sccPop v st2.funv.length st2.stk st2).funv.length =
      st2.funv.length + (New.length + 1) := by
    rw [e5]
    simp
  have hgetDold : ∀ i, i < st2.funv.length →
      (sccPop v st2.funv.length st2.stk st2).sccv.getD i 0 =
        st2.sccv.getD i 0 ∧
      (sccPop v st2.funv.length st2.stk st2).funv.getD i 0 =
        st2.funv.getD i 0 := by
    intro i hi
    rw [e5, e6]
    exact ⟨List.getD_append _ _ _ _ (by omega),
      List.getD_append _ _ _ _ (by omega)⟩
  have hgetDnew : ∀ i, st2.funv.length ≤ i →
      i < st2.funv.length + (New.length + 1) →
      (sccPop v st2.funv.length st2.stk st2).sccv.getD i 0 =
        st2.funv.length ∧
      (sccPop v st2.funv.length st2.stk st2).funv.getD i 0 ∈ New ++ [v] := by
    intro i hi1 hi2
    rw [e5, e6]
    constructor
    · rw [List.getD_append_right _ _ _ _ (by omega),
        replicate_getD _ _ _ (by omega)]
    · rw [List.getD_append_right _ _ _ _ (by omega)]
      apply getD_mem_nat
      simp
      omega
  refine ⟨?_, ?_, e4, e5, e1, e2, e3, ?_, hnewFun⟩
  · refine
      { stkGood := ?_, stkNodup := ?_, stkOn := ?_, funGood := ?_
        funNodup := ?_, disj := ?_, visited := ?_, idxBound := ?_
        idxInj := ?_, nonLam := ?_, stkSorted := ?_, funClosed := ?_
        lowReal := ?_, lenscc := ?_, sccLe := ?_, sccIdem := ?_
        sccConvex := ?_, sccIff := ?_ }
    · rw [e4]
      exact hinvPre.stkGood
    · rw [e4]
      exact hinvPre.stkNodup
    · intro u hgu
      rw [e4]
      by_cases hB : u ∈ New ∨ u = v
      · rw [e8 u hB]
        constructor
        · intro hc
          cases hc
        · intro hc
          rcases hB with hB | hB
          · exact absurd hc (hNewR u hB)
          · exact absurd hc (hB ▸ hvstkPre)
      · push_neg at hB
        rw [e7 u hB.1 hB.2, hinv2.stkOn u hgu, hstk2]
        simp only [List.mem_append, List.mem_cons]
        constructor
        · intro hc
          rcases hc with hc | hc
          · exact absurd hc hB.1
          · rcases hc with hc | hc
            · exact absurd hc hB.2
            · exact hc
        · intro hc
          exact Or.inr (Or.inr hc)
    · intro u hu
      rw [e5, hmemF] at hu
      rcases hu with hu | hu
      · exact hinv2.funGood u hu
      · exact hBgood u hu
    · rw [e5]
      rw [List.nodup_append]
      refine ⟨hinv2.funNodup, ?_, ?_⟩
      · rw [List.nodup_append]
        refine ⟨hndSplit.1, List.nodup_singleton v, ?_⟩
        intro a ha hb
        rw [List.mem_singleton] at hb
        exact hvNew (hb ▸ ha)
      · intro a ha hb
        have : a ∈ New ∨ a = v := by
          rcases List.mem_append.mp hb with h | h
          · exact Or.inl h
          · exact Or.inr (List.mem_singleton.mp h)
        exact hinv2.disj a ha (hBstk2 a this)
    · intro u hu
      rw [e4]
      rw [e5, hmemF] at hu
      rcases hu with hu | hu
      · intro hc
        exact hinv2.disj u hu (by
          rw [hstk2]
          exact List.mem_append_right _ (List.mem_cons_of_mem _ hc))
      · rcases hu with hu | hu
        · exact hNewR u hu
        · exact hu ▸ hvstkPre
    · intro u hgu
      rw [e1, e4, e5, hmemF]
      rw [hinv2.visited u hgu, hstk2]
      simp only [List.mem_append, List.mem_cons]
      constructor
      · intro hc
        rcases hc with hc | hc
        · rcases hc with hc | hc
          · exact Or.inr (Or.inr (Or.inl hc))
          · rcases hc with hc | hc
            · exact Or.inr (Or.inr (Or.inr hc))
            · exact Or.inl hc
        · exact Or.inr (Or.inl hc)
      · intro hc
        rcases hc with hc | hc
        · exact Or.inl (Or.inr (Or.inr hc))
        · rcases hc with hc | hc
          · exact Or.inr hc
          · rcases hc with hc | hc
            · exact Or.inl (Or.inl hc)
            · exact Or.inl (Or.inr (Or.inl hc))
    · intro u hgu
      rw [e1, e3]
      exact hinv2.idxBound u hgu
    · intro u w hgu hgw hne
      rw [e1]
      exact hinv2.idxInj u w hgu hgw hne
    · intro u hl hnl
      have hB : u ∉ New ∧ u ≠ v := by
        constructor
        · intro hc
          have := (hBgood u (Or.inl hc)).2
          rw [hnl] at this
          cases this
        · intro hc
          have := hgood.2
          rw [← hc, hnl] at this
          cases this
      rw [e1, e7 u hB.1 hB.2]
      exact hinv2.nonLam u hl hnl
    · rw [e4]
      have hs2 := hinv2.stkSorted
      rw [hstk2] at hs2
      have := (List.pairwise_append.mp hs2).2.1
      have h3 := List.Pairwise.of_cons this
      refine List.Pairwise.imp_of_mem ?_ h3
      intro a b _ _ hab
      rw [e1]
      exact hab
    · intro a ha u hstep
      rw [e5, hmemF] at ha ⊢
      rcases ha with ha | ha
      · exact Or.inl (hinv2.funClosed a ha u hstep)
      · have haB := (hBmem a).mp ha
        have hcl := hclosure a haB.2.1 haB.2.2 haB.1 u hstep.2.2 hstep.2.1
        rcases hcl with h1 | h2 | h3
        · rcases (hinv2.visited u hstep.2.1).mp h1.2 with hs | hf
          · exact Or.inr ((hBmem u).mpr ⟨hs, h1⟩)
          · exact Or.inl hf
        · exact Or.inl h2
        · rw [hroot] at h3
          exfalso
          omega
    · intro u hu
      rw [e4] at hu
      rw [e1, e2, e4]
      have hu2 : u ∈ st2.stk := by
        rw [hstk2]
        exact List.mem_append_right _ (List.mem_cons_of_mem _ hu)
      obtain ⟨hle, u0, hu0, hidx0, hr⟩ := hinv2.lowReal u hu2
      refine ⟨hle, u0, ?_, hidx0, hr⟩
      rw [hstk2] at hu0
      rcases List.mem_append.mp hu0 with h | h
      · exfalso
        have hge := hBidxGe u0 (Or.inl h)
        have hlt := (hRidx u hu).2.2
        have heq := (hRidx u hu).1
        rw [heq] at hle
        omega
      · rcases List.mem_cons.mp h with h | h
        · exfalso
          have hge := hBidxGe u0 (Or.inr h)
          have hlt := (hRidx u hu).2.2
          have heq := (hRidx u hu).1
          rw [heq] at hle
          omega
        · exact h
    · rw [e5, e6]
      simp [hlen2]
    · intro i hi
      rw [hlenF] at hi
      by_cases hio : i < st2.funv.length
      · rw [(hgetDold i hio).1]
        exact hinv2.sccLe i (by omega)
      · rw [(hgetDnew i (by omega) hi).1]
        omega
    · intro i hi
      rw [hlenF] at hi
      by_cases hio : i < st2.funv.length
      · rw [(hgetDold i hio).1]
        have hk := hinv2.sccLe i (by omega)
        rw [(hgetDold _ (by omega)).1]
        exact hinv2.sccIdem i (by omega)
      · rw [(hgetDnew i (by omega) hi).1]
        rw [(hgetDnew _ (le_refl _) (by omega)).1]
    · intro i k j hik hkj hj he
      rw [hlenF] at hj
      by_cases hjo : j < st2.funv.length
      · rw [(hgetDold i (by omega)).1, (hgetDold k (by omega)).1,
          (hgetDold j (by omega)).1] at *
        exact hinv2.sccConvex i k j hik hkj (by omega) he
      · rw [(hgetDnew j (by omega) (by omega)).1] at he
        by_cases hio : i < st2.funv.length
        · exfalso
          rw [(hgetDold i hio).1] at he
          have := hinv2.sccLe i (by omega)
          omega
        · rw [(hgetDnew i (by omega) (by omega)).1]
          rw [(hgetDnew k (by omega) (by omega)).1]
    · intro i j hi hj
      rw [hlenFf] at hi hj
      by_cases hio : i < st2.funv.length
      · by_cases hjo : j < st2.funv.length
        · rw [(hgetDold i hio).1, (hgetDold j hjo).1,
            (hgetDold i hio).2, (hgetDold j hjo).2]
          exact hinv2.sccIff i j hio hjo
        · rw [(hgetDold i hio).1, (hgetDnew j (by omega) (by omega)).1,
            (hgetDold i hio).2]
          apply iff_of_false
          · have := hinv2.sccLe i (by omega)
            omega
          · rintro ⟨h1, _⟩
            have hmem := (hgetDnew j (by omega) (by omega)).2
            have hB := (hBalt _).mp hmem
            have ha : st2.funv.getD i 0 ∈ st2.funv :=
              getD_mem_nat _ _ (by omega)
            have hbf := funvReach adj lam lvl L hinv2 ha h1
            exact hinv2.disj _ hbf (hBstk2 _ hB)
      · by_cases hjo : j < st2.funv.length
        · rw [(hgetDnew i (by omega) (by omega)).1, (hgetDold j hjo).1,
            (hgetDold j hjo).2]
          apply iff_of_false
          · have := hinv2.sccLe j (by omega)
            omega
          · rintro ⟨_, h2⟩
            have hmem := (hgetDnew i (by omega) (by omega)).2
            have hB := (hBalt _).mp hmem
            have ha : st2.funv.getD j 0 ∈ st2.funv :=
              getD_mem_nat _ _ (by omega)
            have hbf := funvReach adj lam lvl L hinv2 ha h2
            exact hinv2.disj _ hbf (hBstk2 _ hB)
        · rw [(hgetDnew i (by omega) (by omega)).1,
            (hgetDnew j (by omega) (by omega)).1]
          apply iff_of_true rfl
          have hmi := (hBalt _).mp (hgetDnew i (by omega) (by omega)).2
          have hmj := (hBalt _).mp (hgetDnew j (by omega) (by omega)).2
          exact ⟨hBmut _ _ hmi hmj, hBmut _ _ hmj hmi⟩
  · intro y hy
    rw [e4] at hy
    obtain ⟨g, hgm, hgle, hgr⟩ := hva2 y (by
      rw [hstk2]
      exact List.mem_append_right _ (List.mem_cons_of_mem _ hy))
    rcases List.mem_append.mp hgm with hgg | hgv
    · refine ⟨g, hgg, ?_, hgr⟩
      rw [e1]
      exact hgle
    · exfalso
      rw [List.mem_singleton.mp hgv, hvidx] at hgle
      have h1 := (hRidx y hy).1
      have h2 := (hRidx y hy).2.2
      omega
  · intro u hu
    exact e7 u (fun hc => hNewR u hc hu) (fun hc => hvstkPre (hc ▸ hu))

end SCCProof5

section SCCProof6

variable (adj : Nat → List Nat) (lam : Nat → Bool) (lvl : Nat → Nat) (L : Nat)

theorem TRI_mono {s s2 : TarjanSt} {v u : Nat}
    (hidx : ∀ m, s.idxA m ≠ -1 → s2.idxA m = s.idxA m)
    (hvvis : s.idxA v ≠ -1)
    (hfun : ∀ m ∈ s.funv, m ∈ s2.funv)
    (hstk : ∀ m ∈ s.stk, m ∈ s2.stk)
    (hlow : s2.lowA v ≤ s.lowA v)
    (h : TRI s v u) : TRI s2 v u := by
  obtain ⟨h1, h2⟩ := h
  refine ⟨by rw [hidx u h1]; exact h1, ?_⟩
  rw [hidx u h1, hidx v hvvis]
  rcases h2 with h2 | h2 | h2
  · exact Or.inl h2
  · exact Or.inr (Or.inl (hfun _ h2))
  · refine Or.inr (Or.inr ⟨hstk _ h2.1, h2.2.1, ?_⟩)
    have := h2.2.2
    omega

theorem sccVisit_succ (fuel v : Nat) (st : TarjanSt) :
    sccVisit adj lam lvl L (fuel + 1) v st =
      match sccEdges adj lam lvl L fuel v (adj v) (pushSt v st) with
      | none => none
      | some stM =>
        if stM.lowA v = stM.idxA v then
          some (sccPop v stM.funv.length stM.stk stM)
        else some stM := rfl

theorem scc_sound : ∀ fuel : Nat,
    (∀ v st st2 grays,
      sccVisit adj lam lvl L fuel v st = some st2 →
      Inv adj lam lvl L st → INVA adj lam lvl L st grays →
      (∀ g ∈ grays, g ∈ st.stk) →
      (∀ g ∈ grays, ReachG adj lam lvl L g v) →
      goodV lam lvl L v → st.idxA v = -1 →
      Inv adj lam lvl L st2 ∧ INVA adj lam lvl L st2 grays ∧
        VPost adj lam lvl L st st2 v) ∧
    (∀ v ws st st2 grays,
      sccEdges adj lam lvl L fuel v ws st = some st2 →
      Inv adj lam lvl L st → INVA adj lam lvl L st (grays ++ [v]) →
      (∀ g ∈ grays, g ∈ st.stk) →
      (∀ g ∈ grays, ReachG adj lam lvl L g v) →
      goodV lam lvl L v → v ∈ st.stk → (∀ w ∈ ws, w ∈ adj v) →
      (∀ y ∈ st.stk, st.idxA v < st.idxA y →
        ∀ u, u ∈ adj y → goodV lam lvl L u → TRI st v u) →
      Inv adj lam lvl L st2 ∧ INVA adj lam lvl L st2 (grays ++ [v]) ∧
        EPost adj lam lvl L st st2 v ws) := by
  intro fuel
  induction fuel with
  | zero =>
    constructor
    · intro v st st2 grays h
      simp [sccVisit] at h
    · intro v ws st st2 grays h hinv hva hgs hgr hgood hvstk hws hEC
      cases ws with
      | nil =>
        simp only [sccEdges, Option.some_inj] at h
        subst h
        refine ⟨hinv, hva, ?_⟩
        have hvvis : st.idxA v ≠ -1 :=
          (hinv.visited v hgood).mpr (Or.inl hvstk)
        exact
          { idxFrame := fun u _ => rfl
            lowFrame := fun u _ _ => rfl
            lowMono := le_refl _
            cntMono := le_refl _
            newIdx := fun u h1 h2 => absurd rfl (by rw [h1] at h2; exact h2)
            newGood := fun u h1 h2 => absurd rfl (by rw [h1] at h2; exact h2)
            funExt := ⟨[], by simp⟩
            stkExt := ⟨[], by simp⟩
            onFrame := fun u _ => rfl
            ecOut := fun y hy hvy u hu hgu => hEC y hy hvy u hu hgu
            uDone := fun u hu => absurd hu (List.not_mem_nil u) }
      | cons w ws => simp [sccEdges] at h
  | succ fuel ih =>
    constructor
    · intro v st st2 grays h hinv hva hgs hgr hgood hun
      rw [sccVisit_succ] at h
      cases hed : sccEdges adj lam lvl L fuel v (adj v) (pushSt v st) with
      | none => rw [hed] at h; cases h
      | some stM =>
        rw [hed] at h
        dsimp only at h
        have hinv1 := push_inv adj lam lvl L hinv hgood hun
        have hva1 := push_inva adj lam lvl L hinv hgood hun hva hgs
        have hvstkPre : v ∉ st.stk :=
          unvisited_not_stk adj lam lvl L hinv hgood hun
        have hvstk1 : v ∈ (pushSt v st).stk := by
          rw [pushSt_stk]
          exact List.mem_cons_self _ _
        have hidx1v : (pushSt v st).idxA v = (st.cnt : Int) := by
          rw [pushSt_idxA, upd_self]
        have hidx1 : ∀ u, u ≠ v → (pushSt v st).idxA u = st.idxA u := by
          intro u hu
          rw [pushSt_idxA, upd_other _ _ _ hu]
        have hEC1 : ∀ y ∈ (pushSt v st).stk,
            (pushSt v st).idxA v < (pushSt v st).idxA y →
            ∀ u, u ∈ adj y → goodV lam lvl L u → TRI (pushSt v st) v u := by
          intro y hy hvy u _ _
          exfalso
          rw [pushSt_stk] at hy
          rw [hidx1v] at hvy
          rcases List.mem_cons.mp hy with hy | hy
          · rw [hy, hidx1v] at hvy
            omega
          · have hyv : y ≠ v := fun he => hvstkPre (he ▸ hy)
            rw [hidx1 y hyv] at hvy
            have := stk_idx_lt_cnt adj lam lvl L hinv hy
            omega
        obtain ⟨hinvM, hvaM, EP⟩ := (ih.2) v (adj v) (pushSt v st) stM grays
          hed hinv1 hva1
          (by
            intro g hg
            rw [pushSt_stk]
            exact List.mem_cons_of_mem _ (hgs g hg))
          hgr hgood hvstk1 (fun u hu => hu) hEC1
        have hvisM_v : stM.idxA v = (st.cnt : Int) := by
          rw [EP.idxFrame v (by rw [hidx1v]; omega), hidx1v]
        have hvisMv2 : stM.idxA v ≠ -1 := by
          rw [hvisM_v]
          omega
        obtain ⟨New, hstkM0, hNewNew1⟩ := EP.stkExt
        have hstkM : stM.stk = New ++ v :: st.stk := by
          rw [hstkM0, pushSt_stk]
        have hNewNew : ∀ u ∈ New, st.idxA u = -1 := by
          intro u hu
          have h1 := hNewNew1 u hu
          have huv : u ≠ v := by
            intro he
            rw [he, hidx1v] at h1
            omega
          rw [hidx1 u huv] at h1
          exact h1
        have hvM : v ∈ stM.stk := by
          rw [hstkM]
          exact List.mem_append_right _ (List.mem_cons_self _ _)
        have hidxF : ∀ u, st.idxA u ≠ -1 → stM.idxA u = st.idxA u := by
          intro u hu
          have huv : u ≠ v := fun he => hu (he ▸ hun)
          rw [EP.idxFrame u (by rw [hidx1 u huv]; exact hu), hidx1 u huv]
        have hlowF : ∀ u, st.idxA u ≠ -1 → stM.lowA u = st.lowA u := by
          intro u hu
          have huv : u ≠ v := fun he => hu (he ▸ hun)
          rw [EP.lowFrame u huv (by rw [hidx1 u huv]; exact hu),
            pushSt_lowA, upd_other _ _ _ huv]
        have hnewIdxS : ∀ u, st.idxA u = -1 → stM.idxA u ≠ -1 →
            (st.cnt : Int) ≤ stM.idxA u := by
          intro u h1 h2
          by_cases huv : u = v
          · rw [huv, hvisM_v]
          · have := EP.newIdx u (by rw [hidx1 u huv]; exact h1) h2
            rw [pushSt_cnt] at this
            omega
        have hnewGoodS : ∀ u, st.idxA u = -1 → stM.idxA u ≠ -1 →
            goodV lam lvl L u ∧ ReachG adj lam lvl L v u := by
          intro u h1 h2
          by_cases huv : u = v
          · rw [huv]
            exact ⟨hgood, reach_refl adj lam lvl L v⟩
          · exact EP.newGood u (by rw [hidx1 u huv]; exact h1) h2
        have hconv : ∀ u, goodV lam lvl L u → TRI stM v u →
            (st.idxA u = -1 ∧ stM.idxA u ≠ -1) ∨ u ∈ stM.funv ∨
            (u ∈ stM.stk ∧ stM.idxA u < stM.idxA v ∧
              stM.lowA v ≤ stM.idxA u) := by
          intro u hgu ⟨h1, h2⟩
          rcases h2 with h2 | h2 | h2
          · refine Or.inl ⟨?_, h1⟩
            by_contra hvis
            have hb := hinv.idxBound u hgu hvis
            rw [hidxF u hvis, hvisM_v] at h2
            omega
          · exact Or.inr (Or.inl h2)
          · exact Or.inr (Or.inr h2)
        have hclosureS : ∀ y, st.idxA y = -1 → stM.idxA y ≠ -1 →
            y ∈ stM.stk → ∀ u, u ∈ adj y → goodV lam lvl L u →
            (st.idxA u = -1 ∧ stM.idxA u ≠ -1) ∨ u ∈ stM.funv ∨
            (u ∈ stM.stk ∧ stM.idxA u < stM.idxA v ∧
              stM.lowA v ≤ stM.idxA u) := by
          intro y hy1 hy2 hy3 u hu hgu
          by_cases hyv : y = v
          · exact hconv u hgu (EP.uDone u (by rw [← hyv]; exact hu) hgu)
          · have hy1' : (pushSt v st).idxA y = -1 := by
              rw [hidx1 y hyv]
              exact hy1
            have hylarge : stM.idxA v < stM.idxA y := by
              have := EP.newIdx y hy1' hy2
              rw [pushSt_cnt, hvisM_v] at *
              omega
            exact hconv u hgu (EP.ecOut y hy3 hylarge u hu hgu)
        by_cases hroot : stM.lowA v = stM.idxA v
        · rw [if_pos hroot, Option.some_inj] at h
          obtain ⟨RInv, RInva, Rstk, Rfunv, Ridx, Rlow, Rcnt, Ron, Rnew⟩ :=
            root_emit adj lam lvl L hinv hinvM hvaM hgood hun hstkM hNewNew
              hgs hroot hvisM_v hidxF hnewIdxS hnewGoodS hclosureS
          rw [h] at RInv RInva Rstk Rfunv Ridx Rlow Rcnt Ron Rnew
          refine ⟨RInv, RInva, ?_⟩
          exact
            { idxFrame := by
                intro u hu
                rw [Ridx]
                exact hidxF u hu
              lowFrame := by
                intro u hu
                rw [Rlow]
                exact hlowF u hu
              cntMono := by
                have h1 := EP.cntMono
                rw [pushSt_cnt] at h1
                rw [Rcnt]
                omega
              newIdx := by
                intro u h1 h2
                rw [Ridx] at h2 ⊢
                exact hnewIdxS u h1 h2
              newGood := by
                intro u h1 h2
                rw [Ridx] at h2
                exact hnewGoodS u h1 h2
              funExt := by
                obtain ⟨Δ, hΔ⟩ := EP.funExt
                rw [pushSt_funv] at hΔ
                exact ⟨Δ ++ (New ++ [v]), by
                  rw [Rfunv, hΔ, List.append_assoc]⟩
              stkExt := ⟨[], by rw [Rstk, List.nil_append],
                fun u hu => absurd hu (List.not_mem_nil u)⟩
              onFrame := by
                intro u hu
                have huv : u ≠ v := fun he => hvstkPre (he ▸ hu)
                rw [Ron u hu, EP.onFrame u (by
                  rw [pushSt_stk]
                  exact List.mem_cons_of_mem _ hu), pushSt_onA,
                  upd_other _ _ _ huv]
              vIdx := by
                rw [Ridx]
                exact hvisM_v
              edgeClosure := by
                intro y hy1 hy2 hy3 u _ _
                exfalso
                rw [Rstk] at hy3
                exact (hinv.visited y (hinv.stkGood y hy3)).mpr
                  (Or.inl hy3) hy1
              rootOr := by
                refine Or.inl ⟨Rnew v hun hvisMv2, Rstk, ?_, ?_⟩
                · rw [Rlow, Ridx]
                  exact hroot
                · intro u h1 h2
                  rw [Ridx] at h2
                  exact Rnew u h1 h2 }
        · rw [if_neg hroot, Option.some_inj] at h
          rw [← h]
          have hlowlt : stM.lowA v < stM.idxA v := by
            have h1 := (hinvM.lowReal v hvM).1
            omega
          refine ⟨hinvM, ?_, ?_⟩
          · intro y hy
            obtain ⟨g, hgm, hgle, hgr2⟩ := hvaM y hy
            rcases List.mem_append.mp hgm with hgg | hgv
            · exact ⟨g, hgg, hgle, hgr2⟩
            · rw [List.mem_singleton.mp hgv] at hgle hgr2
              obtain ⟨_, u0, hu0, hi0, hr0⟩ := hinvM.lowReal v hvM
              obtain ⟨g2, hg2m, hg2le, hg2r⟩ := hvaM u0 hu0
              rcases List.mem_append.mp hg2m with hg2g | hg2v
              · refine ⟨g2, hg2g, by omega, ?_⟩
                exact reach_trans adj lam lvl L hgr2
                  (reach_trans adj lam lvl L hr0 hg2r)
              · exfalso
                rw [List.mem_singleton.mp hg2v] at hg2le
                omega
          · exact
              { idxFrame := hidxF
                lowFrame := fun u hu => hlowF u hu
                cntMono := by
                  have h1 := EP.cntMono
                  rw [pushSt_cnt] at h1
                  omega
                newIdx := hnewIdxS
                newGood := hnewGoodS
                funExt := by
                  obtain ⟨Δ, hΔ⟩ := EP.funExt
                  rw [pushSt_funv] at hΔ
                  exact ⟨Δ, hΔ⟩
                stkExt := by
                  refine ⟨New ++ [v], by
                    rw [hstkM, List.append_assoc, List.singleton_append], ?_⟩
                  intro u hu
                  rcases List.mem_append.mp hu with hu | hu
                  · exact hNewNew u hu
                  · rw [List.mem_singleton.mp hu]
                    exact hun
                onFrame := by
                  intro u hu
                  have huv : u ≠ v := fun he => hvstkPre (he ▸ hu)
                  rw [EP.onFrame u (by
                    rw [pushSt_stk]
                    exact List.mem_cons_of_mem _ hu), pushSt_onA,
                    upd_other _ _ _ huv]
                vIdx := hvisM_v
                edgeClosure := hclosureS
                rootOr := Or.inr ⟨hvM, hlowlt⟩ }
    · intro v ws st st2 grays h hinv hva hgs hgr hgood hvstk hws hEC
      have hvvis : st.idxA v ≠ -1 := (hinv.visited v hgood).mpr (Or.inl hvstk)
      have hvbound := hinv.idxBound v hgood hvvis
      cases ws with
      | nil =>
        simp only [sccEdges, Option.some_inj] at h
        subst h
        refine ⟨hinv, hva, ?_⟩
        exact
          { idxFrame := fun u _ => rfl
            lowFrame := fun u _ _ => rfl
            lowMono := le_refl _
            cntMono := le_refl _
            newIdx := fun u h1 h2 => absurd rfl (by rw [h1] at h2; exact h2)
            newGood := fun u h1 h2 => absurd rfl (by rw [h1] at h2; exact h2)
            funExt := ⟨[], by simp⟩
            stkExt := ⟨[], by simp⟩
            onFrame := fun u _ => rfl
            ecOut := fun y hy hvy u hu hgu => hEC y hy hvy u hu hgu
            uDone := fun u hu => absurd hu (List.not_mem_nil u) }
      | cons w ws =>
        simp only [sccEdges] at h
        by_cases hlw : lvl w = L
        · rw [if_neg (not_not_intro hlw)] at h
          by_cases hbr : st.idxA w = -1 ∧ lam w = true
          · rw [if_pos hbr] at h
            have hgw : goodV lam lvl L w := ⟨hlw, hbr.2⟩
            cases hvw : sccVisit adj lam lvl L fuel w st with
            | none => rw [hvw] at h; cases h
            | some st3 =>
              rw [hvw] at h
              have hwadj : w ∈ adj v := hws w (List.mem_cons_self _ _)
              have hstepvw : stepG adj lam lvl L v w := ⟨hgood, hgw, hwadj⟩
              obtain ⟨hinv3, hva3, VP⟩ := (ih.1) w st st3 (grays ++ [v]) hvw
                hinv hva
                (by
                  intro g hg
                  rcases List.mem_append.mp hg with hg | hg
                  · exact hgs g hg
                  · rw [List.mem_singleton.mp hg]
                    exact hvstk)
                (by
                  intro g hg
                  rcases List.mem_append.mp hg with hg | hg
                  · exact reach_trans adj lam lvl L (hgr g hg)
                      (reach_single adj lam lvl L hstepvw)
                  · rw [List.mem_singleton.mp hg]
                    exact reach_single adj lam lvl L hstepvw)
                hgw hbr.1
              obtain ⟨New3, hstk3, hNew3⟩ := VP.stkExt
              have hv3stk : v ∈ st3.stk := by
                rw [hstk3]
                exact List.mem_append_right _ hvstk
              have hwv : w ≠ v := by
                intro he
                rw [he] at hbr
                exact hvvis hbr.1
              have hidx3v : st3.idxA v = st.idxA v := VP.idxFrame v hvvis
              have hlow3v : st3.lowA v = st.lowA v := VP.lowFrame v hvvis
              have hidx3w : st3.idxA w = (st.cnt : Int) := VP.vIdx
              have hstkpres : ∀ u ∈ st.stk, u ∈ st3.stk := by
                intro u hu
                rw [hstk3]
                exact List.mem_append_right _ hu
              have hfunpres3 : ∀ u ∈ st.funv, u ∈ st3.funv := by
                obtain ⟨Δ, hΔ⟩ := VP.funExt
                intro u hu
                rw [hΔ]
                exact List.mem_append_left _ hu
              have hidxF3 : ∀ u, st.idxA u ≠ -1 → st3.idxA u = st.idxA u :=
                VP.idxFrame
              -- the lowlink merge state
              have hmin2 : min (st3.lowA v) (st3.lowA w) ≤ st3.idxA v := by
                have := (hinv3.lowReal v hv3stk).1
                have h2 := min_le_left (st3.lowA v) (st3.lowA w)
                omega
              have hreal4 : ∃ u, u ∈ st3.stk ∧
                  st3.idxA u = min (st3.lowA v) (st3.lowA w) ∧
                  ReachG adj lam lvl L v u := by
                rcases min_cases (st3.lowA v) (st3.lowA w) with ⟨hm, _⟩ | ⟨hm, hlt⟩
                · obtain ⟨_, u0, hu0, hi0, hr0⟩ := hinv3.lowReal v hv3stk
                  exact ⟨u0, hu0, by rw [hm]; exact hi0, hr0⟩
                · rcases VP.rootOr with hroot | hnr
                  · exfalso
                    rw [hroot.2.2.1, hidx3w] at hlt
                    rw [hlow3v] at hlt
                    have := (hinv.lowReal v hvstk).1
                    omega
                  · obtain ⟨_, u0, hu0, hi0, hr0⟩ := hinv3.lowReal w hnr.1
                    refine ⟨u0, hu0, by rw [hm]; exact hi0, ?_⟩
                    exact reach_trans adj lam lvl L
                      (reach_single adj lam lvl L hstepvw) hr0
              have hinv4 : Inv adj lam lvl L
                  (lowUpd v (min (st3.lowA v) (st3.lowA w)) st3) :=
                lowUpd_inv adj lam lvl L hinv3 hv3stk hmin2 hreal4
              have hva4 : INVA adj lam lvl L
                  (lowUpd v (min (st3.lowA v) (st3.lowA w)) st3)
                  (grays ++ [v]) := lowUpd_inva adj lam lvl L hva3
              -- indices below v on the old stack are unchanged, so the
              -- edge-closure hypothesis carries over
              have hEC4 : ∀ y ∈ (lowUpd v (min (st3.lowA v) (st3.lowA w))
                    st3).stk,
                  (lowUpd v (min (st3.lowA v) (st3.lowA w)) st3).idxA v <
                    (lowUpd v (min (st3.lowA v) (st3.lowA w)) st3).idxA y →
                  ∀ u, u ∈ adj y → goodV lam lvl L u →
                    TRI (lowUpd v (min (st3.lowA v) (st3.lowA w)) st3) v u := by
                intro y hy hvy u hu hgu
                rw [lowUpd_stk, hstk3] at hy
                rw [lowUpd_idxA] at hvy
                have hlow4v : (lowUpd v (min (st3.lowA v) (st3.lowA w))
                    st3).lowA v = min (st3.lowA v) (st3.lowA w) := by
                  rw [lowUpd_lowA, upd_self]
                rcases List.mem_append.mp hy with hyn | hyo
                · -- a node from the just-finished subtree
                  have hynew : st.idxA y = -1 := hNew3 y hyn
                  have hy3 : y ∈ st3.stk := by
                    rw [hstk3]
                    exact List.mem_append_left _ hyn
                  have hgy := (VP.newGood y hynew
                    ((hinv3.visited y (VP.newGood y hynew (by
                      have := (hinv3.visited y (hinv3.stkGood y hy3)).mpr
                        (Or.inl hy3)
                      exact this)).1).mpr (Or.inl hy3))).1
                  have hyvis3 : st3.idxA y ≠ -1 :=
                    (hinv3.visited y (hinv3.stkGood y hy3)).mpr (Or.inl hy3)
                  have hcl := VP.edgeClosure y hynew hyvis3 hy3 u hu hgu
                  rcases hcl with h1 | h2 | h3
                  · -- visited during the subtree: its index is at least
                    -- st.cnt, above v's
                    refine ⟨by rw [lowUpd_idxA]; exact h1.2, ?_⟩
                    rw [lowUpd_idxA, hidx3v]
                    exact Or.inl (by
                      have := VP.newIdx u h1.1 h1.2
                      omega)
                  · exact ⟨by
                      rw [lowUpd_idxA]
                      have hgu2 := (hinv3.funGood u h2)
                      exact (hinv3.visited u hgu2).mpr (Or.inr h2), by
                      rw [lowUpd_funv]
                      exact Or.inr (Or.inl h2)⟩
                  · by_cases hcmp : st3.idxA v ≤ st3.idxA u
                    · refine ⟨?_, ?_⟩
                      · rw [lowUpd_idxA]
                        exact (hinv3.visited u (hinv3.stkGood u h3.1)).mpr
                          (Or.inl h3.1)
                      · rw [lowUpd_idxA]
                        exact Or.inl hcmp
                    · refine ⟨?_, ?_⟩
                      · rw [lowUpd_idxA]
                        exact (hinv3.visited u (hinv3.stkGood u h3.1)).mpr
                          (Or.inl h3.1)
                      · rw [lowUpd_idxA, hlow4v]
                        refine Or.inr (Or.inr ⟨by
                          rw [lowUpd_stk]
                          exact h3.1, by omega, ?_⟩)
                        have hm := min_le_right (st3.lowA v) (st3.lowA w)
                        have := h3.2.2
                        omega
                · -- an old stack node: carry the entry hypothesis over
                  have hyvis : st.idxA y ≠ -1 := by
                    have hgy := hinv.stkGood y hyo
                    exact (hinv.visited y hgy).mpr (Or.inl hyo)
                  have hvy0 : st.idxA v < st.idxA y := by
                    rw [hidxF3 y hyvis, hidx3v] at hvy
                    exact hvy
                  have htri := hEC y hyo hvy0 u hu hgu
                  refine TRI_mono ?_ hvvis ?_ ?_ ?_ htri
                  · intro m hm
                    rw [lowUpd_idxA]
                    exact hidxF3 m hm
                  · intro m hm
                    rw [lowUpd_funv]
                    exact hfunpres3 m hm
                  · intro m hm
                    rw [lowUpd_stk]
                    exact hstkpres m hm
                  · rw [lowUpd_lowA, upd_self, hlow3v]
                    exact min_le_left _ _
              obtain ⟨hinv2, hva2, EP4⟩ := (ih.2) v ws
                (lowUpd v (min (st3.lowA v) (st3.lowA w)) st3) st2 grays h
                hinv4 hva4
                (by
                  intro g hg
                  rw [lowUpd_stk]
                  exact hstkpres g (hgs g hg))
                hgr hgood
                (by
                  rw [lowUpd_stk]
                  exact hv3stk)
                (fun u hu => hws u (List.mem_cons_of_mem _ hu))
                hEC4
              refine ⟨hinv2, hva2, ?_⟩
              have hlow4v : (lowUpd v (min (st3.lowA v) (st3.lowA w))
                  st3).lowA v = min (st3.lowA v) (st3.lowA w) := by
                rw [lowUpd_lowA, upd_self]
              have hidxF4 : ∀ u, st.idxA u ≠ -1 →
                  (lowUpd v (min (st3.lowA v) (st3.lowA w)) st3).idxA u =
                    st.idxA u := by
                intro u hu
                rw [lowUpd_idxA]
                exact hidxF3 u hu
              have hidxF42 : ∀ u, st.idxA u ≠ -1 → st2.idxA u = st.idxA u := by
                intro u hu
                rw [EP4.idxFrame u (by rw [hidxF4 u hu]; exact hu)]
                exact hidxF4 u hu
              exact
                { idxFrame := hidxF42
                  lowFrame := by
                    intro u hunev huvis
                    rw [EP4.lowFrame u hunev (by
                      rw [hidxF4 u huvis]
                      exact huvis)]
                    rw [lowUpd_lowA, upd_other _ _ _ hunev]
                    exact VP.lowFrame u huvis
                  lowMono := by
                    have h1 := EP4.lowMono
                    rw [hlow4v] at h1
                    have h2 := min_le_left (st3.lowA v) (st3.lowA w)
                    rw [hlow3v] at h2
                    omega
                  cntMono := by
                    have h1 := VP.cntMono
                    have h2 := EP4.cntMono
                    rw [lowUpd_cnt] at h2
                    omega
                  newIdx := by
                    intro u hun hvis2
                    by_cases h3vis : st3.idxA u = -1
                    · have := EP4.newIdx u (by rw [lowUpd_idxA]; exact h3vis)
                        hvis2
                      rw [lowUpd_cnt] at this
                      have h2 := VP.cntMono
                      omega
                    · have h1 := VP.newIdx u hun h3vis
                      have h2 : st2.idxA u = st3.idxA u := by
                        rw [EP4.idxFrame u (by rw [lowUpd_idxA]; exact h3vis)]
                        rw [lowUpd_idxA]
                      omega
                  newGood := by
                    intro u hun hvis2
                    by_cases h3vis : st3.idxA u = -1
                    · have := EP4.newGood u (by rw [lowUpd_idxA]; exact h3vis)
                        hvis2
                      exact this
                    · have := VP.newGood u hun h3vis
                      exact ⟨this.1, reach_trans adj lam lvl L
                        (reach_single adj lam lvl L hstepvw) this.2⟩
                  funExt := by
                    obtain ⟨Δ1, hΔ1⟩ := VP.funExt
                    obtain ⟨Δ2, hΔ2⟩ := EP4.funExt
                    rw [lowUpd_funv] at hΔ2
                    exact ⟨Δ1 ++ Δ2, by rw [hΔ2, hΔ1, List.append_assoc]⟩
                  stkExt := by
                    obtain ⟨N2, hN2, hN2new⟩ := EP4.stkExt
                    rw [lowUpd_stk] at hN2
                    refine ⟨N2 ++ New3, by
                      rw [hN2, hstk3, List.append_assoc], ?_⟩
                    intro u hu
                    rcases List.mem_append.mp hu with hu | hu
                    · have := hN2new u hu
                      rw [lowUpd_idxA] at this
                      by_cases hz : st.idxA u = -1
                      · exact hz
                      · exfalso
                        apply hz
                        rw [← hidxF3 u hz]
                        exact this
                    · exact hNew3 u hu
                  onFrame := by
                    intro u hu
                    rw [EP4.onFrame u (by
                      rw [lowUpd_stk]
                      exact hstkpres u hu)]
                    rw [lowUpd_onA]
                    exact VP.onFrame u hu
                  ecOut := EP4.ecOut
                  uDone := by
                    intro u hu hgu
                    rcases List.mem_cons.mp hu with hu | hu
                    · rw [hu]
                      have ht1 : (lowUpd v (min (st3.lowA v) (st3.lowA w))
                          st3).idxA w ≠ -1 := by
                        rw [lowUpd_idxA, hidx3w]
                        omega
                      have ht2 : (lowUpd v (min (st3.lowA v) (st3.lowA w))
                          st3).idxA v ≤ (lowUpd v (min (st3.lowA v)
                          (st3.lowA w)) st3).idxA w := by
                        rw [lowUpd_idxA, hidx3w, hidx3v]
                        omega
                      have htri4 : TRI (lowUpd v
                          (min (st3.lowA v) (st3.lowA w)) st3) v w :=
                        ⟨ht1, Or.inl ht2⟩
                      refine TRI_mono ?_ ?_ ?_ ?_ EP4.lowMono htri4
                      · exact EP4.idxFrame
                      · rw [lowUpd_idxA, hidx3v]
                        exact hvvis
                      · obtain ⟨Δ2, hΔ2⟩ := EP4.funExt
                        intro m hm
                        rw [hΔ2]
                        exact List.mem_append_left _ hm
                      · obtain ⟨N2, hN2, _⟩ := EP4.stkExt
                        intro m hm
                        rw [hN2]
                        exact List.mem_append_right _ hm
                    · exact EP4.uDone u hu hgu }
          · rw [if_neg hbr] at h
            by_cases hon : st.onA w = true
            · rw [if_pos hon] at h
              have hlamw : lam w = true := by
                by_contra hlf
                have := hinv.nonLam w hlw (Bool.eq_false_iff.mpr hlf)
                rw [this.2] at hon
                cases hon
              have hgw : goodV lam lvl L w := ⟨hlw, hlamw⟩
              have hwstk : w ∈ st.stk := (hinv.stkOn w hgw).mp hon
              have hwvis : st.idxA w ≠ -1 := by
                intro hc
                exact hbr ⟨hc, hlamw⟩
              have hwadj : w ∈ adj v := hws w (List.mem_cons_self _ _)
              have hstepvw : stepG adj lam lvl L v w := ⟨hgood, hgw, hwadj⟩
              have hmin2 : min (st.lowA v) (st.idxA w) ≤ st.idxA v := by
                have := (hinv.lowReal v hvstk).1
                have h2 := min_le_left (st.lowA v) (st.idxA w)
                omega
              have hreal4 : ∃ u, u ∈ st.stk ∧
                  st.idxA u = min (st.lowA v) (st.idxA w) ∧
                  ReachG adj lam lvl L v u := by
                rcases min_cases (st.lowA v) (st.idxA w) with ⟨hm, _⟩ | ⟨hm, _⟩
                · obtain ⟨_, u0, hu0, hi0, hr0⟩ := hinv.lowReal v hvstk
                  exact ⟨u0, hu0, by rw [hm]; exact hi0, hr0⟩
                · exact ⟨w, hwstk, by rw [hm],
                    reach_single adj lam lvl L hstepvw⟩
              have hinv4 : Inv adj lam lvl L
                  (lowUpd v (min (st.lowA v) (st.idxA w)) st) :=
                lowUpd_inv adj lam lvl L hinv hvstk hmin2 hreal4
              have hEC4 : ∀ y ∈ (lowUpd v (min (st.lowA v) (st.idxA w))
                    st).stk,
                  (lowUpd v (min (st.lowA v) (st.idxA w)) st).idxA v <
                    (lowUpd v (min (st.lowA v) (st.idxA w)) st).idxA y →
                  ∀ u, u ∈ adj y → goodV lam lvl L u →
                    TRI (lowUpd v (min (st.lowA v) (st.idxA w)) st) v u := by
                intro y hy hvy u hu hgu
                rw [lowUpd_stk] at hy
                rw [lowUpd_idxA] at hvy
                have htri := hEC y hy hvy u hu hgu
                refine TRI_mono ?_ hvvis ?_ ?_ ?_ htri
                · intro m _
                  rw [lowUpd_idxA]
                · intro m hm
                  rw [lowUpd_funv]
                  exact hm
                · intro m hm
                  rw [lowUpd_stk]
                  exact hm
                · rw [lowUpd_lowA, upd_self]
                  exact min_le_left _ _
              obtain ⟨hinv2, hva2, EP4⟩ := (ih.2) v ws
                (lowUpd v (min (st.lowA v) (st.idxA w)) st) st2 grays h
                hinv4 (lowUpd_inva adj lam lvl L hva)
                (by
                  intro g hg
                  rw [lowUpd_stk]
                  exact hgs g hg)
                hgr hgood
                (by
                  rw [lowUpd_stk]
                  exact hvstk)
                (fun u hu => hws u (List.mem_cons_of_mem _ hu))
                hEC4
              refine ⟨hinv2, hva2, ?_⟩
              have hidxF42 : ∀ u, st.idxA u ≠ -1 → st2.idxA u = st.idxA u := by
                intro u hu
                rw [EP4.idxFrame u (by rw [lowUpd_idxA]; exact hu)]
                rw [lowUpd_idxA]
              exact
                { idxFrame := hidxF42
                  lowFrame := by
                    intro u hunev huvis
                    rw [EP4.lowFrame u hunev (by
                      rw [lowUpd_idxA]
                      exact huvis)]
                    rw [lowUpd_lowA, upd_other _ _ _ hunev]
                  lowMono := by
                    have h1 := EP4.lowMono
                    rw [lowUpd_lowA, upd_self] at h1
                    have h2 := min_le_left (st.lowA v) (st.idxA w)
                    omega
                  cntMono := by
                    have h2 := EP4.cntMono
                    rw [lowUpd_cnt] at h2
                    exact h2
                  newIdx := by
                    intro u hun hvis2
                    have := EP4.newIdx u (by rw [lowUpd_idxA]; exact hun) hvis2
                    rw [lowUpd_cnt] at this
                    exact this
                  newGood := by
                    intro u hun hvis2
                    exact EP4.newGood u (by rw [lowUpd_idxA]; exact hun) hvis2
                  funExt := by
                    obtain ⟨Δ2, hΔ2⟩ := EP4.funExt
                    rw [lowUpd_funv] at hΔ2
                    exact ⟨Δ2, hΔ2⟩
                  stkExt := by
                    obtain ⟨N2, hN2, hN2new⟩ := EP4.stkExt
                    rw [lowUpd_stk] at hN2
                    refine ⟨N2, hN2, ?_⟩
                    intro u hu
                    have := hN2new u hu
                    rw [lowUpd_idxA] at this
                    exact this
                  onFrame := by
                    intro u hu
                    rw [EP4.onFrame u (by
                      rw [lowUpd_stk]
                      exact hu)]
                    rw [lowUpd_onA]
                  ecOut := EP4.ecOut
                  uDone := by
                    intro u hu hgu
                    rcases List.mem_cons.mp hu with hu | hu
                    · rw [hu]
                      have ht1 : (lowUpd v (min (st.lowA v) (st.idxA w))
                          st).idxA w ≠ -1 := by
                        rw [lowUpd_idxA]
                        exact hwvis
                      have ht3 : (lowUpd v (min (st.lowA v) (st.idxA w))
                          st).lowA v ≤ (lowUpd v (min (st.lowA v)
                          (st.idxA w)) st).idxA w := by
                        rw [lowUpd_idxA, lowUpd_lowA, upd_self]
                        exact min_le_right _ _
                      have ht4 : w ∈ (lowUpd v (min (st.lowA v) (st.idxA w))
                          st).stk := by
                        rw [lowUpd_stk]
                        exact hwstk
                      have htri4 : TRI (lowUpd v
                          (min (st.lowA v) (st.idxA w)) st) v w := by
                        refine ⟨ht1, ?_⟩
                        by_cases hcmp : st.idxA v ≤ st.idxA w
                        · exact Or.inl (by
                            rw [lowUpd_idxA] at ht1 ⊢
                            exact hcmp)
                        · refine Or.inr (Or.inr ⟨ht4, ?_, ht3⟩)
                          rw [lowUpd_idxA]
                          omega
                      refine TRI_mono ?_ ?_ ?_ ?_ EP4.lowMono htri4
                      · exact EP4.idxFrame
                      · rw [lowUpd_idxA]
                        exact hvvis
                      · obtain ⟨Δ2, hΔ2⟩ := EP4.funExt
                        intro m hm
                        rw [hΔ2]
                        exact List.mem_append_left _ hm
                      · obtain ⟨N2, hN2, _⟩ := EP4.stkExt
                        intro m hm
                        rw [hN2]
                        exact List.mem_append_right _ hm
                    · exact EP4.uDone u hu hgu }
            · rw [if_neg hon] at h
              obtain ⟨hinv2, hva2, EP4⟩ := (ih.2) v ws st st2 grays h
                hinv hva hgs hgr hgood hvstk
                (fun u hu => hws u (List.mem_cons_of_mem _ hu)) hEC
              refine ⟨hinv2, hva2, ?_⟩
              exact
                { idxFrame := EP4.idxFrame
                  lowFrame := EP4.lowFrame
                  lowMono := EP4.lowMono
                  cntMono := EP4.cntMono
                  newIdx := EP4.newIdx
                  newGood := EP4.newGood
                  funExt := EP4.funExt
                  stkExt := EP4.stkExt
                  onFrame := EP4.onFrame
                  ecOut := EP4.ecOut
                  uDone := by
                    intro u hu hgu
                    rcases List.mem_cons.mp hu with hu | hu
                    · rw [hu] at hgu ⊢
                      have hlamw : lam w = true := hgu.2
                      have hwvis : st.idxA w ≠ -1 := by
                        intro hc
                        exact hbr ⟨hc, hlamw⟩
                      have hwfun : w ∈ st.funv := by
                        rcases (hinv.visited w hgu).mp hwvis with hs | hf
                        · exfalso
                          have := (hinv.stkOn w hgu).mpr hs
                          rw [this] at hon
                          exact hon rfl
                        · exact hf
                      have htri : TRI st v w :=
                        ⟨hwvis, Or.inr (Or.inl hwfun)⟩
                      refine TRI_mono EP4.idxFrame hvvis ?_ ?_
                        EP4.lowMono htri
                      · obtain ⟨Δ2, hΔ2⟩ := EP4.funExt
                        intro m hm
                        rw [hΔ2]
                        exact List.mem_append_left _ hm
                      · obtain ⟨N2, hN2, _⟩ := EP4.stkExt
                        intro m hm
                        rw [hN2]
                        exact List.mem_append_right _ hm
                    · exact EP4.uDone u hu hgu }
        · rw [if_pos hlw] at h
          obtain ⟨hinv2, hva2, EP4⟩ := (ih.2) v ws st st2 grays h
            hinv hva hgs hgr hgood hvstk
            (fun u hu => hws u (List.mem_cons_of_mem _ hu)) hEC
          refine ⟨hinv2, hva2, ?_⟩
          exact
            { idxFrame := EP4.idxFrame
              lowFrame := EP4.lowFrame
              lowMono := EP4.lowMono
              cntMono := EP4.cntMono
              newIdx := EP4.newIdx
              newGood := EP4.newGood
              funExt := EP4.funExt
              stkExt := EP4.stkExt
              onFrame := EP4.onFrame
              ecOut := EP4.ecOut
              uDone := by
                intro u hu hgu
                rcases List.mem_cons.mp hu with hu | hu
                · exfalso
                  rw [hu] at hgu
                  exact hlw hgu.1
                · exact EP4.uDone u hu hgu }

end SCCProof6

section SCCProof7

variable (adj : Nat → List Nat) (lam : Nat → Bool) (lvl : Nat → Nat) (L : Nat)

theorem inva_nil_stk {st : TarjanSt}
    (h : INVA adj lam lvl L st []) : st.stk = [] := by
  cases hs : st.stk with
  | nil => rfl
  | cons y ys =>
    obtain ⟨g, hg, _⟩ := h y (by rw [hs]; exact List.mem_cons_self _ _)
    cases hg

theorem stk_nil_inva {st : TarjanSt} (h : st.stk = []) :
    INVA adj lam lvl L st [] := by
  intro y hy
  rw [h] at hy
  cases hy

theorem sccLevel_sound (fuel : Nat) : ∀ (roots : List Nat) (st st2 : TarjanSt),
    (∀ j ∈ roots, lvl j = L) →
    sccLevel adj lam lvl L fuel roots st = some st2 →
    Inv adj lam lvl L st → st.stk = [] →
    Inv adj lam lvl L st2 ∧ st2.stk = [] ∧
    (∀ u, st.idxA u ≠ -1 → st2.idxA u = st.idxA u) ∧
    (∀ u ∈ st.funv, u ∈ st2.funv) ∧
    (∀ j ∈ roots, lam j = true → st2.idxA j ≠ -1) := by
  intro roots
  induction roots with
  | nil =>
    intro st st2 _ h hinv hstk
    simp only [sccLevel, Option.some_inj] at h
    subst h
    exact ⟨hinv, hstk, fun u _ => rfl, fun u hu => hu,
      fun j hj => absurd hj (List.not_mem_nil j)⟩
  | cons j js ih =>
    intro st st2 hroots h hinv hstk
    simp only [sccLevel] at h
    by_cases hguard : st.idxA j = -1 ∧ lam j = true
    · rw [if_pos hguard] at h
      have hgj : goodV lam lvl L j :=
        ⟨hroots j (List.mem_cons_self _ _), hguard.2⟩
      cases hv : sccVisit adj lam lvl L fuel j st with
      | none => rw [hv] at h; cases h
      | some st3 =>
        rw [hv] at h
        dsimp only at h
        obtain ⟨hinv3, hva3, VP⟩ := (scc_sound adj lam lvl L fuel).1 j st st3
          [] hv hinv (stk_nil_inva adj lam lvl L hstk)
          (fun g hg => absurd hg (List.not_mem_nil g))
          (fun g hg => absurd hg (List.not_mem_nil g)) hgj hguard.1
        have hstk3 : st3.stk = [] := inva_nil_stk adj lam lvl L hva3
        obtain ⟨hinv2, hstk2, hfr2, hfun2, hjs2⟩ := ih st3 st2
          (fun m hm => hroots m (List.mem_cons_of_mem _ hm)) h hinv3 hstk3
        refine ⟨hinv2, hstk2, ?_, ?_, ?_⟩
        · intro u hu
          rw [hfr2 u (by rw [VP.idxFrame u hu]; exact hu), VP.idxFrame u hu]
        · intro u hu
          obtain ⟨Δ, hΔ⟩ := VP.funExt
          exact hfun2 u (by rw [hΔ]; exact List.mem_append_left _ hu)
        · intro m hm hlm
          rcases List.mem_cons.mp hm with hm | hm
          · rw [hm]
            have hj3 : st3.idxA j = (st.cnt : Int) := VP.vIdx
            rw [hfr2 j (by rw [hj3]; omega), hj3]
            omega
          · exact hjs2 m hm hlm
    · rw [if_neg hguard] at h
      obtain ⟨hinv2, hstk2, hfr2, hfun2, hjs2⟩ := ih st st2
        (fun m hm => hroots m (List.mem_cons_of_mem _ hm)) h hinv hstk
      refine ⟨hinv2, hstk2, hfr2, hfun2, ?_⟩
      intro m hm hlm
      rcases List.mem_cons.mp hm with hm | hm
      · rw [hm] at hlm ⊢
        have hvis : st.idxA j ≠ -1 := fun hc => hguard ⟨hc, hlm⟩
        rw [hfr2 j hvis]
        exact hvis
      · exact hjs2 m hm hlm

theorem init_inv (idx0 low0 : Nat → Int) (on0 : Nat → Bool)
    (hinit : ∀ j, lvl j = L →
      (idx0 j = if lam j then -1 else 0) ∧ on0 j = false) :
    Inv adj lam lvl L ⟨idx0, low0, on0, [], [], [], 0⟩ := by
  refine
    { stkGood := ?_, stkNodup := List.nodup_nil, stkOn := ?_, funGood := ?_
      funNodup := List.nodup_nil, disj := ?_, visited := ?_, idxBound := ?_
      idxInj := ?_, nonLam := ?_, stkSorted := List.Pairwise.nil
      funClosed := ?_, lowReal := ?_, lenscc := rfl, sccLe := ?_
      sccIdem := ?_, sccConvex := ?_, sccIff := ?_ }
  · intro v hv
    cases hv
  · intro v hgv
    constructor
    · intro hc
      have := (hinit v hgv.1).2
      simp only at this hc
      rw [this] at hc
      cases hc
    · intro hc
      cases hc
  · intro v hv
    cases hv
  · intro v hv
    cases hv
  · intro v hgv
    constructor
    · intro hc
      exfalso
      have := (hinit v hgv.1).1
      rw [hgv.2] at this
      simp only [if_pos] at this
      exact hc this
    · intro hc
      rcases hc with hc | hc
      · cases hc
      · cases hc
  · intro v hgv hne
    exfalso
    have := (hinit v hgv.1).1
    rw [hgv.2] at this
    simp only [if_pos] at this
    exact hne this
  · intro u v hgu hgv _ hnu _
    exfalso
    have := (hinit u hgu.1).1
    rw [hgu.2] at this
    simp only [if_pos] at this
    exact hnu this
  · intro v hl hnl
    have := hinit v hl
    rw [hnl] at this
    simp only [Bool.false_eq_true, if_neg] at this
    exact ⟨this.1, this.2⟩
  · intro v hv
    cases hv
  · intro v hv
    cases hv
  · intro i hi
    simp at hi
  · intro i hi
    simp at hi
  · intro i k j _ _ hj _
    simp at hj
  · intro i j hi _
    simp at hi

end SCCProof7

section SCCProof8

variable (adj : Nat → List Nat) (lam : Nat → Bool) (lvl : Nat → Nat) (L : Nat)

/-- Under level quiescence (an edge out of a non-lambda raises the
level), in-level reachability between in-level lambdas coincides with
in-level lambda-to-lambda reachability. -/
theorem reachL_iff_reachG
    (hq : ∀ a b, b ∈ adj a → lam a = false → lvl b ≠ lvl a)
    {a b : Nat} (hga : goodV lam lvl L a) (hgb : goodV lam lvl L b) :
    ReachL adj lvl L a b ↔ ReachG adj lam lvl L a b := by
  constructor
  · intro h
    have main : ∀ x, Relation.ReflTransGen (stepL adj lvl L) x b →
        lvl x = L → lam x = true → ReachG adj lam lvl L x b := by
      intro x hx
      induction hx using Relation.ReflTransGen.head_induction_on with
      | refl =>
        intro _ _
        exact reach_refl adj lam lvl L b
      | head hs ht ih =>
        rename_i x c
        intro hlx hlamx
        have hlc : lvl c = L := hs.2.1
        have hlamc : lam c = true := by
          rcases Relation.ReflTransGen.cases_head ht with hcb | ⟨d, hcd, _⟩
          · rw [hcb]
            exact hgb.2
          · by_contra hlf
            have := hq c d hcd.2.2 (Bool.eq_false_iff.mpr hlf)
            rw [hcd.2.1, hlc] at this
            exact this rfl
        exact Relation.ReflTransGen.head
          ⟨⟨hlx, hlamx⟩, ⟨hlc, hlamc⟩, hs.2.2⟩ (ih hlc hlamc)
    exact main a h hga.1 hga.2
  · intro h
    clear hga hgb
    induction h with
    | refl => exact Relation.ReflTransGen.refl
    | tail _ hstep ih =>
      exact Relation.ReflTransGen.tail ih
        ⟨hstep.1.1, hstep.2.1.1, hstep.2.2⟩

end SCCProof8

/-- C2: in the DefBinding built for one level by fracture_binding, two
lambda definitions of the level share an scc id iff each reaches the
other through in-level references; each SCC is a contiguous block of
the fun vector and the id is the index of its earliest member. -/
theorem claim_C2_scc_ids (adj : Nat → List Nat) (lam : Nat → Bool)
    (lvl : Nat → Nat) (L : Nat) (fuel : Nat) (roots : List Nat)
    (idx0 low0 : Nat → Int) (on0 : Nat → Bool) (st2 : TarjanSt)
    (hroots1 : ∀ j ∈ roots, lvl j = L)
    (hroots2 : ∀ j, lvl j = L → j ∈ roots)
    (hinit : ∀ j, lvl j = L →
      (idx0 j = if lam j then -1 else 0) ∧ on0 j = false)
    (hq : ∀ a b, b ∈ adj a → lam a = false → lvl b ≠ lvl a)
    (hrun : sccLevel adj lam lvl L fuel roots
      ⟨idx0, low0, on0, [], [], [], 0⟩ = some st2) :
    (∀ v, goodV lam lvl L v ↔ v ∈ st2.funv) ∧
    st2.funv.Nodup ∧
    st2.sccv.length = st2.funv.length ∧
    (∀ a b, a ∈ st2.funv → b ∈ st2.funv →
      (st2.sccv.getD (st2.funv.indexOf a) 0 =
          st2.sccv.getD (st2.funv.indexOf b) 0 ↔
        (ReachL adj lvl L a b ∧ ReachL adj lvl L b a))) ∧
    (∀ i, i < st2.sccv.length →
      st2.sccv.getD i 0 ≤ i ∧
      st2.sccv.getD (st2.sccv.getD i 0) 0 = st2.sccv.getD i 0 ∧
      (∀ m, m < st2.sccv.length → st2.sccv.getD m 0 = st2.sccv.getD i 0 →
        st2.sccv.getD i 0 ≤ m) ∧
      (∀ k j, i ≤ k → k ≤ j → j < st2.sccv.length →
        st2.sccv.getD i 0 = st2.sccv.getD j 0 →
        st2.sccv.getD k 0 = st2.sccv.getD i 0)) := by
  have hinv0 := init_inv adj lam lvl L idx0 low0 on0 hinit
  obtain ⟨hinv2, hstk2, _, _, hallvis⟩ :=
    sccLevel_sound adj lam lvl L fuel roots _ st2 hroots1 hrun hinv0 rfl
  have htot : ∀ v, goodV lam lvl L v ↔ v ∈ st2.funv := by
    intro v
    constructor
    · intro hgv
      have hvis := hallvis v (hroots2 v hgv.1) hgv.2
      rcases (hinv2.visited v hgv).mp hvis with hs | hf
      · rw [hstk2] at hs
        cases hs
      · exact hf
    · intro hv
      exact hinv2.funGood v hv
  refine ⟨htot, hinv2.funNodup, hinv2.lenscc, ?_, ?_⟩
  · intro a b ha hb
    have hia : st2.funv.indexOf a < st2.funv.length :=
      List.indexOf_lt_length.mpr ha
    have hib : st2.funv.indexOf b < st2.funv.length :=
      List.indexOf_lt_length.mpr hb
    have hga : st2.funv.getD (st2.funv.indexOf a) 0 = a := by
      rw [List.getD_eq_getElem _ 0 hia]
      exact List.getElem_indexOf hia
    have hgb : st2.funv.getD (st2.funv.indexOf b) 0 = b := by
      rw [List.getD_eq_getElem _ 0 hib]
      exact List.getElem_indexOf hib
    have hiff := hinv2.sccIff (st2.funv.indexOf a) (st2.funv.indexOf b)
      hia hib
    rw [hga, hgb] at hiff
    rw [hiff]
    have hgva := (htot a).mpr ha
    have hgvb := (htot b).mpr hb
    rw [reachL_iff_reachG adj lam lvl L hq hgva hgvb,
      reachL_iff_reachG adj lam lvl L hq hgvb hgva]
  · intro i hi
    refine ⟨hinv2.sccLe i hi, hinv2.sccIdem i hi, ?_, ?_⟩
    · intro m hm he
      have := hinv2.sccLe m hm
      omega
    · intro k j hik hkj hj he
      exact hinv2.sccConvex i k j hik hkj hj he

def sccExAdj : Nat → List Nat
  | 0 => [1, 2]
  | 1 => [0]
  | 2 => [3]
  | _ => []

def sccExLam : Nat → Bool := fun v => v != 3

def sccExLvl : Nat → Nat := fun v => if v < 3 then 0 else 1

def sccExInit : TarjanSt :=
  ⟨fun j => if sccExLam j then -1 else 0, fun _ => 0, fun _ => false,
    [], [], [], 0⟩

theorem claim_C2_scc_ids_witness :
    (sccLevel sccExAdj sccExLam sccExLvl 0 20 [0, 1, 2] sccExInit).map
        TarjanSt.funv = some [2, 1, 0] ∧
    (sccLevel sccExAdj sccExLam sccExLvl 0 20 [0, 1, 2] sccExInit).map
        TarjanSt.sccv = some [0, 1, 1] ∧
    ReachL sccExAdj sccExLvl 0 0 1 ∧ ReachL sccExAdj sccExLvl 0 1 0 := by
  refine ⟨rfl, rfl, ?_⟩
  cases hrun : sccLevel sccExAdj sccExLam sccExLvl 0 20 [0, 1, 2]
      sccExInit with
  | none =>
    have h0 : (sccLevel sccExAdj sccExLam sccExLvl 0 20 [0, 1, 2]
        sccExInit).map TarjanSt.funv = some [2, 1, 0] := rfl
    rw [hrun] at h0
    cases h0
  | some st2 =>
    have hfunv : st2.funv = [2, 1, 0] := by
      have h0 : (sccLevel sccExAdj sccExLam sccExLvl 0 20 [0, 1, 2]
          sccExInit).map TarjanSt.funv = some [2, 1, 0] := rfl
      rw [hrun] at h0
      exact Option.some_inj.mp h0
    have hsccv : st2.sccv = [0, 1, 1] := by
      have h0 : (sccLevel sccExAdj sccExLam sccExLvl 0 20 [0, 1, 2]
          sccExInit).map TarjanSt.sccv = some [0, 1, 1] := rfl
      rw [hrun] at h0
      exact Option.some_inj.mp h0
    obtain ⟨_, _, _, hiff, _⟩ := claim_C2_scc_ids sccExAdj sccExLam sccExLvl
      0 20 [0, 1, 2] _ _ _ st2
      (by decide)
      (by
        intro j hj
        unfold sccExLvl at hj
        by_cases hc : j < 3
        · interval_cases j
          · exact List.mem_cons_self _ _
          · exact List.mem_cons_of_mem _ (List.mem_cons_self _ _)
          · exact List.mem_cons_of_mem _
              (List.mem_cons_of_mem _ (List.mem_cons_self _ _))
        · rw [if_neg hc] at hj
          omega)
      (fun j _ => ⟨rfl, rfl⟩)
      (by
        intro a b hb hl
        have ha3 : a = 3 := by
          unfold sccExLam at hl
          simpa using hl
        subst ha3
        have he : sccExAdj 3 = [] := rfl
        rw [he] at hb
        cases hb)
      hrun
    have h01 := (hiff 0 1 (by rw [hfunv]; decide)
      (by rw [hfunv]; decide)).mp (by rw [hfunv, hsccv]; decide)
    exact h01

end Wake
